import Mathlib

/-!
# Elastos.ELA transaction validator: a shallow embedding

The definitions below embed `blockchain/txvalidator.go`.  Machine integers are
unbounded integers with explicit wrap-around, Go `error` results are values of
`CheckResult`, and a function that can stop with a run-time fault (an index out
of range, a division by zero, a nil dereference) returns an `Option` whose
`none` is that fault.  The ledger, the store and the configuration, which the
Go code reaches through global variables, are gathered in a `Context` that is
passed explicitly.
-/

namespace Elastos

/-! ## Machine arithmetic -/

/-- Two's complement wrap-around of an exact integer into the `int64` range. -/
def wrapInt64 (x : Int) : Int := (x + 2 ^ 63) % 2 ^ 64 - 2 ^ 63

/-- Wrap-around of an exact integer into the `uint32` range. -/
def wrapUint32 (x : Int) : Int := x % 2 ^ 32

/-- Conversion `int(x)` of a `uint64` value on a 64-bit platform: the bit pattern is kept, so
values from `2^63` on become negative. -/
def uint64ToInt (x : Nat) : Int := wrapInt64 (x : Int)

/-- Membership of an exact integer in the `int64` range. -/
def InInt64 (x : Int) : Prop := -(2 ^ 63) ≤ x ∧ x < 2 ^ 63

instance (x : Int) : Decidable (InInt64 x) := by
  unfold InInt64; exact inferInstance

/-! ## A model of the `float64` operations the validator uses

A finite double is `± m * 2^e` with `m < 2^53` (or `m = 2^53` right after a carry, which denotes
the same real number as the normalised form).  Only the operations that occur in the source are
modelled: conversion from `int64`, multiplication, and truncating conversion to `int64`.  Every
value met there has magnitude between `2^-2` and `2^63`, far from the subnormal and overflow
ranges, so the exponent range is not modelled. -/

/-- Finite `float64` value `± m * 2^e`. -/
structure F64 where
  neg : Bool
  m : Nat
  e : Int
  deriving DecidableEq, Repr

/-- Number of low bits that do not fit a 53-bit significand: the least `s` with
`n / 2^s < 2^53`, searched up to `fuel`. -/
def dropBits : Nat → Nat → Nat
  | 0, _ => 0
  | fuel + 1, n => if n < 2 ^ 53 then 0 else dropBits fuel (n / 2) + 1

/-- Round the magnitude `n * 2^e` to the nearest double, ties to even.  The fuel of 128 covers
every `n` below `2^181`. -/
def roundF64 (neg : Bool) (n : Nat) (e : Int) : F64 :=
  let s := dropBits 128 n
  let q := n / 2 ^ s
  let r := n % 2 ^ s
  if 2 ^ s < 2 * r ∨ (2 * r = 2 ^ s ∧ q % 2 = 1) then ⟨neg, q + 1, e + s⟩ else ⟨neg, q, e + s⟩

/-- Conversion `float64(x)` of an `int64`. -/
def F64.ofInt64 (x : Int) : F64 := roundF64 (decide (x < 0)) x.natAbs 0

/-- Floating point product, correctly rounded. -/
def F64.mul (a b : F64) : F64 := roundF64 (a.neg != b.neg) (a.m * b.m) (a.e + b.e)

/-- Conversion of a double to `int64`, which discards the fraction (truncation toward zero). -/
def F64.toInt64 (a : F64) : Int :=
  let t : Nat := if 0 ≤ a.e then a.m * 2 ^ a.e.toNat else a.m / 2 ^ (-a.e).toNat
  if a.neg then -(t : Int) else (t : Int)

/-- The constant `0.3` as a double: `0x3FD3333333333333`, that is `5404319552844595 * 2^-54`. -/
def F64.point3 : F64 := ⟨false, 5404319552844595, -54⟩

/-! ## Data model -/

/-- A 32-byte hash, as its list of bytes. -/
abbrev Uint256 := List Nat

/-- A 21-byte program hash, as its list of bytes; byte 0 is the prefix tag. -/
abbrev Uint168 := List Nat

/-- The all-zero hash `EmptyHash`. -/
def EmptyHash : Uint256 := List.replicate 32 0

/-- The zero value `Uint168{}`. -/
def EmptyUint168 : Uint168 := List.replicate 21 0

/-- The byte `programHash[0]`. -/
def prefixByte (programHash : Uint168) : Nat := programHash.headD 0

/-- Reference to a previous output. -/
structure OutPoint where
  TxID : Uint256
  Index : Nat
  deriving DecidableEq, Repr

/-- Transaction input; `Sequence` is a `uint32`. -/
structure Input where
  Previous : OutPoint
  Sequence : Nat
  deriving DecidableEq, Repr

/-- Transaction output; `Value` is a `Fixed64` (an `int64`), `OutputLock` a `uint32`. -/
structure Output where
  AssetID : Uint256
  Value : Int
  OutputLock : Nat
  ProgramHash : Uint168
  deriving DecidableEq, Repr

/-- Transaction attribute. -/
structure Attribute where
  Usage : Nat
  Data : List Nat
  deriving DecidableEq, Repr

/-- Program of a transaction; a `nil` byte slice is `none`. -/
structure Program where
  Code : Option (List Nat)
  Parameter : Option (List Nat)
  deriving DecidableEq, Repr

/-- Payload of a sidechain proof-of-work transaction. -/
structure PayloadSideChainPow where
  SideBlockHash : Uint256
  SideGenesisHash : Uint256
  BlockHeight : Nat
  SignedData : List Nat
  deriving DecidableEq, Repr

/-- Modelled from the spec: the payload types are declared in the `core` package, which is not
among the sources; the spec gives the payload as a closed tagged variant with these cases.
`Unknown` stands for any payload the type switch of `CheckTransactionPayload` sends to its
`default` branch. -/
inductive Payload where
  | RegisterAsset (Precision : Nat) (Amount : Int)
  | TransferAsset
  | Record
  | CoinBase
  | SideChainPow (pow : PayloadSideChainPow)
  | WithdrawFromSideChain (SideChainTransactionHashes : List Uint256)
  | TransferCrossChainAsset (CrossChainAddresses : List String) (CrossChainAmounts : List Int)
      (OutputIndexes : List Nat)
  | Unknown
  deriving DecidableEq, Repr

/-- Modelled from the spec: the transaction type is declared in the `core` package, which is not
among the sources; the fields are those the spec lists and the validator reads. -/
structure Transaction where
  LockTime : Nat
  Inputs : List Input
  Outputs : List Output
  Attributes : List Attribute
  Programs : List Program
  Payload : Payload
  deriving DecidableEq, Repr

/-- Modelled from the spec: `IsCoinBaseTx` is declared outside the sources; the spec identifies
the kind of a transaction with the tag of its payload. -/
def Transaction.IsCoinBaseTx (txn : Transaction) : Bool :=
  match txn.Payload with
  | .CoinBase => true
  | _ => false

/-- Modelled from the spec: `IsSideChainPowTx`, by the tag of the payload. -/
def Transaction.IsSideChainPowTx (txn : Transaction) : Bool :=
  match txn.Payload with
  | .SideChainPow _ => true
  | _ => false

/-- Modelled from the spec: `IsWithdrawFromSideChainTx`, by the tag of the payload. -/
def Transaction.IsWithdrawFromSideChainTx (txn : Transaction) : Bool :=
  match txn.Payload with
  | .WithdrawFromSideChain _ => true
  | _ => false

/-- Modelled from the spec: `IsTransferCrossChainAssetTx`, by the tag of the payload. -/
def Transaction.IsTransferCrossChainAssetTx (txn : Transaction) : Bool :=
  match txn.Payload with
  | .TransferCrossChainAsset _ _ _ => true
  | _ => false

/-- Modelled from the spec: `Input.ReferKey` is declared outside the sources; the spec describes
it as the canonical form of the pair `(prev_tx_id, prev_index)`, so the key is that pair. -/
def Input.ReferKey (input : Input) : Uint256 × Nat := (input.Previous.TxID, input.Previous.Index)

/-- The reference map `map[*Input]*Output` in one enumeration order of its entries. -/
abbrev References := List (Input × Output)

/-- Go `error` result: `ok` is `nil`, `err` carries the message. -/
inductive CheckResult where
  | ok
  | err (msg : String)
  deriving DecidableEq, Repr

/-- The error codes of the `errors` package that the validator returns. -/
inductive ErrCode where
  | Success
  | ErrTransactionSize
  | ErrInvalidInput
  | ErrInvalidOutput
  | ErrAssetPrecision
  | ErrAttributeProgram
  | ErrTransactionPayload
  | ErrSidechainTxDuplicate
  | ErrTransactionDuplicate
  | ErrSideChainPowConsensus
  | ErrDoubleSpend
  | ErrUnknownReferedTx
  | ErrUTXOLocked
  | ErrTransactionBalance
  | ErrTransactionSignature
  | ErrIneffectiveCoinbase
  deriving DecidableEq, Repr

/-- The ledger, store, configuration and library functions the validator calls but does not
define: `DefaultLedger`, `config.Parameters`, and the `core`, `common` and `crypto` helpers. -/
structure Context where
  /-- Serialized size `txn.GetSize()`. -/
  GetSize : Transaction → Int
  /-- Parameter `config.Parameters.MaxBlockSize`. -/
  MaxBlockSize : Int
  /-- Native asset `DefaultLedger.Blockchain.AssetID`. -/
  AssetID : Uint256
  /-- Program hash `FoundationAddress`. -/
  FoundationAddress : Uint168
  /-- Version flag `CheckTxOut`. -/
  CheckTxOut : Nat
  /-- Prefix tag `PrefixStandard`. -/
  PrefixStandard : Nat
  /-- Prefix tag `PrefixMultisig`. -/
  PrefixMultisig : Nat
  /-- Prefix tag `PrefixCrossChain`. -/
  PrefixCrossChain : Nat
  /-- Precision of a registered asset, `DefaultLedger.GetAsset(id)`; `none` is an error. -/
  GetAsset : Uint256 → Option Nat
  /-- Predicate `IsValidAttributeType`. -/
  IsValidAttributeType : Nat → Bool
  /-- Function `ToProgramHash`; `none` is an error. -/
  ToProgramHash : List Nat → Option Uint168
  /-- Constant `MinPrecision`. -/
  MinPrecision : Nat
  /-- Constant `MaxPrecision`. -/
  MaxPrecision : Nat
  /-- Hash `txn.Hash()`. -/
  Hash : Transaction → Uint256
  /-- Store query `IsTxHashDuplicate`. -/
  IsTxHashDuplicate : Uint256 → Bool
  /-- Configured arbitrators `config.Parameters.GetArbitrators()`; `none` is an error. -/
  GetArbitrators : Option (List (List Nat))
  /-- Store query `GetHeight()`, a `uint32`. -/
  GetHeight : Nat
  /-- Function `DecodePoint`; `none` is an error. -/
  DecodePoint : List Nat → Option (List Nat)
  /-- Serialization of the sidechain-pow payload; `none` is an error. -/
  SerializeSideChainPow : PayloadSideChainPow → Option (List Nat)
  /-- Signature check `Verify(publicKey, data, signature)`; `true` when it returns no error. -/
  Verify : List Nat → List Nat → List Nat → Bool
  /-- Store query `IsSidechainTxHashDuplicate`. -/
  IsSidechainTxHashDuplicate : Uint256 → Bool
  /-- Store query `GetTxReference`; `none` is an error. -/
  GetTxReference : Transaction → Option References
  /-- Parameter `config.Parameters.MinCrossChainTxFee`. -/
  MinCrossChainTxFee : Int
  /-- Ledger query `IsDoubleSpend`. -/
  IsDoubleSpend : Transaction → Bool
  /-- Parameter `config.Parameters.PowConfiguration.MinTxFee`. -/
  MinTxFee : Int
  /-- Function `GetTxProgramHashes`; `none` is an error. -/
  GetTxProgramHashes : Transaction → References → Option (List Uint168)
  /-- Bytes written by `tx.SerializeUnsigned`. -/
  SerializeUnsigned : Transaction → List Nat
  /-- Result of `SortProgramHashes`. -/
  SortProgramHashes : List Uint168 → List Uint168
  /-- Result of `SortPrograms`. -/
  SortPrograms : List Program → List Program
  /-- Function `RunPrograms`; `true` when it returns no error. -/
  RunPrograms : List Nat → List Uint168 → List Program → Bool
  /-- Store query `GetTransaction`; `none` when the transaction is not found. -/
  GetTransaction : Uint256 → Option Transaction
  /-- Parameter `config.Parameters.ChainParam.CoinbaseLockTime`, a `uint32`. -/
  CoinbaseLockTime : Nat

/-! ## Sanity checks -/

/-- Source `CheckTransactionSize`. -/
def CheckTransactionSize (ctx : Context) (txn : Transaction) : CheckResult :=
  let size := ctx.GetSize txn
  if size ≤ 0 ∨ size > ctx.MaxBlockSize then .err "Invalid transaction size"
  else .ok

/-- The loop of `CheckTransactionInput` over the inputs of a transaction that is not a coinbase;
`existing` holds the keys of the map `existingTxInputs`. -/
def checkInputsLoop : List Input → List (Uint256 × Nat) → CheckResult
  | [], _ => .ok
  | input :: rest, existing =>
    if input.Previous.TxID = EmptyHash ∧ input.Previous.Index = 65535 then
      .err "invalid transaction input"
    else if input.ReferKey ∈ existing then
      .err "duplicated transaction inputs"
    else checkInputsLoop rest (input.ReferKey :: existing)

/-- Source `CheckTransactionInput`.  In the coinbase branch the match on a one-element list is
the test `len(txn.Inputs) != 1` followed by the reads of `txn.Inputs[0]`. -/
def CheckTransactionInput (txn : Transaction) : CheckResult :=
  if txn.IsCoinBaseTx then
    match txn.Inputs with
    | [input] =>
      if input.Previous.TxID ≠ EmptyHash ∨ input.Previous.Index ≠ 65535 then
        .err "invalid coinbase input"
      else .ok
    | _ => .err "coinbase must has only one input"
  else if txn.Inputs.length ≤ 0 then .err "transaction has no inputs"
  else checkInputsLoop txn.Inputs []

/-- Source `CheckOutputProgramHash`. -/
def CheckOutputProgramHash (ctx : Context) (programHash : Uint168) : Bool :=
  let pre := prefixByte programHash
  if pre = ctx.PrefixStandard ∨ pre = ctx.PrefixMultisig ∨ pre = ctx.PrefixCrossChain ∨
      programHash = EmptyUint168 then true
  else false

/-- The loop of the coinbase branch of `CheckTransactionOutput`: it returns the pair
`(totalReward, foundationReward)`, both accumulated with `int64` additions, or the error of the
first output whose asset is not the native one. -/
def coinbaseRewards (ctx : Context) : List Output → Int → Int → Except String (Int × Int)
  | [], totalReward, foundationReward => .ok (totalReward, foundationReward)
  | output :: rest, totalReward, foundationReward =>
    if output.AssetID ≠ ctx.AssetID then .error "asset ID in coinbase is invalid"
    else
      coinbaseRewards ctx rest (wrapInt64 (totalReward + output.Value))
        (if output.ProgramHash = ctx.FoundationAddress then
          wrapInt64 (foundationReward + output.Value)
        else foundationReward)

/-- The value `Fixed64(float64(totalReward)*0.3)`. -/
def foundationThreshold (totalReward : Int) : Int :=
  ((F64.ofInt64 totalReward).mul F64.point3).toInt64

/-- The loop of the last branch of `CheckTransactionOutput`, over the outputs of a transaction
that is not a coinbase. -/
def checkOutputsLoop (ctx : Context) (version : Nat) : List Output → CheckResult
  | [] => .ok
  | output :: rest =>
    if output.AssetID ≠ ctx.AssetID then .err "asset ID in output is invalid"
    else if output.Value < 0 then .err "Invalide transaction UTXO output."
    else if version &&& ctx.CheckTxOut = ctx.CheckTxOut ∧
        ¬ CheckOutputProgramHash ctx output.ProgramHash = true then
      .err "output address is invalid"
    else checkOutputsLoop ctx version rest

/-- Source `CheckTransactionOutput`; `version` is a `uint32`. -/
def CheckTransactionOutput (ctx : Context) (version : Nat) (txn : Transaction) : CheckResult :=
  if txn.Outputs.length > 65535 then
    .err "output count should not be greater than 65535(MaxUint16)"
  else if txn.IsCoinBaseTx then
    if txn.Outputs.length < 2 then .err "coinbase output is not enough, at least 2"
    else
      match coinbaseRewards ctx txn.Outputs 0 0 with
      | .error msg => .err msg
      | .ok (totalReward, foundationReward) =>
        if foundationReward < foundationThreshold totalReward then
          .err "Reward to foundation in coinbase < 30%"
        else .ok
  else if txn.Outputs.length < 1 then .err "transaction has no outputs"
  else checkOutputsLoop ctx version txn.Outputs

/-- The value `int64(math.Pow(10, float64(k)))`.  The power is exact while it fits an `int64`
(`k ≤ 18`); the conversion of a double beyond the `int64` range is fixed by the platform, and
amd64 yields `-2^63`. -/
def pow10Int64 (k : Nat) : Int := if k ≤ 18 then 10 ^ k else -(2 ^ 63)

/-- Source `checkAmountPrecise`; `precision` is a byte, so `8-precision` wraps modulo 256, and
`%` is the truncated remainder of Go. -/
def checkAmountPrecise (amount : Int) (precision : Nat) : Bool :=
  decide (amount.tmod (pow10Int64 ((8 + 256 - precision % 256) % 256)) = 0)

/-- Append an output to the slice stored under its asset in the map `assetOutputs`, kept as an
association list in the order in which the assets first occur. -/
def appendAssetOutput (v : Output) : List (Uint256 × List Output) → List (Uint256 × List Output)
  | [] => [(v.AssetID, [v])]
  | (k, outputs) :: rest =>
    if k = v.AssetID then (k, outputs ++ [v]) :: rest
    else (k, outputs) :: appendAssetOutput v rest

/-- The inner loop of `CheckAssetPrecision` over the outputs of one asset. -/
def checkPrecisionLoop (precision : Nat) : List Output → CheckResult
  | [] => .ok
  | output :: rest =>
    if ¬ checkAmountPrecise output.Value precision = true then
      .err "The precision of asset is incorrect."
    else checkPrecisionLoop precision rest

/-- The outer loop of `CheckAssetPrecision` over the entries of `assetOutputs`. -/
def checkAssetsLoop (ctx : Context) : List (Uint256 × List Output) → CheckResult
  | [] => .ok
  | (k, outputs) :: rest =>
    match ctx.GetAsset k with
    | none => .err "The asset not exist in local blockchain."
    | some precision =>
      match checkPrecisionLoop precision outputs with
      | .err msg => .err msg
      | .ok => checkAssetsLoop ctx rest

/-- Source `CheckAssetPrecision`.  Go enumerates the map `assetOutputs` in an unspecified
order; the order of first occurrence is used here. -/
def CheckAssetPrecision (ctx : Context) (txn : Transaction) : CheckResult :=
  if txn.Outputs.length = 0 then .ok
  else checkAssetsLoop ctx (txn.Outputs.foldl (fun m v => appendAssetOutput v m) [])

/-- The attribute loop of `CheckAttributeProgram`. -/
def checkAttributesLoop (ctx : Context) : List Attribute → CheckResult
  | [] => .ok
  | attr :: rest =>
    if ¬ ctx.IsValidAttributeType attr.Usage = true then .err "invalid attribute usage"
    else checkAttributesLoop ctx rest

/-- The program loop of `CheckAttributeProgram`. -/
def checkProgramsLoop (ctx : Context) : List Program → CheckResult
  | [] => .ok
  | program :: rest =>
    match program.Code with
    | none => .err "invalid program code nil"
    | some code =>
      match program.Parameter with
      | none => .err "invalid program parameter nil"
      | some _ =>
        match ctx.ToProgramHash code with
        | none => .err "invalid program code"
        | some _ => checkProgramsLoop ctx rest

/-- Source `CheckAttributeProgram`. -/
def CheckAttributeProgram (ctx : Context) (tx : Transaction) : CheckResult :=
  if tx.IsCoinBaseTx then .ok
  else
    match checkAttributesLoop ctx tx.Attributes with
    | .err msg => .err msg
    | .ok =>
      if tx.Programs.length = 0 then .err "no programs found in transaction"
      else checkProgramsLoop ctx tx.Programs

/-- Source `CheckTransactionPayload`; the precision is a byte, compared with the two constants. -/
def CheckTransactionPayload (ctx : Context) (txn : Transaction) : CheckResult :=
  match txn.Payload with
  | .RegisterAsset precision amount =>
    if precision < ctx.MinPrecision ∨ precision > ctx.MaxPrecision then
      .err "Invalide asset Precision."
    else if ¬ checkAmountPrecise amount precision = true then
      .err "Invalide asset value,out of precise."
    else .ok
  | .TransferAsset => .ok
  | .Record => .ok
  | .CoinBase => .ok
  | .SideChainPow _ => .ok
  | .WithdrawFromSideChain _ => .ok
  | .TransferCrossChainAsset _ _ _ => .ok
  | .Unknown => .err "[txValidator],invalidate transaction payload type."

/-- The loop of `CheckDuplicateSidechainTx`; `existing` holds the keys of `existingHashs`. -/
def checkSidechainHashesLoop : List Uint256 → List Uint256 → CheckResult
  | [], _ => .ok
  | hash :: rest, existing =>
    if hash ∈ existing then .err "Duplicate sidechain tx detected in a transaction"
    else checkSidechainHashesLoop rest (hash :: existing)

/-- Source `CheckDuplicateSidechainTx`. -/
def CheckDuplicateSidechainTx (txn : Transaction) : CheckResult :=
  match txn.Payload with
  | .WithdrawFromSideChain hashes => checkSidechainHashesLoop hashes []
  | _ => .ok

/-- Source `CheckTransactionSanity`. -/
def CheckTransactionSanity (ctx : Context) (version : Nat) (txn : Transaction) : ErrCode :=
  match CheckTransactionSize ctx txn with
  | .err _ => .ErrTransactionSize
  | .ok =>
  match CheckTransactionInput txn with
  | .err _ => .ErrInvalidInput
  | .ok =>
  match CheckTransactionOutput ctx version txn with
  | .err _ => .ErrInvalidOutput
  | .ok =>
  match CheckAssetPrecision ctx txn with
  | .err _ => .ErrAssetPrecision
  | .ok =>
  match CheckAttributeProgram ctx txn with
  | .err _ => .ErrAttributeProgram
  | .ok =>
  match CheckTransactionPayload ctx txn with
  | .err _ => .ErrTransactionPayload
  | .ok =>
  match CheckDuplicateSidechainTx txn with
  | .err _ => .ErrSidechainTxDuplicate
  | .ok => if txn.IsCoinBaseTx then .Success else .Success

/-! ## Contextual checks -/

/-- Sum of `Fixed64` values accumulated with `+=`, every addition wrapping as `int64` does. -/
def sumFixed64 (values : List Int) : Int :=
  values.foldl (fun acc v => wrapInt64 (acc + v)) 0

/-- Source `CheckDestructionAddress`, as a loop over the entries of the reference map. -/
def CheckDestructionAddress : References → CheckResult
  | [] => .ok
  | (_, output) :: rest =>
    if output.ProgramHash =
        [33, 32, 254, 229, 215, 235, 62, 92, 125, 49, 151, 254, 207, 108, 13, 227, 15, 136, 154,
          206, 247] then
      .err "cannot use utxo in the Elastos foundation destruction address"
    else CheckDestructionAddress rest

/-- The loop of `CheckTransactionCoinbaseOutputLock`.  The error of `GetTransaction` is
discarded by the source, which then calls `IsCoinBaseTx` on the returned pointer; for a
transaction that is not found the pointer is nil and reading it is a run-time fault (`none`).
The subtraction is a `uint32` subtraction. -/
def coinbaseOutputLockLoop (ctx : Context) : List Input → Option CheckResult
  | [] => some .ok
  | input :: rest =>
    match ctx.GetTransaction input.Previous.TxID with
    | none => none
    | some referTxn =>
      if referTxn.IsCoinBaseTx then
        if wrapUint32 ((ctx.GetHeight : Int) - (referTxn.LockTime : Int)) <
            (ctx.CoinbaseLockTime : Int) then
          some (.err "cannot unlock coinbase transaction output")
        else coinbaseOutputLockLoop ctx rest
      else coinbaseOutputLockLoop ctx rest

/-- Source `CheckTransactionCoinbaseOutputLock`. -/
def CheckTransactionCoinbaseOutputLock (ctx : Context) (txn : Transaction) : Option CheckResult :=
  coinbaseOutputLockLoop ctx txn.Inputs

/-- The loop of `CheckTransactionUTXOLock` over the entries of the reference map. -/
def utxoLockLoop (txn : Transaction) : References → CheckResult
  | [] => .ok
  | (input, output) :: rest =>
    if output.OutputLock = 0 then utxoLockLoop txn rest
    else if input.Sequence ≠ 4294967294 then .err "Invalid input sequence"
    else if txn.LockTime < output.OutputLock then .err "UTXO output locked"
    else utxoLockLoop txn rest

/-- Source `CheckTransactionUTXOLock`. -/
def CheckTransactionUTXOLock (txn : Transaction) (references : References) : CheckResult :=
  if txn.IsCoinBaseTx then .ok
  else utxoLockLoop txn references

/-- Source `CheckTransactionFee`. -/
def CheckTransactionFee (ctx : Context) (tx : Transaction) (references : References) :
    CheckResult :=
  let outputValue := sumFixed64 (tx.Outputs.map (fun output => output.Value))
  let inputValue := sumFixed64 (references.map (fun reference => reference.2.Value))
  if inputValue < wrapInt64 (wrapInt64 ctx.MinTxFee + outputValue) then
    .err "transaction fee not enough"
  else .ok

/-- Source `CheckTransactionSignature`. -/
def CheckTransactionSignature (ctx : Context) (tx : Transaction) (references : References) :
    CheckResult :=
  match ctx.GetTxProgramHashes tx references with
  | none => .err "GetTxProgramHashes failed"
  | some hashes =>
    if ctx.RunPrograms (ctx.SerializeUnsigned tx) (ctx.SortProgramHashes hashes)
        (ctx.SortPrograms tx.Programs) then .ok
    else .err "RunPrograms failed"

/-- Source `GetCurrentArbiter`: `none` is the run-time fault of the `uint32` remainder by zero,
`some (.error _)` the error of `GetArbitrators`. -/
def GetCurrentArbiter (ctx : Context) : Option (Except String (List Nat)) :=
  match ctx.GetArbitrators with
  | none => some (.error "GetArbitrators failed")
  | some arbitrators =>
    let n := arbitrators.length % 2 ^ 32
    if n = 0 then none
    else
      match arbitrators.get? (ctx.GetHeight % n) with
      | none => none
      | some arbitrator => some (.ok arbitrator)

/-- Source `CheckSideChainPowConsensus`.  The signed bytes are the first 68 of the serialized
payload, which starts with two 32-byte hashes and a 4-byte height. -/
def CheckSideChainPowConsensus (ctx : Context) (txn : Transaction) (arbitrator : List Nat) :
    CheckResult :=
  match txn.Payload with
  | .SideChainPow payloadSideChainPow =>
    match ctx.DecodePoint arbitrator with
    | none => .err "DecodePoint failed"
    | some publicKey =>
      match ctx.SerializeSideChainPow payloadSideChainPow with
      | none => .err "Serialize failed"
      | some buf =>
        if ctx.Verify publicKey (buf.take 68) payloadSideChainPow.SignedData then .ok
        else .err "Arbitrator is not matched"
  | _ => .err "Side mining transaction has invalid payload"

/-- The first loop of `CheckWithdrawFromSideChainTransaction`, over the sidechain hashes. -/
def withdrawHashesLoop (ctx : Context) : List Uint256 → CheckResult
  | [] => .ok
  | hash :: rest =>
    if ctx.IsSidechainTxHashDuplicate hash then
      .err "Duplicate side chain transaction hash in paylod"
    else withdrawHashesLoop ctx rest

/-- The second loop of `CheckWithdrawFromSideChainTransaction`, over the referenced outputs. -/
def withdrawReferenceLoop (ctx : Context) : References → CheckResult
  | [] => .ok
  | (_, v) :: rest =>
    if prefixByte v.ProgramHash ≠ ctx.PrefixCrossChain then
      .err "Invalid transaction inputs address, without \"X\" at beginning"
    else withdrawReferenceLoop ctx rest

/-- Source `CheckWithdrawFromSideChainTransaction`. -/
def CheckWithdrawFromSideChainTransaction (ctx : Context) (txn : Transaction) : CheckResult :=
  match txn.Payload with
  | .WithdrawFromSideChain hashes =>
    match withdrawHashesLoop ctx hashes with
    | .err msg => .err msg
    | .ok =>
      match ctx.GetTxReference txn with
      | none => .err "Invalid transaction inputs"
      | some reference => withdrawReferenceLoop ctx reference
  | _ => .err "Invalid withdraw from side chain payload type"

/-- The loop of `CheckTransferCrossChainAssetTransaction` over `OutputIndexes`; `seen` holds the
keys of `outputIndexMap`, and the bound is tested on `int(outputIndex)`. -/
def outputIndexLoop (outputCount : Nat) : List Nat → List Nat → CheckResult
  | [], _ => .ok
  | outputIndex :: rest, seen =>
    if outputIndex ∈ seen ∨ uint64ToInt outputIndex ≥ (outputCount : Int) then
      .err "Invalid transaction payload cross chain index"
    else outputIndexLoop outputCount rest (outputIndex :: seen)

/-- The loop of `CheckTransferCrossChainAssetTransaction` over `i < len(CrossChainAddresses)`,
reading `OutputIndexes[i]` and `txn.Outputs[OutputIndexes[i]]`; an index out of range is a
run-time fault (`none`). -/
def crossChainAddressLoop (ctx : Context) (outputs : List Output) :
    List String → List Nat → Option CheckResult
  | [], _ => some .ok
  | _ :: _, [] => none
  | address :: addresses, outputIndex :: indexes =>
    match outputs.get? outputIndex with
    | none => none
    | some output =>
      if prefixByte output.ProgramHash ≠ ctx.PrefixCrossChain then
        some (.err "Invalid transaction output address, without \"X\" at beginning")
      else if address = "" then some (.err "Invalid transaction cross chain address ")
      else crossChainAddressLoop ctx outputs addresses indexes

/-- The loop of `CheckTransferCrossChainAssetTransaction` over `i < len(CrossChainAmounts)`; the
subtraction is an `int64` subtraction. -/
def crossChainAmountLoop (ctx : Context) (outputs : List Output) :
    List Int → List Nat → Option CheckResult
  | [], _ => some .ok
  | _ :: _, [] => none
  | amount :: amounts, outputIndex :: indexes =>
    match outputs.get? outputIndex with
    | none => none
    | some output =>
      if amount < 0 ∨ amount > wrapInt64 (output.Value - wrapInt64 ctx.MinCrossChainTxFee) then
        some (.err "Invalid transaction cross chain amount")
      else crossChainAmountLoop ctx outputs amounts indexes

/-- The fee test that ends `CheckTransferCrossChainAssetTransaction`. -/
def crossChainFeeCheck (ctx : Context) (txn : Transaction) : CheckResult :=
  match ctx.GetTxReference txn with
  | none => .err "Invalid transaction inputs"
  | some reference =>
    let totalInput := sumFixed64 (reference.map (fun v => v.2.Value))
    let totalOutput := sumFixed64 (txn.Outputs.map (fun output => output.Value))
    if wrapInt64 (totalInput - totalOutput) < wrapInt64 ctx.MinCrossChainTxFee then
      .err "Invalid transaction fee"
    else .ok

/-- Source `CheckTransferCrossChainAssetTransaction`; `none` is a run-time fault. -/
def CheckTransferCrossChainAssetTransaction (ctx : Context) (txn : Transaction) :
    Option CheckResult :=
  match txn.Payload with
  | .TransferCrossChainAsset addresses amounts indexes =>
    if addresses.length = 0 ∨ addresses.length > txn.Outputs.length ∨
        addresses.length ≠ amounts.length ∨ amounts.length ≠ indexes.length then
      some (.err "Invalid transaction payload content")
    else
      match outputIndexLoop txn.Outputs.length indexes [] with
      | .err msg => some (.err msg)
      | .ok =>
        match crossChainAddressLoop ctx txn.Outputs addresses indexes with
        | none => none
        | some (.err msg) => some (.err msg)
        | some .ok =>
          match crossChainAmountLoop ctx txn.Outputs amounts indexes with
          | none => none
          | some (.err msg) => some (.err msg)
          | some .ok => some (crossChainFeeCheck ctx txn)
  | _ => some (.err "Invalid transfer cross chain asset payload type")

/-- Lines 75 to 84 of `CheckTransactionContext`: the sidechain proof-of-work step. -/
def sideChainPowStep (ctx : Context) (txn : Transaction) : Option CheckResult :=
  if txn.IsSideChainPowTx then
    match GetCurrentArbiter ctx with
    | none => none
    | some (.error msg) => some (.err msg)
    | some (.ok arbitrtor) => some (CheckSideChainPowConsensus ctx txn arbitrtor)
  else some .ok

/-- Lines 86 to 91 of `CheckTransactionContext`: the withdraw-from-sidechain step. -/
def withdrawStep (ctx : Context) (txn : Transaction) : Option CheckResult :=
  if txn.IsWithdrawFromSideChainTx then some (CheckWithdrawFromSideChainTransaction ctx txn)
  else some .ok

/-- Lines 93 to 98 of `CheckTransactionContext`: the cross-chain transfer step. -/
def crossChainStep (ctx : Context) (txn : Transaction) : Option CheckResult :=
  if txn.IsTransferCrossChainAssetTx then CheckTransferCrossChainAssetTransaction ctx txn
  else some .ok

/-- Lines 100 to 104 of `CheckTransactionContext`: the double-spend step. -/
def doubleSpendStep (ctx : Context) (txn : Transaction) : Option CheckResult :=
  if ctx.IsDoubleSpend txn then some (.err "IsDoubleSpend check faild.") else some .ok

/-- Source `CheckTransactionContext`; `none` is a run-time fault in one of the steps. -/
def CheckTransactionContext (ctx : Context) (txn : Transaction) : Option ErrCode :=
  if ctx.IsTxHashDuplicate (ctx.Hash txn) then some .ErrTransactionDuplicate
  else if txn.IsCoinBaseTx then some .Success
  else
  match sideChainPowStep ctx txn with
  | none => none
  | some (.err _) => some .ErrSideChainPowConsensus
  | some .ok =>
  match withdrawStep ctx txn with
  | none => none
  | some (.err _) => some .ErrSidechainTxDuplicate
  | some .ok =>
  match crossChainStep ctx txn with
  | none => none
  | some (.err _) => some .ErrInvalidOutput
  | some .ok =>
  match doubleSpendStep ctx txn with
  | none => none
  | some (.err _) => some .ErrDoubleSpend
  | some .ok =>
  match ctx.GetTxReference txn with
  | none => some .ErrUnknownReferedTx
  | some references =>
  match CheckTransactionUTXOLock txn references with
  | .err _ => some .ErrUTXOLocked
  | .ok =>
  match CheckTransactionFee ctx txn references with
  | .err _ => some .ErrTransactionBalance
  | .ok =>
  match CheckDestructionAddress references with
  | .err _ => some .ErrInvalidInput
  | .ok =>
  match CheckTransactionSignature ctx txn references with
  | .err _ => some .ErrTransactionSignature
  | .ok =>
  match CheckTransactionCoinbaseOutputLock ctx txn with
  | none => none
  | some (.err _) => some .ErrIneffectiveCoinbase
  | some .ok => some .Success

/-! ## The order of the checks and the exact sums, as the spec states them -/

/-- The error code of the first failing check of a list of checks taken in order, each paired
with the code it is reported with; `Success` when none fails. -/
def firstFailure : List (CheckResult × ErrCode) → ErrCode
  | [] => .Success
  | (.err _, code) :: _ => code
  | (.ok, _) :: rest => firstFailure rest

/-- The seven checks of the sanity check in the order of the spec, each with its error kind. -/
def sanityChecks (ctx : Context) (version : Nat) (txn : Transaction) :
    List (CheckResult × ErrCode) :=
  [(CheckTransactionSize ctx txn, .ErrTransactionSize),
   (CheckTransactionInput txn, .ErrInvalidInput),
   (CheckTransactionOutput ctx version txn, .ErrInvalidOutput),
   (CheckAssetPrecision ctx txn, .ErrAssetPrecision),
   (CheckAttributeProgram ctx txn, .ErrAttributeProgram),
   (CheckTransactionPayload ctx txn, .ErrTransactionPayload),
   (CheckDuplicateSidechainTx txn, .ErrSidechainTxDuplicate)]

/-- Exact sum of the output values of a transaction. -/
def totalOutputValue (txn : Transaction) : Int :=
  (txn.Outputs.map (fun output => output.Value)).sum

/-- Exact sum of the values of the outputs paid to the foundation address. -/
def foundationOutputValue (ctx : Context) (txn : Transaction) : Int :=
  ((txn.Outputs.filter (fun output => decide (output.ProgramHash = ctx.FoundationAddress))).map
    (fun output => output.Value)).sum

/-! ## Example data -/

/-- A native asset id for the examples. -/
def sampleAsset : Uint256 := List.replicate 32 1

/-- A foundation program hash for the examples. -/
def sampleFoundation : Uint168 := 33 :: List.replicate 20 7

/-- A standard program hash for the examples. -/
def sampleAddress : Uint168 := 33 :: List.replicate 20 9

/-- A context for the examples: every asset but the native one is unknown, every external
check succeeds, the chain is at height 200. -/
def sampleContext : Context where
  GetSize := fun _ => 100
  MaxBlockSize := 8000000
  AssetID := sampleAsset
  FoundationAddress := sampleFoundation
  CheckTxOut := 1
  PrefixStandard := 33
  PrefixMultisig := 18
  PrefixCrossChain := 75
  GetAsset := fun k => if k = sampleAsset then some 8 else none
  IsValidAttributeType := fun _ => true
  ToProgramHash := fun _ => some sampleAddress
  MinPrecision := 0
  MaxPrecision := 8
  Hash := fun _ => List.replicate 32 5
  IsTxHashDuplicate := fun _ => false
  GetArbitrators := some [[1]]
  GetHeight := 200
  DecodePoint := fun b => some b
  SerializeSideChainPow := fun _ => some []
  Verify := fun _ _ _ => true
  IsSidechainTxHashDuplicate := fun _ => false
  GetTxReference := fun _ => some []
  MinCrossChainTxFee := 2
  IsDoubleSpend := fun _ => false
  MinTxFee := 100
  GetTxProgramHashes := fun _ _ => some []
  SerializeUnsigned := fun _ => []
  SortProgramHashes := fun l => l
  SortPrograms := fun l => l
  RunPrograms := fun _ _ _ => true
  GetTransaction := fun _ => none
  CoinbaseLockTime := 100

/-- A coinbase transaction paying `a` to the foundation and `b` to another address. -/
def coinbaseExample (a b : Int) : Transaction :=
  { LockTime := 0, Inputs := [⟨⟨EmptyHash, 65535⟩, 0⟩],
    Outputs := [⟨sampleAsset, a, 0, sampleFoundation⟩, ⟨sampleAsset, b, 0, sampleAddress⟩],
    Attributes := [], Programs := [], Payload := .CoinBase }

/-- A transfer transaction for the examples, with one program. -/
def transferExample (lockTime : Nat) (inputs : List Input) (outputs : List Output) : Transaction :=
  { LockTime := lockTime, Inputs := inputs, Outputs := outputs, Attributes := [],
    Programs := [⟨some [1], some [1]⟩], Payload := .TransferAsset }

/-- An input for the examples, spending output 0 of the transaction with hash `2…2`. -/
def sampleInput (sequence : Nat) : Input := ⟨⟨List.replicate 32 2, 0⟩, sequence⟩

/-- A native-asset output to a standard address, for the examples. -/
def sampleOutput (value : Int) (outputLock : Nat) : Output :=
  ⟨sampleAsset, value, outputLock, sampleAddress⟩

/-- The example context with a store in which every input is found: its source is a transfer
transaction whose outputs are the referenced outputs, and `references` is the reference map. -/
def contextWithReferences (references : References) : Context :=
  { sampleContext with
    GetTxReference := fun _ => some references,
    GetTransaction := fun _ =>
      some (transferExample 0 [⟨⟨List.replicate 32 3, 0⟩, 0⟩] (references.map Prod.snd)) }

/-- A coinbase transaction with lock time 100, the source transaction of the maturity examples;
its output 0 pays 1000 to the foundation. -/
def maturitySource : Transaction := { coinbaseExample 1000 2000 with LockTime := 100 }

/-- The example context at a given height, whose store resolves every input to output 0 of
`maturitySource`. -/
def maturityContext (height : Nat) : Context :=
  { sampleContext with
    GetHeight := height,
    GetTransaction := fun _ => some maturitySource,
    GetTxReference := fun _ => some [(sampleInput 0, ⟨sampleAsset, 1000, 0, sampleFoundation⟩)] }

/-- A native-asset output to a cross-chain address (prefix `PrefixCrossChain`). -/
def crossChainOutput (value : Int) : Output :=
  ⟨sampleAsset, value, 0, 75 :: List.replicate 20 9⟩

/-- A cross-chain transfer for the examples: one cross-chain address, paid by output 0. -/
def crossChainExample (outputs : List Output) : Transaction :=
  { LockTime := 0, Inputs := [sampleInput 0], Outputs := outputs, Attributes := [],
    Programs := [⟨some [1], some [1]⟩],
    Payload := .TransferCrossChainAsset ["a"] [0] [0] }

/-- A cross-chain transfer whose payload names the output index `2^63`. -/
def hugeIndexExample : Transaction :=
  { crossChainExample [crossChainOutput 1000] with
    Payload := .TransferCrossChainAsset ["a"] [0] [2 ^ 63] }

/-- A program hash whose prefix byte is 0 while another byte is not. -/
def nullPrefixHash : Uint168 := 0 :: 1 :: List.replicate 19 0

/-- The example context with a store that fails to resolve the references of every
transaction. -/
def unresolvedContext : Context :=
  { sampleContext with GetTxReference := fun _ => none }

/-- A withdraw-from-sidechain transaction for the examples, with one sidechain hash. -/
def withdrawExample (hashes : List Uint256) : Transaction :=
  { LockTime := 0, Inputs := [sampleInput 0], Outputs := [sampleOutput 1 0], Attributes := [],
    Programs := [⟨some [1], some [1]⟩], Payload := .WithdrawFromSideChain hashes }

/-- The example context whose arbitrator list is configured empty: the lookup returns no
arbitrator and no error. -/
def noArbiterContext : Context :=
  { contextWithReferences [(sampleInput 0, sampleOutput 1000 0)] with GetArbitrators := some [] }

/-- A sidechain proof-of-work transaction for the examples. -/
def sideChainPowExample : Transaction :=
  { LockTime := 0, Inputs := [sampleInput 0], Outputs := [sampleOutput 1 0], Attributes := [],
    Programs := [⟨some [1], some [1]⟩],
    Payload := .SideChainPow ⟨List.replicate 32 6, List.replicate 32 7, 10, [1, 2, 3]⟩ }

/-- The program hash of the foundation destruction address, the 21-byte constant of the spec. -/
def destructionAddress : Uint168 :=
  [33, 32, 254, 229, 215, 235, 62, 92, 125, 49, 151, 254, 207, 108, 13, 227, 15, 136, 154, 206,
    247]

/-- The example context in which the native asset has precision 0. -/
def wholeUnitContext : Context :=
  { sampleContext with GetAsset := fun k => if k = sampleAsset then some 0 else none }

/-- The (asset, output) pairs held by the map `assetOutputs`. -/
def assetPairs (m : List (Uint256 × List Output)) : List (Uint256 × Output) :=
  m.flatMap (fun entry => entry.2.map (fun output => (entry.1, output)))

/-- The accept/reject verdict of a check: `true` for `nil`, `false` for any error. -/
def CheckResult.accepted : CheckResult → Bool
  | .ok => true
  | .err _ => false

/-- Two results of the store query `GetTxReference` that hold the same reference pairs,
possibly enumerated in different orders. -/
def sameReferences : Option References → Option References → Prop
  | none, none => True
  | some a, some b => a.Perm b
  | _, _ => False

/-- A second input for the examples, spending output 1 of the transaction with hash `2…2`. -/
def secondInput : Input := ⟨⟨List.replicate 32 2, 1⟩, 0⟩

/-! ## The peer registry of `node/neighbors.go`

A Go map is an association list with pairwise distinct keys.  The order in which `range`
enumerates a map is not fixed by Go: it is given by the function `rangeOrder` of the
environment, of which the theorems only assume that it permutes the entries.  Calls on a peer,
on the connection manager and on the address manager are recorded as a list of effects. -/

/-- Modelled from the spec: the `node` type is declared outside the sources.  The record holds
what the registry reads from a peer: `ID()`, `Inbound()`, `persistent`, `Height()`,
`Connected()`, `VersionKnown()`, `VerAckReceived()`, the group key of `NA()`, whether `NA()` is
set, and the id of `connReq` when there is one.  A peer is identified with its record, which is
taken as fixed while the peer is registered. -/
structure Node where
  id : Nat
  inbound : Bool
  persistent : Bool
  height : Nat
  connected : Bool
  versionKnown : Bool
  verAckReceived : Bool
  groupKey : String
  hasNA : Bool
  connReq : Option Nat
  deriving DecidableEq, Repr

/-- Calls the registry makes on its collaborators. -/
inductive Effect where
  | Disconnect (n : Node)
  | PushGetBlocksMsg (n : Node) (locator : List Uint256) (hashStop : Uint256)
  | StartStallTimer (n : Node)
  | ConnManagerDisconnect (connReqID : Nat)
  | AddrManagerConnected (n : Node)
  deriving DecidableEq, Repr

/-- Assignment `m[k] = v` on a map. -/
def mapInsert {κ ν : Type} [DecidableEq κ] (k : κ) (v : ν) (m : List (κ × ν)) : List (κ × ν) :=
  (k, v) :: m.filter (fun e => decide (e.1 ≠ k))

/-- Statement `delete(m, k)` on a map. -/
def mapDelete {κ ν : Type} [DecidableEq κ] (k : κ) (m : List (κ × ν)) : List (κ × ν) :=
  m.filter (fun e => decide (e.1 ≠ k))

/-- Lookup `m[k]` on a map; `none` when the key is absent. -/
def mapLookup {κ ν : Type} [DecidableEq κ] (k : κ) (m : List (κ × ν)) : Option ν :=
  (m.find? (fun e => decide (e.1 = k))).map (fun e => e.2)

/-- Source `nodeState`. -/
structure nodeState where
  inboundNodes : List (Nat × Node)
  outboundNodes : List (Nat × Node)
  persistentNodes : List (Nat × Node)
  outboundGroups : List (String × Int)
  deriving DecidableEq, Repr

/-- What the registry reads from the `protocol` and `chain` packages, and the enumeration order
of `range` over a map of peers. -/
structure NodeEnv where
  /-- Constant `protocol.DefaultMaxPeers`. -/
  DefaultMaxPeers : Nat
  /-- Height `chain.GetBestHeight()`. -/
  BestHeight : Nat
  /-- Locator `chain.LatestBlockLocator()`; `none` is an error. -/
  LatestBlockLocator : Option (List Uint256)
  /-- The order in which `range` enumerates the entries of a map. -/
  rangeOrder : List (Nat × Node) → List (Nat × Node)

/-- Source `nodeState.Count`. -/
def nodeState.Count (ps : nodeState) : Nat :=
  ps.inboundNodes.length + ps.outboundNodes.length + ps.persistentNodes.length

/-- Source `nodeState.forAllOutboundNodes`: the peers in the order the closure is run on them. -/
def nodeState.forAllOutboundNodes (env : NodeEnv) (ps : nodeState) : List Node :=
  (env.rangeOrder ps.outboundNodes).map (fun e => e.2) ++
    (env.rangeOrder ps.persistentNodes).map (fun e => e.2)

/-- Source `nodeState.forAllNodes`: the peers in the order the closure is run on them. -/
def nodeState.forAllNodes (env : NodeEnv) (ps : nodeState) : List Node :=
  (env.rangeOrder ps.inboundNodes).map (fun e => e.2) ++ ps.forAllOutboundNodes env

/-- The closure of `startSync`, run on one peer: `bestNode` is set when it is still nil and the
peer is higher than the local best height. -/
def pickCandidate (bestHeight : Nat) (bestNode : Option Node) (n : Node) : Option Node :=
  if bestNode = none ∧ n.height > bestHeight then some n else bestNode

/-- Source `startSync`; the global `syncNode` is passed in and returned. -/
def startSync (env : NodeEnv) (syncNode : Option Node) (state : nodeState) :
    Option Node × List Effect :=
  match syncNode with
  | some n => (some n, [])
  | none =>
    let bestHeight := env.BestHeight
    let bestNode := (state.forAllNodes env).foldl (pickCandidate bestHeight) none
    match bestNode with
    | some best =>
      match env.LatestBlockLocator with
      | none => (none, [])
      | some locator =>
        (some best, [.PushGetBlocksMsg best locator EmptyHash, .StartStallTimer best])
    | none => (none, [])

/-- Source `handleAddNodeMsg`; a nil peer is `none`. -/
def handleAddNodeMsg (env : NodeEnv) (state : nodeState) (n : Option Node) :
    Bool × nodeState × List Effect :=
  match n with
  | none => (false, state, [])
  | some n =>
    if ¬ n.persistent = true ∧ state.Count ≥ env.DefaultMaxPeers then
      (false, state, [.Disconnect n])
    else if n.inbound then
      (true, { state with inboundNodes := mapInsert n.id n state.inboundNodes }, [])
    else
      let groups := mapInsert n.groupKey ((mapLookup n.groupKey state.outboundGroups).getD 0 + 1)
        state.outboundGroups
      if n.persistent then
        (true, { state with outboundGroups := groups,
                            persistentNodes := mapInsert n.id n state.persistentNodes }, [])
      else
        (true, { state with outboundGroups := groups,
                            outboundNodes := mapInsert n.id n state.outboundNodes }, [])

/-- The effects of `handleDoneNodeMsg` for a peer found in its map. -/
def doneFoundEffects (n : Node) : List Effect :=
  match n.inbound, n.connReq with
  | false, some connReqID => [.ConnManagerDisconnect connReqID]
  | _, _ => []

/-- The effects of `handleDoneNodeMsg` for a peer not found in its map. -/
def doneMissingEffects (n : Node) : List Effect :=
  (match n.connReq with
    | some connReqID => [.ConnManagerDisconnect connReqID]
    | none => []) ++
  (if n.verAckReceived ∧ n.versionKnown ∧ n.hasNA then [.AddrManagerConnected n] else [])

/-- The group counters after `handleDoneNodeMsg` found the peer in its map. -/
def doneGroups (state : nodeState) (n : Node) : List (String × Int) :=
  if ¬ n.inbound = true ∧ n.versionKnown = true then
    mapInsert n.groupKey ((mapLookup n.groupKey state.outboundGroups).getD 0 - 1)
      state.outboundGroups
  else state.outboundGroups

/-- Source `handleDoneNodeMsg`. -/
def handleDoneNodeMsg (state : nodeState) (n : Node) : nodeState × List Effect :=
  if n.persistent then
    if (mapLookup n.id state.persistentNodes).isSome then
      ({ state with outboundGroups := doneGroups state n,
                    persistentNodes := mapDelete n.id state.persistentNodes },
        doneFoundEffects n)
    else (state, doneMissingEffects n)
  else if n.inbound then
    if (mapLookup n.id state.inboundNodes).isSome then
      ({ state with outboundGroups := doneGroups state n,
                    inboundNodes := mapDelete n.id state.inboundNodes },
        doneFoundEffects n)
    else (state, doneMissingEffects n)
  else
    if (mapLookup n.id state.outboundNodes).isSome then
      ({ state with outboundGroups := doneGroups state n,
                    outboundNodes := mapDelete n.id state.outboundNodes },
        doneFoundEffects n)
    else (state, doneMissingEffects n)

/-- The state owned by `nodeHandler`: the `nodeState` and the global `syncNode`. -/
structure Registry where
  state : nodeState
  syncNode : Option Node
  deriving DecidableEq, Repr

/-- The messages of the channels `newNodes` and `doneNodes`. -/
inductive RegistryMsg where
  | NewNode (n : Option Node)
  | DoneNode (n : Node)
  deriving DecidableEq, Repr

/-- The registry `nodeHandler` starts with. -/
def emptyRegistry : Registry := ⟨⟨[], [], [], []⟩, none⟩

/-- One iteration of the loop of `nodeHandler` on a message of `newNodes` or `doneNodes`.
The query messages, which reply without changing the state, are not part of this step. -/
def nodeHandlerStep (env : NodeEnv) (reg : Registry) : RegistryMsg → Registry × List Effect
  | .NewNode n =>
    let added := handleAddNodeMsg env reg.state n
    let synced := startSync env reg.syncNode added.2.1
    (⟨added.2.1, synced.1⟩, added.2.2 ++ synced.2)
  | .DoneNode n =>
    let done := handleDoneNodeMsg reg.state n
    if reg.syncNode = some n then
      let synced := startSync env none done.1
      (⟨done.1, synced.1⟩, done.2 ++ synced.2)
    else (⟨done.1, reg.syncNode⟩, done.2)

/-- The registry after `nodeHandler` has processed a sequence of messages. -/
def runRegistry (env : NodeEnv) : Registry → List RegistryMsg → Registry
  | reg, [] => reg
  | reg, msg :: rest => runRegistry env (nodeHandlerStep env reg msg).1 rest

/-- Number of registered peers that are not persistent. -/
def nonPersistentCount (ps : nodeState) : Nat :=
  (ps.inboundNodes.filter (fun e => !e.2.persistent)).length +
  (ps.outboundNodes.filter (fun e => !e.2.persistent)).length +
  (ps.persistentNodes.filter (fun e => !e.2.persistent)).length

/-- A peer is registered when one of the three maps holds it under its id. -/
def isRegistered (ps : nodeState) (n : Node) : Prop :=
  (n.id, n) ∈ ps.inboundNodes ∨ (n.id, n) ∈ ps.outboundNodes ∨ (n.id, n) ∈ ps.persistentNodes

instance (ps : nodeState) (n : Node) : Decidable (isRegistered ps n) := by
  unfold isRegistered; exact inferInstance

/-- The sync peer the spec describes for a sequence of arriving peers: the first one that is
accepted into the registry and reports a height above the local best height. -/
def firstTallAccepted (env : NodeEnv) : nodeState → List Node → Option Node
  | _, [] => none
  | state, p :: rest =>
    if (handleAddNodeMsg env state (some p)).1 = true ∧ p.height > env.BestHeight then some p
    else firstTallAccepted env (handleAddNodeMsg env state (some p)).2.1 rest

/-- An environment for the examples: at most 2 peers, local best height 100, a locator, and a
`range` that enumerates every map backwards. -/
def sampleNodeEnv : NodeEnv where
  DefaultMaxPeers := 2
  BestHeight := 100
  LatestBlockLocator := some [List.replicate 32 8]
  rangeOrder := List.reverse

/-- A peer for the examples. -/
def samplePeer (id : Nat) (inbound persistent : Bool) (height : Nat) : Node :=
  { id := id, inbound := inbound, persistent := persistent, height := height, connected := true,
    versionKnown := true, verAckReceived := true, groupKey := "g", hasNA := true,
    connReq := if inbound then none else some id }

/-- The entries of the three maps of peers. -/
def nodeState.entries (ps : nodeState) : List (Nat × Node) :=
  ps.inboundNodes ++ ps.outboundNodes ++ ps.persistentNodes

/-- The invariant of the three maps: keys are distinct within a map, every peer is stored under
its id, and every peer sits in the map `handleAddNodeMsg` files it into. -/
def wellFiled (ps : nodeState) : Prop :=
  ((ps.inboundNodes.map Prod.fst).Nodup ∧ (ps.outboundNodes.map Prod.fst).Nodup ∧
    (ps.persistentNodes.map Prod.fst).Nodup) ∧
  (∀ e ∈ ps.inboundNodes, e.1 = e.2.id ∧ e.2.inbound = true) ∧
  (∀ e ∈ ps.outboundNodes, e.1 = e.2.id ∧ e.2.inbound = false ∧ e.2.persistent = false) ∧
  (∀ e ∈ ps.persistentNodes, e.1 = e.2.id ∧ e.2.inbound = false ∧ e.2.persistent = true)

/-- Insertion of an element into a slice ordered by `less`, behind the elements that are
`less` than it. -/
def sortInsert {α : Type} (less : α → α → Bool) (a : α) : List α → List α
  | [] => [a]
  | b :: rest => if less b a then b :: sortInsert less a rest else a :: b :: rest

/-- Go's library function `sort.Slice`, by insertion.  The library does not say in which order
it leaves elements that `less` does not tell apart; the theorems use only that the result is
an ordered rearrangement of the slice. -/
def sortSlice {α : Type} (less : α → α → Bool) : List α → List α
  | [] => []
  | a :: rest => sortInsert less a (sortSlice less rest)

/-- Source `handleGetNodesMsg`: the slice sent on the reply channel. -/
def handleGetNodesMsg (env : NodeEnv) (state : nodeState) : List Node :=
  sortSlice (fun a b => decide (a.id < b.id))
    ((state.forAllNodes env).filter (fun n => n.connected))

/-! ## The message handler of `node/handlereip001.go`

One `HandlerEIP001` serves one peer.  The chain, the block store and the transaction pool are
declared outside the sources and are read through the record `ChainEnv`; the set of requested
blocks of the local node is passed in and returned; the global `syncNode` is passed in.  The
messages sent to the peer and the other calls of a handler are recorded, in order, as a list
of effects. -/

/-- Modelled from the spec: the inventory types of the wire protocol, declared outside the
sources; `Other` stands for every type the handler does not know. -/
inductive InvType where
  | InvTypeTx
  | InvTypeBlock
  | InvTypeFilteredBlock
  | Other (code : Nat)
  deriving DecidableEq, Repr

/-- Modelled from the spec: an inventory vector of the wire protocol, its type (the field
`Type` of the source) and its hash. -/
structure InvVect where
  Typ : InvType
  Hash : Uint256
  deriving DecidableEq, Repr

/-- Modelled from the spec: a block, declared in the `core` package; `Hash` stands for the
result of the method `Hash()`. -/
structure Block where
  Hash : Uint256
  Height : Nat
  Transactions : List Transaction
  deriving DecidableEq, Repr

/-- Modelled from the spec: the `getblocks` message of the wire protocol. -/
structure GetBlocks where
  Locator : List Uint256
  HashStop : Uint256
  deriving DecidableEq, Repr

/-- The messages a handler sends to its peer, and its other calls, in the order they happen. -/
inductive HandlerEffect where
  | SendInventory (InvList : List InvVect)
  | SendGetData (InvList : List InvVect)
  | SendNotFound (InvList : List InvVect)
  | SendBlock (block : Block)
  | SendTx (tx : Transaction)
  | SendMerkleBlock (block : Block)
  | SendReject (reason : String) (hash : Uint256)
  | PushGetBlocksMsg (locator : List Uint256) (hashStop : Uint256)
  | Disconnect
  | StallTimerUpdate
  | RemoveHeaderListElement (hash : Uint256)
  | Relay (block : Block)
  deriving DecidableEq, Repr

/-- The chain, the block store and the transaction pool, as the handler reads them.  A lookup
that returns an error is `none`; `LatestBlockLocator` returns a locator together with its
error, which `onBlock` discards; `NewMerkleBlock` gives the matched indexes for the filter of
the peer; `AddBlock` returns `(inMainChain, isOrphan, err)`. -/
structure ChainEnv where
  MaxBlocksPerMsg : Nat
  BlockExists : Uint256 → Bool
  IsKnownOrphan : Uint256 → Bool
  GetOrphanRoot : Uint256 → Uint256
  LatestBlockLocator : List Uint256 × Option String
  BlockLocatorFromHash : Uint256 → List Uint256
  LatestLocatorHash : List Uint256 → Uint256
  GetBlockHashes : Uint256 → Uint256 → Nat → Option (List Uint256)
  GetBlock : Uint256 → Option Block
  GetTransactionPool : Uint256 → Option Transaction
  BestChainHash : Uint256
  NewMerkleBlock : Block → List Nat
  AddBlock : Block → Bool × Bool × Option String
  ExistedID : Uint256 → Bool

/-- Source `HandlerEIP001`.  Next to the registry record of the peer `node` the record holds
what the handler reads from it through `IsExternal()` and `BloomFilter().IsLoaded()`. -/
structure HandlerEIP001 where
  node : Node
  IsExternal : Bool
  filterLoaded : Bool
  continueHash : Option Uint256
  deriving DecidableEq, Repr

/-- Modelled from the spec: `IsRequestedBlock`, the `has` of the requested-blocks set of the
local node, which is declared outside the sources. -/
def IsRequestedBlock (hash : Uint256) (requested : List Uint256) : Bool :=
  decide (hash ∈ requested)

/-- Modelled from the spec: `AddRequestedBlock`, the `add` of the requested-blocks set. -/
def AddRequestedBlock (hash : Uint256) (requested : List Uint256) : List Uint256 :=
  if hash ∈ requested then requested else hash :: requested

/-- Modelled from the spec: `DeleteRequestedBlock`, the `delete` of the requested-blocks
set. -/
def DeleteRequestedBlock (hash : Uint256) (requested : List Uint256) : List Uint256 :=
  requested.filter (fun x => decide (x ≠ hash))

/-- Source `onGetBlocks`.  The semaphore of the source is not part of the result. -/
def onGetBlocks (env : ChainEnv) (h : HandlerEIP001) (req : GetBlocks) :
    HandlerEIP001 × List HandlerEffect :=
  let start := env.LatestLocatorHash req.Locator
  match env.GetBlockHashes start req.HashStop env.MaxBlocksPerMsg with
  | none => (h, [])
  | some hashes =>
    let inv : List InvVect := hashes.map (fun hash => ⟨.InvTypeBlock, hash⟩)
    if hlen : inv.length > 0 then
      if inv.length = env.MaxBlocksPerMsg then
        ({ h with continueHash := some (inv.get ⟨inv.length - 1, by omega⟩).Hash },
          [.SendInventory inv])
      else (h, [.SendInventory inv])
    else (h, [])

/-- The first loop of `onInv`, from index `i - 1` down to 0: the index of the last block
vector, or `-1`. -/
def lastBlockLoop (invList : List InvVect) : Nat → Int
  | 0 => -1
  | i + 1 =>
    if (invList.get? i).map (fun iv => iv.Typ) = some .InvTypeBlock then (i : Int)
    else lastBlockLoop invList i

/-- What the second loop of `onInv` leaves: the set of requested blocks, the vectors added to
`getData`, whether the handler returned from inside the loop, and the effects. -/
structure InvLoopResult where
  requested : List Uint256
  getData : List InvVect
  returned : Bool
  effects : List HandlerEffect
  deriving DecidableEq, Repr

/-- The second loop of `onInv`, on the vectors from index `i` on. -/
def invLoop (env : ChainEnv) (h : HandlerEIP001) (lastBlock : Int) :
    Nat → List Uint256 → List InvVect → InvLoopResult
  | _, requested, [] => ⟨requested, [], false, []⟩
  | i, requested, iv :: rest =>
    match iv.Typ with
    | .InvTypeBlock =>
      if h.IsExternal then ⟨requested, [], true, []⟩
      else
        let haveInv := env.BlockExists iv.Hash || env.IsKnownOrphan iv.Hash ||
          IsRequestedBlock iv.Hash requested
        if ¬ haveInv = true then
          let r := invLoop env h lastBlock (i + 1) (AddRequestedBlock iv.Hash requested) rest
          { r with getData := iv :: r.getData }
        else if env.IsKnownOrphan iv.Hash then
          let r := invLoop env h lastBlock (i + 1) requested rest
          match env.LatestBlockLocator with
          | (_, some _) => r
          | (locator, none) =>
            { r with effects := .PushGetBlocksMsg locator (env.GetOrphanRoot iv.Hash) ::
                r.effects }
        else if (i : Int) = lastBlock then
          let r := invLoop env h lastBlock (i + 1) requested rest
          { r with effects := .PushGetBlocksMsg (env.BlockLocatorFromHash iv.Hash) EmptyHash ::
              r.effects }
        else invLoop env h lastBlock (i + 1) requested rest
    | .InvTypeTx =>
      let r := invLoop env h lastBlock (i + 1) requested rest
      if (env.GetTransactionPool iv.Hash).isNone then { r with getData := iv :: r.getData }
      else r
    | _ => invLoop env h lastBlock (i + 1) requested rest

/-- Source `onInv`: the set of requested blocks it leaves and its effects. -/
def onInv (env : ChainEnv) (syncNode : Option Node) (h : HandlerEIP001)
    (requested : List Uint256) (inv : List InvVect) : List Uint256 × List HandlerEffect :=
  if syncNode ≠ none ∧ some h.node ≠ syncNode then (requested, [])
  else
    let r := invLoop env h (lastBlockLoop inv inv.length) 0 requested inv
    if r.returned then (r.requested, r.effects)
    else (r.requested, r.effects ++ [.SendGetData r.getData])

/-- The transactions `block.Transactions[index]` for the matched indexes; an index out of range
is a run-time fault (`none`). -/
def matchedTransactions (block : Block) : List Nat → Option (List Transaction)
  | [] => some []
  | index :: rest =>
    match block.Transactions.get? index, matchedTransactions block rest with
    | some tx, some txs => some (tx :: txs)
    | _, _ => none

/-- What the loop of `onGetData` leaves: the marker, the vectors added to `notFound`, whether
the handler returned from inside the loop, and the effects. -/
structure GetDataLoopResult where
  continueHash : Option Uint256
  notFound : List InvVect
  returned : Bool
  effects : List HandlerEffect
  deriving DecidableEq, Repr

/-- The loop of `onGetData`; `none` is a run-time fault. -/
def getDataLoop (env : ChainEnv) (filterLoaded : Bool) :
    Option Uint256 → List InvVect → Option GetDataLoopResult
  | continueHash, [] => some ⟨continueHash, [], false, []⟩
  | continueHash, iv :: rest =>
    match iv.Typ with
    | .InvTypeBlock =>
      match env.GetBlock iv.Hash with
      | none =>
        (getDataLoop env filterLoaded continueHash rest).map
          (fun r => { r with notFound := iv :: r.notFound })
      | some block =>
        if continueHash = some iv.Hash then
          (getDataLoop env filterLoaded none rest).map
            (fun r => { r with effects := HandlerEffect.SendBlock block ::
              HandlerEffect.SendInventory [⟨.InvTypeBlock, env.BestChainHash⟩] :: r.effects })
        else
          (getDataLoop env filterLoaded continueHash rest).map
            (fun r => { r with effects := .SendBlock block :: r.effects })
    | .InvTypeTx =>
      match env.GetTransactionPool iv.Hash with
      | none =>
        (getDataLoop env filterLoaded continueHash rest).map
          (fun r => { r with notFound := iv :: r.notFound })
      | some tx =>
        (getDataLoop env filterLoaded continueHash rest).map
          (fun r => { r with effects := .SendTx tx :: r.effects })
    | .InvTypeFilteredBlock =>
      if ¬ filterLoaded = true then some ⟨continueHash, [], true, []⟩
      else
        match env.GetBlock iv.Hash with
        | none =>
          (getDataLoop env filterLoaded continueHash rest).map
            (fun r => { r with notFound := iv :: r.notFound })
        | some block =>
          match matchedTransactions block (env.NewMerkleBlock block) with
          | none => none
          | some txs =>
            (getDataLoop env filterLoaded continueHash rest).map
              (fun r => { r with effects := .SendMerkleBlock block ::
                (txs.map (fun tx => HandlerEffect.SendTx tx) ++ r.effects) })
    | .Other _ => getDataLoop env filterLoaded continueHash rest

/-- Source `onGetData`: the handler with its marker afterwards and the effects; `none` is a
run-time fault. -/
def onGetData (env : ChainEnv) (h : HandlerEIP001) (getData : List InvVect) :
    Option (HandlerEIP001 × List HandlerEffect) :=
  (getDataLoop env h.filterLoaded h.continueHash getData).map (fun r =>
    ({ h with continueHash := r.continueHash },
      if r.returned then r.effects
      else if r.notFound.length > 0 then r.effects ++ [.SendNotFound r.notFound]
      else r.effects))

/-- Source `handleGetNodeMsg`: the peer sent on the reply channel, `none` when `ok` is
false. -/
def handleGetNodeMsg (env : NodeEnv) (state : nodeState) (id : Nat) : Option Node :=
  (state.forAllNodes env).foldl (fun nd n => if n.id = id then some n else nd) none

/-- Source `IsNeighborNode`, on the state of the registry at the time of the query. -/
def IsNeighborNode (env : NodeEnv) (state : nodeState) (id : Nat) : Bool :=
  (handleGetNodeMsg env state id).isSome

/-- Source `onBlock`: the set of requested blocks it leaves and its effects. -/
def onBlock (nodeEnv : NodeEnv) (state : nodeState) (env : ChainEnv) (syncNode : Option Node)
    (h : HandlerEIP001) (requested : List Uint256) (block : Block) :
    List Uint256 × List HandlerEffect :=
  let hash := block.Hash
  if ¬ IsNeighborNode nodeEnv state h.node.id = true then (requested, [.Disconnect])
  else if env.BlockExists hash then (requested, [])
  else
    let requested2 := DeleteRequestedBlock hash requested
    match env.AddBlock block with
    | (_, _, some err) =>
      (requested2, [.StallTimerUpdate, .RemoveHeaderListElement hash, .SendReject err hash])
    | (_, isOrphan, none) =>
      (requested2,
        [.StallTimerUpdate, .RemoveHeaderListElement hash] ++
        (if isOrphan then
          [.PushGetBlocksMsg env.LatestBlockLocator.1 (env.GetOrphanRoot hash)] else []) ++
        (if syncNode = none ∧ ¬ env.ExistedID hash = true then [.Relay block] else []))

/-- The hashes of the block vectors of a list of inventory vectors. -/
def blockHashes (invList : List InvVect) : List Uint256 :=
  (invList.filter (fun iv => decide (iv.Typ = .InvTypeBlock))).map (fun iv => iv.Hash)

/-- The hashes of the block vectors of the `getdata` messages among the effects. -/
def requestedBlockHashes : List HandlerEffect → List Uint256
  | [] => []
  | .SendGetData invList :: rest => blockHashes invList ++ requestedBlockHashes rest
  | _ :: rest => requestedBlockHashes rest

/-- The inventories among the effects. -/
def sentInventories : List HandlerEffect → List (List InvVect)
  | [] => []
  | .SendInventory invList :: rest => invList :: sentInventories rest
  | _ :: rest => sentInventories rest

/-- The `notfound` messages among the effects. -/
def sentNotFounds : List HandlerEffect → List (List InvVect)
  | [] => []
  | .SendNotFound invList :: rest => invList :: sentNotFounds rest
  | _ :: rest => sentNotFounds rest

/-- The `getdata` messages among the effects. -/
def sentGetDatas : List HandlerEffect → List (List InvVect)
  | [] => []
  | .SendGetData invList :: rest => invList :: sentGetDatas rest
  | _ :: rest => sentGetDatas rest

/-- The `getblocks` messages among the effects, each as locator and stop hash. -/
def sentGetBlocks : List HandlerEffect → List (List Uint256 × Uint256)
  | [] => []
  | .PushGetBlocksMsg locator hashStop :: rest => (locator, hashStop) :: sentGetBlocks rest
  | _ :: rest => sentGetBlocks rest

/-- A vector of `getdata` that the handler cannot serve: a block or filtered block that the
store does not have, or a transaction that is not in the pool. -/
def unserved (env : ChainEnv) (iv : InvVect) : Bool :=
  match iv.Typ with
  | .InvTypeBlock => (env.GetBlock iv.Hash).isNone
  | .InvTypeTx => (env.GetTransactionPool iv.Hash).isNone
  | .InvTypeFilteredBlock => (env.GetBlock iv.Hash).isNone
  | .Other _ => false

/-- A block for the examples. -/
def sampleBlock (tag : Nat) : Block :=
  { Hash := List.replicate 32 tag, Height := tag, Transactions := [] }

/-- A chain for the examples: the store and the chain hold exactly the blocks of tags 1, 2
and 3, no orphan is known, the pool is empty, the best block is the one of tag 3, and a reply
to `getblocks` holds at most 2 hashes. -/
def sampleChainEnv : ChainEnv where
  MaxBlocksPerMsg := 2
  BlockExists := fun hash => decide (hash ∈ [List.replicate 32 1, List.replicate 32 2,
    List.replicate 32 3])
  IsKnownOrphan := fun _ => false
  GetOrphanRoot := fun hash => hash
  LatestBlockLocator := ([List.replicate 32 3], none)
  BlockLocatorFromHash := fun hash => [hash]
  LatestLocatorHash := fun locator => locator.headD EmptyHash
  GetBlockHashes := fun _ _ max => some (([1, 2, 3].map (fun t => List.replicate 32 t)).take max)
  GetBlock := fun hash =>
    if hash = List.replicate 32 1 then some (sampleBlock 1)
    else if hash = List.replicate 32 2 then some (sampleBlock 2)
    else if hash = List.replicate 32 3 then some (sampleBlock 3)
    else none
  GetTransactionPool := fun _ => none
  BestChainHash := List.replicate 32 3
  NewMerkleBlock := fun _ => []
  AddBlock := fun _ => (false, true, none)
  ExistedID := fun _ => false

/-- A handler for the examples: its peer is not external and has no filter loaded. -/
def sampleHandler (id : Nat) (continueHash : Option Uint256) : HandlerEIP001 :=
  { node := samplePeer id true false 101, IsExternal := false, filterLoaded := false,
    continueHash := continueHash }

/-- A block vector for the examples. -/
def blockVect (tag : Nat) : InvVect := ⟨.InvTypeBlock, List.replicate 32 tag⟩

/-! ## Theorems -/

/-- C1: `CheckTransactionSanity` returns the error code of the first failing check in the order
size, inputs, outputs, asset precision, attributes and programs, payload, duplicate sidechain
hashes, and it returns `Success` exactly when all seven checks pass. -/
theorem CheckTransactionSanity_first_failure (ctx : Context) (version : Nat) (txn : Transaction) :
    CheckTransactionSanity ctx version txn = firstFailure (sanityChecks ctx version txn) ∧
    (CheckTransactionSanity ctx version txn = .Success ↔
      ∀ check ∈ sanityChecks ctx version txn, check.1 = .ok) := by
  unfold CheckTransactionSanity sanityChecks
  cases CheckTransactionSize ctx txn <;>
  cases CheckTransactionInput txn <;>
  cases CheckTransactionOutput ctx version txn <;>
  cases CheckAssetPrecision ctx txn <;>
  cases CheckAttributeProgram ctx txn <;>
  cases CheckTransactionPayload ctx txn <;>
  cases CheckDuplicateSidechainTx txn <;>
  simp [firstFailure]

/-- A transaction accepted by the sanity check passes each of the seven checks. -/
theorem CheckTransactionSanity_success_imp (ctx : Context) (version : Nat) (txn : Transaction)
    (h : CheckTransactionSanity ctx version txn = .Success) :
    CheckTransactionSize ctx txn = .ok ∧ CheckTransactionInput txn = .ok ∧
    CheckTransactionOutput ctx version txn = .ok ∧ CheckAssetPrecision ctx txn = .ok ∧
    CheckAttributeProgram ctx txn = .ok ∧ CheckTransactionPayload ctx txn = .ok ∧
    CheckDuplicateSidechainTx txn = .ok := by
  unfold CheckTransactionSanity at h
  cases h1 : CheckTransactionSize ctx txn <;> rw [h1] at h <;> simp only [] at h
  swap
  · exact absurd h (by decide)
  cases h2 : CheckTransactionInput txn <;> rw [h2] at h <;> simp only [] at h
  swap
  · exact absurd h (by decide)
  cases h3 : CheckTransactionOutput ctx version txn <;> rw [h3] at h <;> simp only [] at h
  swap
  · exact absurd h (by decide)
  cases h4 : CheckAssetPrecision ctx txn <;> rw [h4] at h <;> simp only [] at h
  swap
  · exact absurd h (by decide)
  cases h5 : CheckAttributeProgram ctx txn <;> rw [h5] at h <;> simp only [] at h
  swap
  · exact absurd h (by decide)
  cases h6 : CheckTransactionPayload ctx txn <;> rw [h6] at h <;> simp only [] at h
  swap
  · exact absurd h (by decide)
  cases h7 : CheckDuplicateSidechainTx txn <;> rw [h7] at h <;> simp only [] at h
  swap
  · exact absurd h (by decide)
  exact ⟨rfl, rfl, rfl, rfl, rfl, rfl, rfl⟩

/-- The input loop accepts exactly when no input carries the coinbase sentinel key, no key is
already in the map, and the keys are pairwise distinct. -/
theorem checkInputsLoop_ok_iff (inputs : List Input) (existing : List (Uint256 × Nat)) :
    checkInputsLoop inputs existing = .ok ↔
      (∀ input ∈ inputs, input.ReferKey ≠ (EmptyHash, 65535)) ∧
      (∀ input ∈ inputs, input.ReferKey ∉ existing) ∧
      (inputs.map Input.ReferKey).Nodup := by
  induction inputs generalizing existing with
  | nil => simp [checkInputsLoop]
  | cons input rest ih =>
    unfold checkInputsLoop
    by_cases h1 : input.Previous.TxID = EmptyHash ∧ input.Previous.Index = 65535
    · have : input.ReferKey = (EmptyHash, 65535) := by
        simp [Input.ReferKey, h1.1, h1.2]
      simp [h1, this]
    · have hk : input.ReferKey ≠ (EmptyHash, 65535) := by
        intro h
        apply h1
        simp only [Input.ReferKey, Prod.mk.injEq] at h
        exact h
      rw [if_neg h1]
      by_cases h2 : input.ReferKey ∈ existing
      · simp [h2]
      · rw [if_neg h2, ih]
        simp only [List.mem_cons, List.map_cons, List.nodup_cons, List.mem_map, forall_eq_or_imp,
          not_or, not_exists, not_and]
        constructor
        · rintro ⟨ha, hb, hc⟩
          refine ⟨⟨hk, ha⟩, ⟨h2, fun i hi => (hb i hi).2⟩, ?_, hc⟩
          intro i hi heq
          exact (hb i hi).1 heq
        · rintro ⟨⟨_, ha⟩, ⟨_, hb⟩, hc, hd⟩
          exact ⟨ha, fun i hi => ⟨fun heq => hc i hi heq, hb i hi⟩, hd⟩

/-- Characterisation of the transactions `CheckTransactionInput` accepts. -/
theorem CheckTransactionInput_ok_iff (txn : Transaction) :
    CheckTransactionInput txn = .ok ↔
      (txn.IsCoinBaseTx = true ∧ ∃ input, txn.Inputs = [input] ∧
        input.ReferKey = (EmptyHash, 65535)) ∨
      (txn.IsCoinBaseTx = false ∧ 1 ≤ txn.Inputs.length ∧
        (∀ input ∈ txn.Inputs, input.ReferKey ≠ (EmptyHash, 65535)) ∧
        (txn.Inputs.map Input.ReferKey).Nodup) := by
  unfold CheckTransactionInput
  cases hc : txn.IsCoinBaseTx
  · simp only [Bool.false_eq_true, if_false, false_and, false_or, true_and]
    by_cases hl : txn.Inputs.length ≤ 0
    · rw [if_pos hl]
      simp
      omega
    · rw [if_neg hl, checkInputsLoop_ok_iff]
      simp
      intro _ _
      omega
  · simp only [if_true, true_and, Bool.true_eq_false, false_and, or_false]
    rcases hI : txn.Inputs with _ | ⟨input, _ | ⟨i2, rest⟩⟩
    · simp
    · simp only [List.cons.injEq, and_true, exists_eq_left', Input.ReferKey, Prod.mk.injEq]
      by_cases h : input.Previous.TxID = EmptyHash ∧ input.Previous.Index = 65535
      · simp [h.1, h.2]
      · have : input.Previous.TxID ≠ EmptyHash ∨ input.Previous.Index ≠ 65535 := by
          by_contra hn
          push_neg at hn
          exact h hn
        simp [this, h]
    · simp

/-- C5: `CheckTransactionInput` accepts exactly a coinbase with one input whose refer key is
`(zero_hash, 0xFFFF)`, or a transaction that is not a coinbase, has an input, has no input with
that sentinel key and has pairwise distinct refer keys; so a transaction accepted by the sanity
check has no two inputs with the same refer key, and a transaction with a repeated refer key is
rejected by `CheckTransactionInput` and, once its size is admissible, gets `ErrInvalidInput`. -/
theorem CheckTransactionInput_refer_keys (ctx : Context) (version : Nat) (txn : Transaction) :
    (CheckTransactionInput txn = .ok ↔
      (txn.IsCoinBaseTx = true ∧ ∃ input, txn.Inputs = [input] ∧
        input.ReferKey = (EmptyHash, 65535)) ∨
      (txn.IsCoinBaseTx = false ∧ 1 ≤ txn.Inputs.length ∧
        (∀ input ∈ txn.Inputs, input.ReferKey ≠ (EmptyHash, 65535)) ∧
        (txn.Inputs.map Input.ReferKey).Nodup)) ∧
    (CheckTransactionSanity ctx version txn = .Success →
      (txn.Inputs.map Input.ReferKey).Nodup) ∧
    (¬ (txn.Inputs.map Input.ReferKey).Nodup →
      (∃ msg, CheckTransactionInput txn = .err msg) ∧
      (CheckTransactionSize ctx txn = .ok →
        CheckTransactionSanity ctx version txn = .ErrInvalidInput)) := by
  have key : CheckTransactionInput txn = .ok → (txn.Inputs.map Input.ReferKey).Nodup := by
    intro h
    rcases (CheckTransactionInput_ok_iff txn).1 h with ⟨_, input, hI, _⟩ | ⟨_, _, _, hn⟩
    · simp [hI]
    · exact hn
  refine ⟨CheckTransactionInput_ok_iff txn, ?_, ?_⟩
  · intro h
    apply key
    exact (CheckTransactionSanity_success_imp ctx version txn h).2.1
  · intro hdup
    have hne : CheckTransactionInput txn ≠ .ok := fun h => hdup (key h)
    rcases hr : CheckTransactionInput txn with _ | msg
    · exact absurd hr hne
    · refine ⟨⟨msg, rfl⟩, ?_⟩
      intro hs
      unfold CheckTransactionSanity
      rw [hs, hr]

/-- The lock loop fails exactly when some entry has a lock and breaks the sequence or the lock
time requirement. -/
theorem utxoLockLoop_err_iff (txn : Transaction) (references : References) :
    (∃ msg, utxoLockLoop txn references = .err msg) ↔
      ∃ p ∈ references, p.2.OutputLock ≠ 0 ∧
        (p.1.Sequence ≠ 4294967294 ∨ txn.LockTime < p.2.OutputLock) := by
  induction references with
  | nil => simp [utxoLockLoop]
  | cons p rest ih =>
    obtain ⟨input, output⟩ := p
    unfold utxoLockLoop
    by_cases h0 : output.OutputLock = 0
    · simp [h0, ih]
    · rw [if_neg h0]
      by_cases h1 : input.Sequence ≠ 4294967294
      · simp [h1, h0]
      · rw [if_neg h1]
        by_cases h2 : txn.LockTime < output.OutputLock
        · simp [h2, h0]
        · rw [if_neg h2, ih]
          simp [h0, h1, h2]

/-- C8: for a transaction that is not a coinbase, `CheckTransactionUTXOLock` returns an error
exactly when some (input, output) pair of the reference map has `output_lock != 0` and either
`sequence != 0xFFFFFFFE` or `lock_time < output_lock`; with `output_lock = 1000` the contextual
check answers `ErrUTXOLocked` for sequence `0xFFFFFFFE` and lock time 999, and for sequence
`0xFFFFFFFF`. -/
theorem CheckTransactionUTXOLock_error_iff (txn : Transaction) (references : References)
    (hcb : txn.IsCoinBaseTx = false) :
    ((∃ msg, CheckTransactionUTXOLock txn references = .err msg) ↔
      ∃ p ∈ references, p.2.OutputLock ≠ 0 ∧
        (p.1.Sequence ≠ 4294967294 ∨ txn.LockTime < p.2.OutputLock)) ∧
    CheckTransactionContext (contextWithReferences [(sampleInput 4294967294, sampleOutput 1000 1000)])
        (transferExample 999 [sampleInput 4294967294] [sampleOutput 1 0]) =
      some .ErrUTXOLocked ∧
    CheckTransactionContext (contextWithReferences [(sampleInput 4294967295, sampleOutput 1000 1000)])
        (transferExample 999 [sampleInput 4294967295] [sampleOutput 1 0]) =
      some .ErrUTXOLocked := by
  refine ⟨?_, by decide, by decide⟩
  unfold CheckTransactionUTXOLock
  rw [hcb]
  simpa using utxoLockLoop_err_iff txn references

/-- Witness for C8: the lock of 1000 is not reached at lock time 999. -/
theorem CheckTransactionUTXOLock_error_iff_witness :
    (∃ msg, CheckTransactionUTXOLock (transferExample 999 [sampleInput 4294967294] [sampleOutput 1 0])
      [(sampleInput 4294967294, sampleOutput 1000 1000)] = .err msg) :=
  (CheckTransactionUTXOLock_error_iff (transferExample 999 [sampleInput 4294967294] [sampleOutput 1 0])
    [(sampleInput 4294967294, sampleOutput 1000 1000)] (by decide)).1.2
    ⟨(sampleInput 4294967294, sampleOutput 1000 1000), by simp, by decide⟩

/-- C3, failing input: two outputs of `2^62` each and a single referenced output of value 1000.  The
`int64` sum of the outputs wraps to `-2^63`, so `CheckTransactionFee`, the sanity check and the
contextual check all accept, although the referenced value minus the output value is `1000 - 2^63`,
below `MinTxFee = 100`. -/
theorem fee_overflow_accepted :
    (transferExample 0 [sampleInput 0] [sampleOutput (2 ^ 62) 0, sampleOutput (2 ^ 62) 0]).IsCoinBaseTx
      = false ∧
    CheckTransactionFee (contextWithReferences [(sampleInput 0, sampleOutput 1000 0)])
      (transferExample 0 [sampleInput 0] [sampleOutput (2 ^ 62) 0, sampleOutput (2 ^ 62) 0])
      [(sampleInput 0, sampleOutput 1000 0)] = .ok ∧
    CheckTransactionSanity (contextWithReferences [(sampleInput 0, sampleOutput 1000 0)]) 1
      (transferExample 0 [sampleInput 0] [sampleOutput (2 ^ 62) 0, sampleOutput (2 ^ 62) 0])
      = .Success ∧
    CheckTransactionContext (contextWithReferences [(sampleInput 0, sampleOutput 1000 0)])
      (transferExample 0 [sampleInput 0] [sampleOutput (2 ^ 62) 0, sampleOutput (2 ^ 62) 0])
      = some .Success ∧
    ¬ ((contextWithReferences [(sampleInput 0, sampleOutput 1000 0)]).MinTxFee ≤
      ([(sampleInput 0, sampleOutput 1000 0)].map (fun p => p.2.Value)).sum -
      ((transferExample 0 [sampleInput 0]
        [sampleOutput (2 ^ 62) 0, sampleOutput (2 ^ 62) 0]).Outputs.map (fun o => o.Value)).sum) := by
  refine ⟨by decide, by decide, by decide, by decide, by decide⟩

set_option maxRecDepth 100000 in
/-- C6, failing input: the coinbase paying 100 to the foundation and -1 to another address passes
the sanity check although one of its output values is negative. -/
theorem coinbase_negative_output_accepted :
    CheckTransactionSanity sampleContext 1 (coinbaseExample 100 (-1)) = .Success ∧
    (coinbaseExample 100 (-1)).IsCoinBaseTx = true ∧
    ∃ output ∈ (coinbaseExample 100 (-1)).Outputs, output.Value < 0 := by
  refine ⟨by decide, by decide, by decide⟩

/-- C10, failing input: a cross-chain transfer with three outputs of `2^62` each and a single
referenced output of value 1000.  The `int64` sum of the outputs wraps to `-2^62`, so the fee test
sees a fee of `1000 + 2^62`; the function and the contextual check accept, although the referenced
value minus the output value is `1000 - 3 * 2^62`, below `MinCrossChainTxFee = 2`.  The example of the
claim (inputs 1000, outputs 999, fee 2) is rejected, with `ErrInvalidOutput` from the contextual
check. -/
theorem cross_chain_fee_overflow_accepted :
    CheckTransferCrossChainAssetTransaction
      (contextWithReferences [(sampleInput 0, sampleOutput 1000 0)])
      (crossChainExample [crossChainOutput (2 ^ 62), crossChainOutput (2 ^ 62),
        crossChainOutput (2 ^ 62)]) = some .ok ∧
    CheckTransactionContext (contextWithReferences [(sampleInput 0, sampleOutput 1000 0)])
      (crossChainExample [crossChainOutput (2 ^ 62), crossChainOutput (2 ^ 62),
        crossChainOutput (2 ^ 62)]) = some .Success ∧
    ¬ ((contextWithReferences [(sampleInput 0, sampleOutput 1000 0)]).MinCrossChainTxFee ≤
      ([(sampleInput 0, sampleOutput 1000 0)].map (fun p => p.2.Value)).sum -
      ((crossChainExample [crossChainOutput (2 ^ 62), crossChainOutput (2 ^ 62),
        crossChainOutput (2 ^ 62)]).Outputs.map (fun o => o.Value)).sum) ∧
    CheckTransferCrossChainAssetTransaction
      (contextWithReferences [(sampleInput 0, sampleOutput 1000 0)])
      (crossChainExample [crossChainOutput 999]) = some (.err "Invalid transaction fee") ∧
    CheckTransactionContext (contextWithReferences [(sampleInput 0, sampleOutput 1000 0)])
      (crossChainExample [crossChainOutput 999]) = some .ErrInvalidOutput := by
  refine ⟨by decide, by decide, by decide, by decide, by decide⟩

/-- On outputs of the native asset with values that are not negative, the output loop accepts
exactly when the version bit is clear or every program hash is valid. -/
theorem checkOutputsLoop_ok_iff (ctx : Context) (version : Nat) (outputs : List Output)
    (hval : ∀ output ∈ outputs, output.AssetID = ctx.AssetID ∧ 0 ≤ output.Value) :
    checkOutputsLoop ctx version outputs = .ok ↔
      (version &&& ctx.CheckTxOut = ctx.CheckTxOut →
        ∀ output ∈ outputs, CheckOutputProgramHash ctx output.ProgramHash = true) := by
  induction outputs with
  | nil => simp [checkOutputsLoop]
  | cons output rest ih =>
    have h0 := hval output (List.mem_cons_self _ _)
    have ih2 := ih (fun o ho => hval o (List.mem_cons_of_mem _ ho))
    unfold checkOutputsLoop
    have hv : ¬ output.Value < 0 := not_lt.mpr h0.2
    simp only [h0.1, ne_eq, not_true_eq_false, if_false, hv]
    by_cases hbit : version &&& ctx.CheckTxOut = ctx.CheckTxOut
    · by_cases hp : CheckOutputProgramHash ctx output.ProgramHash = true
      · simp [hbit, hp, ih2]
      · simp [hbit, hp]
    · simp [hbit, ih2]

/-- The program hashes `CheckOutputProgramHash` accepts. -/
theorem CheckOutputProgramHash_iff (ctx : Context) (programHash : Uint168) :
    CheckOutputProgramHash ctx programHash = true ↔
      prefixByte programHash = ctx.PrefixStandard ∨ prefixByte programHash = ctx.PrefixMultisig ∨
      prefixByte programHash = ctx.PrefixCrossChain ∨ programHash = EmptyUint168 := by
  unfold CheckOutputProgramHash
  simp only []
  split <;> simp_all

/-- C7, counterexample: with the `CheckTxOut` bit set, a transaction whose single output has
the native asset, value 1 and a program hash with prefix byte 0 (and a later byte 1) is rejected,
although its prefix byte is the Null tag; and a transaction with 65536 valid outputs to standard
addresses is rejected for its output count. -/
theorem CheckTransactionOutput_null_prefix_rejected :
    (transferExample 0 [sampleInput 0] [⟨sampleAsset, 1, 0, nullPrefixHash⟩]).IsCoinBaseTx = false ∧
    (∀ output ∈ (transferExample 0 [sampleInput 0] [⟨sampleAsset, 1, 0, nullPrefixHash⟩]).Outputs,
      output.AssetID = sampleContext.AssetID ∧ 0 ≤ output.Value ∧
      prefixByte output.ProgramHash = 0) ∧
    1 &&& sampleContext.CheckTxOut = sampleContext.CheckTxOut ∧
    CheckTransactionOutput sampleContext 1
      (transferExample 0 [sampleInput 0] [⟨sampleAsset, 1, 0, nullPrefixHash⟩]) =
      .err "output address is invalid" ∧
    (∀ output ∈ (transferExample 0 [sampleInput 0]
        (List.replicate 65536 (sampleOutput 1 0))).Outputs,
      output.AssetID = sampleContext.AssetID ∧ 0 ≤ output.Value ∧
      prefixByte output.ProgramHash = sampleContext.PrefixStandard) ∧
    CheckTransactionOutput sampleContext 1
      (transferExample 0 [sampleInput 0] (List.replicate 65536 (sampleOutput 1 0))) =
      .err "output count should not be greater than 65535(MaxUint16)" := by
  refine ⟨by decide, by decide, by decide, by decide, ?_, ?_⟩
  · intro output ho
    simp only [transferExample, List.mem_replicate] at ho
    rw [ho.2]
    decide
  · have hl : (transferExample 0 [sampleInput 0]
        (List.replicate 65536 (sampleOutput 1 0))).Outputs.length = 65536 := by
      simp only [transferExample, List.length_replicate]
    unfold CheckTransactionOutput
    rw [if_pos (by omega)]

/-- C7, amended: for a transaction that is not a coinbase, with between 1 and 65535 outputs, all
of the native asset and with values that are not negative, when the `CheckTxOut` bit is set in
`version` the output check accepts exactly when every program hash has prefix byte Standard,
Multisig or CrossChain or is the all-zero hash; when the bit is not set it accepts whatever the
program hashes are. -/
theorem CheckTransactionOutput_program_hashes (ctx : Context) (version : Nat) (txn : Transaction)
    (hcb : txn.IsCoinBaseTx = false) (hmin : 1 ≤ txn.Outputs.length)
    (hmax : txn.Outputs.length ≤ 65535)
    (hval : ∀ output ∈ txn.Outputs, output.AssetID = ctx.AssetID ∧ 0 ≤ output.Value) :
    (version &&& ctx.CheckTxOut = ctx.CheckTxOut →
      (CheckTransactionOutput ctx version txn = .ok ↔
        ∀ output ∈ txn.Outputs,
          prefixByte output.ProgramHash = ctx.PrefixStandard ∨
          prefixByte output.ProgramHash = ctx.PrefixMultisig ∨
          prefixByte output.ProgramHash = ctx.PrefixCrossChain ∨
          output.ProgramHash = EmptyUint168)) ∧
    (version &&& ctx.CheckTxOut ≠ ctx.CheckTxOut →
      CheckTransactionOutput ctx version txn = .ok) := by
  have hmain : CheckTransactionOutput ctx version txn = checkOutputsLoop ctx version txn.Outputs := by
    unfold CheckTransactionOutput
    rw [if_neg (by omega), hcb]
    simp only [Bool.false_eq_true, if_false]
    rw [if_neg (by omega)]
  rw [hmain, checkOutputsLoop_ok_iff ctx version txn.Outputs hval]
  constructor
  · intro hbit
    simp only [hbit, true_implies, CheckOutputProgramHash_iff]
  · intro hbit h
    exact absurd h hbit

/-- Witness for C7: one output to a standard address, version bit set. -/
theorem CheckTransactionOutput_program_hashes_witness :
    CheckTransactionOutput sampleContext 1
      (transferExample 0 [sampleInput 0] [sampleOutput 1 0]) = .ok :=
  ((CheckTransactionOutput_program_hashes sampleContext 1
    (transferExample 0 [sampleInput 0] [sampleOutput 1 0]) (by decide) (by decide) (by decide)
    (by decide)).1 (by decide)).2 (by decide)

/-- After dropping `dropBits fuel n` bits, what is left of `n` fits 53 bits. -/
theorem dropBits_upper (fuel n : Nat) (h : n < 2 ^ (53 + fuel)) :
    n < 2 ^ (53 + dropBits fuel n) := by
  induction fuel generalizing n with
  | zero => simpa [dropBits] using h
  | succ fuel ih =>
    unfold dropBits
    split
    · assumption
    · have e1 : 2 ^ (53 + (fuel + 1)) = 2 * 2 ^ (53 + fuel) := by ring
      have h2 : n / 2 < 2 ^ (53 + fuel) := by omega
      have h3 := ih (n / 2) h2
      have e2 : 2 ^ (53 + (dropBits fuel (n / 2) + 1)) = 2 * 2 ^ (53 + dropBits fuel (n / 2)) := by
        ring
      omega

/-- No bit is dropped needlessly: either none is dropped or `n` has `53 + dropBits fuel n` bits. -/
theorem dropBits_lower (fuel n : Nat) :
    dropBits fuel n = 0 ∨ 2 ^ (52 + dropBits fuel n) ≤ n := by
  induction fuel generalizing n with
  | zero => left; rfl
  | succ fuel ih =>
    unfold dropBits
    split
    · left; rfl
    · right
      rcases ih (n / 2) with h0 | h1
      · rw [h0]
        have : (2:Nat) ^ (52 + (0 + 1)) = 2 ^ 53 := by norm_num
        omega
      · have e2 : 2 ^ (52 + (dropBits fuel (n / 2) + 1)) = 2 * 2 ^ (52 + dropBits fuel (n / 2)) := by
          ring
        omega

/-- Quotient and remainder of a number that lies `g` below a multiple of `p`. -/
theorem round_up_div_mod (x p A g : Nat) (hx : x + g = A * p) (hg : 0 < g)
    (h2 : 2 * g < p) : x / p = A - 1 ∧ x % p = p - g := by
  have hp : 0 < p := by omega
  have hA : 1 ≤ A := by
    rcases Nat.eq_zero_or_pos A with h | h
    · rw [h] at hx; omega
    · exact h
  rw [Nat.div_mod_unique hp]
  constructor
  · obtain ⟨B, rfl⟩ : ∃ B, A = B + 1 := ⟨A - 1, by omega⟩
    simp only [Nat.add_sub_cancel]
    have : (B + 1) * p = p * B + p := by ring
    omega
  · omega

/-- Below `2^53` the threshold `Fixed64(float64(total)*0.3)` is at least the integer part of
three tenths of the total. -/
theorem foundationThreshold_ge (n : Nat) (hn : n < 2 ^ 53) :
    ((3 * n / 10 : Nat) : Int) ≤ foundationThreshold (n : Int) := by
  have hof : F64.ofInt64 (n : Int) = ⟨false, n, 0⟩ := by
    have hd : dropBits 128 n = 0 := by
      unfold dropBits
      rw [if_pos hn]
    have hneg : ¬ ((n : Int) < 0) := by omega
    simp [F64.ofInt64, roundF64, hd, Nat.mod_one, hneg]
  unfold foundationThreshold
  rw [hof]
  unfold F64.mul F64.point3
  simp only [bne_self_eq_false, zero_add]
  unfold roundF64
  simp only []
  generalize hs : dropBits 128 (n * 5404319552844595) = s
  have hx106 : n * 5404319552844595 < 2 ^ (53 + 128) := by
    have : (2:Nat) ^ (53 + 128) = 2 ^ 53 * 2 ^ 128 := by rw [pow_add]
    have h128 : (5404319552844595 : Nat) < 2 ^ 128 := by norm_num
    calc n * 5404319552844595 < 2 ^ 53 * 2 ^ 128 := Nat.mul_lt_mul'' hn h128
      _ = 2 ^ (53 + 128) := this.symm
  have hup := dropBits_upper 128 _ hx106
  have hlo := dropBits_lower 128 (n * 5404319552844595)
  rw [hs] at hup hlo
  have hs53 : s ≤ 53 := by
    by_contra hcon
    have hs54 : 54 ≤ s := by omega
    rcases hlo with h0 | h1
    · omega
    · have : (2:Nat) ^ (52 + 54) ≤ 2 ^ (52 + s) := Nat.pow_le_pow_right (by norm_num) (by omega)
      have h106 : (2:Nat) ^ (52 + 54) = 2 ^ 106 := by norm_num
      have hnn : n * 5404319552844595 < 2 ^ 106 := by
        have : (2:Nat)^106 = 2 ^ 53 * 2 ^ 53 := by norm_num
        have hC : (5404319552844595 : Nat) < 2 ^ 53 := by norm_num
        calc n * 5404319552844595 < 2 ^ 53 * 2 ^ 53 := Nat.mul_lt_mul'' hn hC
          _ = 2 ^ 106 := this.symm
      omega
  have htoInt : ∀ m : Nat, F64.toInt64 ⟨false, m, -54 + (s : Int)⟩ =
      ((m / 2 ^ (54 - s) : Nat) : Int) := by
    intro m
    unfold F64.toInt64
    have h1 : ¬ (0 ≤ -54 + (s : Int)) := by omega
    have h2 : (-(-54 + (s : Int))).toNat = 54 - s := by omega
    dsimp only
    rw [if_neg h1, h2]
    simp
  have hPp : 2 ^ (54 - s) * 2 ^ s = 2 ^ 54 := by
    rw [← pow_add]
    congr 1
    omega
  have hp : 0 < 2 ^ s := pow_pos (by norm_num) _
  have hP : 0 < 2 ^ (54 - s) := pow_pos (by norm_num) _
  have hup2 : n * 5404319552844595 < 2 ^ 53 * 2 ^ s := by
    rw [← pow_add]
    exact hup
  have hN : 10 * (3 * n / 10) ≤ 3 * n := Nat.mul_div_le (3 * n) 10
  have hfin : ∀ m : Nat, 3 * n / 10 * 2 ^ (54 - s) ≤ m →
      ((3 * n / 10 : Nat) : Int) ≤ F64.toInt64 ⟨false, m, -54 + (s : Int)⟩ := by
    intro m hm
    rw [htoInt]
    exact_mod_cast (Nat.le_div_iff_mul_le hP).2 hm
  have hassoc : 3 * n / 10 * 2 ^ (54 - s) * 2 ^ s = 3 * n / 10 * 2 ^ 54 := by
    rw [Nat.mul_assoc, hPp]
  by_cases hcase : 3 * n / 10 * 2 ^ 54 ≤ n * 5404319552844595
  · have hq : 3 * n / 10 * 2 ^ (54 - s) ≤ n * 5404319552844595 / 2 ^ s := by
      rw [Nat.le_div_iff_mul_le hp, hassoc]
      exact hcase
    split
    · exact hfin _ (Nat.le_succ_of_le hq)
    · exact hfin _ hq
  · have hx : n * 5404319552844595 + (3 * n / 10 * 2 ^ 54 - n * 5404319552844595) =
        3 * n / 10 * 2 ^ (54 - s) * 2 ^ s := by
      rw [hassoc]
      omega
    have hg : 0 < 3 * n / 10 * 2 ^ 54 - n * 5404319552844595 := by omega
    have h2g : 2 * (3 * n / 10 * 2 ^ 54 - n * 5404319552844595) < 2 ^ s := by
      generalize 2 ^ s = p at hup2
      generalize 3 * n / 10 = N at hN hcase
      omega
    obtain ⟨hq, hr⟩ := round_up_div_mod _ _ _ _ hx hg h2g
    have hNP : 1 ≤ 3 * n / 10 * 2 ^ (54 - s) := by
      rcases Nat.eq_zero_or_pos (3 * n / 10 * 2 ^ (54 - s)) with h | h
      · rw [h] at hx; omega
      · exact h
    rw [hq, hr]
    have hcond : 2 ^ s < 2 * (2 ^ s - (3 * n / 10 * 2 ^ 54 - n * 5404319552844595)) := by
      omega
    rw [if_pos (Or.inl hcond)]
    apply hfin
    omega

/-- Wrapping an intermediate sum does not change the wrapped total. -/
theorem wrapInt64_wrapInt64_add (a b : Int) : wrapInt64 (wrapInt64 a + b) = wrapInt64 (a + b) := by
  unfold wrapInt64
  omega

/-- Wrapping leaves a value of the `int64` range unchanged. -/
theorem wrapInt64_of_InInt64 (a : Int) (h : InInt64 a) : wrapInt64 a = a := by
  unfold InInt64 at h
  unfold wrapInt64
  omega

/-- When the coinbase loop ends without error, its two rewards are the wrapped exact sums. -/
theorem coinbaseRewards_ok (ctx : Context) (outputs : List Output) (t f t2 f2 : Int)
    (ht : InInt64 t) (hf : InInt64 f)
    (h : coinbaseRewards ctx outputs t f = .ok (t2, f2)) :
    t2 = wrapInt64 (t + (outputs.map (fun output => output.Value)).sum) ∧
    f2 = wrapInt64 (f + ((outputs.filter
      (fun output => decide (output.ProgramHash = ctx.FoundationAddress))).map
        (fun output => output.Value)).sum) := by
  induction outputs generalizing t f with
  | nil =>
    simp only [coinbaseRewards, Except.ok.injEq, Prod.mk.injEq] at h
    simp [← h.1, ← h.2, wrapInt64_of_InInt64, ht, hf]
  | cons output rest ih =>
    unfold coinbaseRewards at h
    by_cases ha : output.AssetID ≠ ctx.AssetID
    · rw [if_pos ha] at h
      cases h
    · rw [if_neg ha] at h
      have hw : ∀ a : Int, InInt64 (wrapInt64 a) := by
        intro a
        unfold InInt64 wrapInt64
        omega
      by_cases hfo : output.ProgramHash = ctx.FoundationAddress
      · rw [if_pos hfo] at h
        obtain ⟨h1, h2⟩ := ih _ _ (hw _) (hw _) h
        rw [h1, h2, wrapInt64_wrapInt64_add, wrapInt64_wrapInt64_add]
        simp [hfo, add_assoc]
      · rw [if_neg hfo] at h
        obtain ⟨h1, h2⟩ := ih _ _ (hw _) hf h
        rw [h1, h2, wrapInt64_wrapInt64_add]
        simp [hfo, add_assoc]

/-- With values that are not negative, the foundation share lies between 0 and the total. -/
theorem foundation_sum_bounds (ctx : Context) (outputs : List Output)
    (hnn : ∀ output ∈ outputs, 0 ≤ output.Value) :
    0 ≤ ((outputs.filter (fun output => decide (output.ProgramHash = ctx.FoundationAddress))).map
        (fun output => output.Value)).sum ∧
    ((outputs.filter (fun output => decide (output.ProgramHash = ctx.FoundationAddress))).map
        (fun output => output.Value)).sum ≤ (outputs.map (fun output => output.Value)).sum := by
  induction outputs with
  | nil => simp
  | cons output rest ih =>
    have h0 := hnn output (List.mem_cons_self _ _)
    obtain ⟨i1, i2⟩ := ih (fun o ho => hnn o (List.mem_cons_of_mem _ ho))
    by_cases hfo : output.ProgramHash = ctx.FoundationAddress
    · simp only [List.filter_cons, hfo, decide_True, if_true, List.map_cons, List.sum_cons]
      omega
    · simp only [List.filter_cons, hfo, decide_False, Bool.false_eq_true, if_false, List.map_cons,
        List.sum_cons]
      omega

set_option maxRecDepth 100000 in
/-- C4, counterexample: the coinbase paying 0 to the foundation and 1 to another address is
accepted by `CheckTransactionOutput` and by the sanity check, the threshold
`Fixed64(float64(1)*0.3)` being 0, although `10 * 0 >= 3 * 1` is false. -/
theorem CheckTransactionOutput_truncated_share_accepted :
    (coinbaseExample 0 1).IsCoinBaseTx = true ∧
    CheckTransactionOutput sampleContext 1 (coinbaseExample 0 1) = .ok ∧
    CheckTransactionSanity sampleContext 1 (coinbaseExample 0 1) = .Success ∧
    foundationOutputValue sampleContext (coinbaseExample 0 1) = 0 ∧
    totalOutputValue (coinbaseExample 0 1) = 1 ∧
    ¬ (10 * foundationOutputValue sampleContext (coinbaseExample 0 1) ≥
      3 * totalOutputValue (coinbaseExample 0 1)) := by
  refine ⟨by decide, by decide, by decide, by decide, by decide, by decide⟩

set_option maxRecDepth 100000 in
/-- C4, amended: for every coinbase accepted by `CheckTransactionOutput` whose output values are
not negative and sum to less than `2^53`, the foundation receives at least the integer part of
30% of the total, that is `3 * total <= 10 * foundation_sum + 9`; outputs 70 (foundation) / 30
are accepted, outputs 29 (foundation) / 71 are rejected and the sanity check answers
`ErrInvalidOutput`. -/
theorem CheckTransactionOutput_foundation_share (ctx : Context) (version : Nat)
    (txn : Transaction) (hcb : txn.IsCoinBaseTx = true)
    (hok : CheckTransactionOutput ctx version txn = .ok)
    (hnn : ∀ output ∈ txn.Outputs, 0 ≤ output.Value)
    (hlt : totalOutputValue txn < 2 ^ 53) :
    3 * totalOutputValue txn ≤ 10 * foundationOutputValue ctx txn + 9 ∧
    (CheckTransactionOutput sampleContext 1 (coinbaseExample 70 30) = .ok ∧
      CheckTransactionSanity sampleContext 1 (coinbaseExample 70 30) = .Success) ∧
    (CheckTransactionOutput sampleContext 1 (coinbaseExample 29 71) =
        .err "Reward to foundation in coinbase < 30%" ∧
      CheckTransactionSanity sampleContext 1 (coinbaseExample 29 71) = .ErrInvalidOutput) := by
  refine ⟨?_, ⟨by decide, by decide⟩, ⟨by decide, by decide⟩⟩
  obtain ⟨hf0, hft⟩ := foundation_sum_bounds ctx txn.Outputs hnn
  unfold totalOutputValue at hlt ⊢
  unfold foundationOutputValue
  unfold CheckTransactionOutput at hok
  rw [hcb] at hok
  simp only [if_true] at hok
  split at hok
  · cases hok
  split at hok
  · cases hok
  split at hok
  · cases hok
  rename_i t2 f2 hrew
  split at hok
  · cases hok
  rename_i hthr
  have h00 : InInt64 0 := by unfold InInt64; omega
  obtain ⟨h1, h2⟩ := coinbaseRewards_ok ctx txn.Outputs 0 0 t2 f2 h00 h00 hrew
  rw [zero_add] at h1 h2
  have hT : InInt64 (txn.Outputs.map (fun output => output.Value)).sum := by
    unfold InInt64; omega
  have hF : InInt64 ((txn.Outputs.filter
      (fun output => decide (output.ProgramHash = ctx.FoundationAddress))).map
        (fun output => output.Value)).sum := by
    unfold InInt64; omega
  rw [wrapInt64_of_InInt64 _ hT] at h1
  rw [wrapInt64_of_InInt64 _ hF] at h2
  rw [h1, h2] at hthr
  obtain ⟨n, hn⟩ : ∃ n : Nat, (txn.Outputs.map (fun output => output.Value)).sum = (n : Int) :=
    ⟨_, (Int.toNat_of_nonneg (le_trans hf0 hft)).symm⟩
  rw [hn] at hthr hlt ⊢
  have hn53 : n < 2 ^ 53 := by exact_mod_cast hlt
  have hge := foundationThreshold_ge n hn53
  have hdiv : 3 * n ≤ 10 * (3 * n / 10) + 9 := by omega
  have hdiv2 : (3 : Int) * (n : Int) ≤ 10 * ((3 * n / 10 : Nat) : Int) + 9 := by exact_mod_cast hdiv
  omega

set_option maxRecDepth 100000 in
/-- Witness for C4: the coinbase paying 70 to the foundation and 30 to another address. -/
theorem CheckTransactionOutput_foundation_share_witness :
    3 * totalOutputValue (coinbaseExample 70 30) ≤
      10 * foundationOutputValue sampleContext (coinbaseExample 70 30) + 9 :=
  (CheckTransactionOutput_foundation_share sampleContext 1 (coinbaseExample 70 30) (by decide)
    (by decide) (by decide) (by decide)).1

/-- Witness for C5: a transfer with a single input passes the sanity check, so its refer keys
are pairwise distinct. -/
theorem CheckTransactionInput_refer_keys_witness :
    ((transferExample 0 [sampleInput 0] [sampleOutput 1 0]).Inputs.map Input.ReferKey).Nodup :=
  (CheckTransactionInput_refer_keys sampleContext 1
    (transferExample 0 [sampleInput 0] [sampleOutput 1 0])).2.1 (by decide)

/-- The `int64` running sum is the wrapped exact sum, whatever the start value. -/
theorem foldl_wrapInt64 (values : List Int) (acc : Int) :
    wrapInt64 (values.foldl (fun a v => wrapInt64 (a + v)) acc) = wrapInt64 (acc + values.sum) := by
  induction values generalizing acc with
  | nil => simp
  | cons v rest ih =>
    simp only [List.foldl_cons, List.sum_cons]
    rw [ih, wrapInt64_wrapInt64_add, add_assoc]

/-- The `int64` sum of a list of values is the wrapped exact sum. -/
theorem sumFixed64_eq (values : List Int) : sumFixed64 values = wrapInt64 values.sum := by
  unfold sumFixed64
  rcases values with _ | ⟨v, rest⟩
  · decide
  · have h := foldl_wrapInt64 (v :: rest) 0
    rw [zero_add] at h
    rw [← h]
    have hw : ∀ (l : List Int) (a : Int), wrapInt64 (l.foldl (fun a v => wrapInt64 (a + v))
        (wrapInt64 a)) = l.foldl (fun a v => wrapInt64 (a + v)) (wrapInt64 a) := by
      intro l
      induction l with
      | nil =>
        intro a
        simp only [List.foldl_nil]
        unfold wrapInt64
        omega
      | cons w l ih =>
        intro a
        simp only [List.foldl_cons]
        exact ih _
    simp only [List.foldl_cons]
    exact (hw rest (0 + v)).symm

/-- Where no `int64` operation of `CheckTransactionFee` overflows, an accepted transaction pays
the minimum fee in exact arithmetic. -/
theorem CheckTransactionFee_ok_exact (ctx : Context) (tx : Transaction) (references : References)
    (h : CheckTransactionFee ctx tx references = .ok)
    (hfee : InInt64 ctx.MinTxFee)
    (hin : InInt64 (references.map (fun reference => reference.2.Value)).sum)
    (hout : InInt64 (tx.Outputs.map (fun output => output.Value)).sum)
    (hsum : InInt64 (ctx.MinTxFee + (tx.Outputs.map (fun output => output.Value)).sum)) :
    ctx.MinTxFee ≤ (references.map (fun reference => reference.2.Value)).sum -
      (tx.Outputs.map (fun output => output.Value)).sum := by
  unfold CheckTransactionFee at h
  simp only [sumFixed64_eq] at h
  rw [wrapInt64_of_InInt64 _ hfee, wrapInt64_of_InInt64 _ hin, wrapInt64_of_InInt64 _ hout,
    wrapInt64_of_InInt64 _ hsum] at h
  split at h
  · cases h
  · omega

/-- An accepted address loop found, for every pair of an address and its output index, an output
with the cross-chain prefix. -/
theorem crossChainAddressLoop_ok (ctx : Context) (outputs : List Output) (addresses : List String)
    (indexes : List Nat) (h : crossChainAddressLoop ctx outputs addresses indexes = some .ok) :
    ∀ p ∈ addresses.zip indexes, ∃ output, outputs.get? p.2 = some output ∧
      prefixByte output.ProgramHash = ctx.PrefixCrossChain ∧ p.1 ≠ "" := by
  induction addresses generalizing indexes with
  | nil => simp
  | cons address rest ih =>
    rcases indexes with _ | ⟨outputIndex, indexes⟩
    · simp
    · unfold crossChainAddressLoop at h
      rcases hget : outputs.get? outputIndex with _ | output
      · rw [hget] at h
        cases h
      · rw [hget] at h
        simp only [] at h
        split at h
        · cases h
        rename_i hpre
        split at h
        · cases h
        rename_i haddr
        intro p hp
        simp only [List.zip_cons_cons, List.mem_cons] at hp
        rcases hp with rfl | hp
        · exact ⟨output, hget, not_not.mp hpre, haddr⟩
        · exact ih indexes h p hp

/-- An accepted amount loop found, for every pair of an amount and its output index, an output
whose value minus the fee, computed in `int64`, bounds the amount, which is not negative. -/
theorem crossChainAmountLoop_ok (ctx : Context) (outputs : List Output) (amounts : List Int)
    (indexes : List Nat) (h : crossChainAmountLoop ctx outputs amounts indexes = some .ok) :
    ∀ p ∈ amounts.zip indexes, ∃ output, outputs.get? p.2 = some output ∧
      0 ≤ p.1 ∧ p.1 ≤ wrapInt64 (output.Value - wrapInt64 ctx.MinCrossChainTxFee) := by
  induction amounts generalizing indexes with
  | nil => simp
  | cons amount rest ih =>
    rcases indexes with _ | ⟨outputIndex, indexes⟩
    · simp
    · unfold crossChainAmountLoop at h
      rcases hget : outputs.get? outputIndex with _ | output
      · rw [hget] at h
        cases h
      · rw [hget] at h
        simp only [] at h
        split at h
        · cases h
        rename_i hbound
        intro p hp
        simp only [List.zip_cons_cons, List.mem_cons] at hp
        rcases hp with rfl | hp
        · refine ⟨output, hget, ?_, ?_⟩ <;> omega
        · exact ih indexes h p hp

/-- What `CheckTransferCrossChainAssetTransaction` guarantees for a transaction it accepts: the
shape of the payload, the cross-chain prefix of every designated output, the bound on every
amount and the fee, the last two in the `int64` arithmetic of the source. -/
theorem CheckTransferCrossChainAssetTransaction_ok_imp (ctx : Context) (txn : Transaction)
    (addresses : List String) (amounts : List Int) (indexes : List Nat)
    (hp : txn.Payload = .TransferCrossChainAsset addresses amounts indexes)
    (h : CheckTransferCrossChainAssetTransaction ctx txn = some .ok) :
    addresses.length = amounts.length ∧ amounts.length = indexes.length ∧
    0 < addresses.length ∧ addresses.length ≤ txn.Outputs.length ∧
    (∀ outputIndex ∈ indexes, ∃ output, txn.Outputs.get? outputIndex = some output ∧
      prefixByte output.ProgramHash = ctx.PrefixCrossChain) ∧
    (∀ p ∈ amounts.zip indexes, ∃ output, txn.Outputs.get? p.2 = some output ∧
      0 ≤ p.1 ∧ p.1 ≤ wrapInt64 (output.Value - wrapInt64 ctx.MinCrossChainTxFee)) ∧
    ∃ reference, ctx.GetTxReference txn = some reference ∧
      wrapInt64 ctx.MinCrossChainTxFee ≤
        wrapInt64 (sumFixed64 (reference.map (fun v => v.2.Value)) -
          sumFixed64 (txn.Outputs.map (fun output => output.Value))) := by
  unfold CheckTransferCrossChainAssetTransaction at h
  rw [hp] at h
  simp only [] at h
  split at h
  · cases h
  rename_i hshape
  have hshape2 : 0 < addresses.length ∧ addresses.length ≤ txn.Outputs.length ∧
      addresses.length = amounts.length ∧ amounts.length = indexes.length := by
    refine ⟨?_, ?_, ?_, ?_⟩ <;> by_contra hc <;> apply hshape <;> omega
  obtain ⟨s1, s2, s3, s4⟩ := hshape2
  split at h
  · cases h
  split at h
  · cases h
  · cases h
  rename_i haddr
  split at h
  · cases h
  · cases h
  rename_i hamt
  simp only [Option.some.injEq] at h
  refine ⟨s3, s4, s1, s2, ?_, crossChainAmountLoop_ok ctx _ _ _ hamt, ?_⟩
  · intro outputIndex hmem
    have hz := crossChainAddressLoop_ok ctx _ _ _ haddr
    have hsnd : (addresses.zip indexes).map Prod.snd = indexes :=
      List.map_snd_zip _ _ (by omega)
    rw [← hsnd] at hmem
    obtain ⟨p, hpz, rfl⟩ := List.mem_map.1 hmem
    obtain ⟨output, h1, h2, _⟩ := hz p hpz
    exact ⟨output, h1, h2⟩
  · unfold crossChainFeeCheck at h
    rcases hr : ctx.GetTxReference txn with _ | reference
    · rw [hr] at h
      cases h
    · rw [hr] at h
      simp only [] at h
      split at h
      · cases h
      · exact ⟨reference, rfl, by omega⟩

/-- The output loop of a transaction that is not a coinbase accepts no negative value. -/
theorem checkOutputsLoop_ok_nonneg (ctx : Context) (version : Nat) (outputs : List Output)
    (h : checkOutputsLoop ctx version outputs = .ok) : ∀ output ∈ outputs, 0 ≤ output.Value := by
  induction outputs with
  | nil => simp
  | cons output rest ih =>
    unfold checkOutputsLoop at h
    split at h
    · cases h
    split at h
    · cases h
    rename_i hv
    split at h
    · cases h
    intro o ho
    rcases List.mem_cons.1 ho with rfl | ho
    · omega
    · exact ih h o ho

/-- Outside the coinbase branch the claim of C6 holds: a transaction that is not a coinbase and
passes the sanity check has no negative output value. -/
theorem CheckTransactionSanity_output_values_nonneg (ctx : Context) (version : Nat)
    (txn : Transaction) (hcb : txn.IsCoinBaseTx = false)
    (h : CheckTransactionSanity ctx version txn = .Success) :
    ∀ output ∈ txn.Outputs, 0 ≤ output.Value := by
  have hout := (CheckTransactionSanity_success_imp ctx version txn h).2.2.1
  unfold CheckTransactionOutput at hout
  rw [hcb] at hout
  split at hout
  · cases hout
  simp only [Bool.false_eq_true, if_false] at hout
  split at hout
  · cases hout
  exact checkOutputsLoop_ok_nonneg ctx version txn.Outputs hout

/-- The loop over the sidechain hashes accepts exactly when the store knows none of them. -/
theorem withdrawHashesLoop_ok_iff (ctx : Context) (hashes : List Uint256) :
    withdrawHashesLoop ctx hashes = .ok ↔
      ∀ hash ∈ hashes, ctx.IsSidechainTxHashDuplicate hash = false := by
  induction hashes with
  | nil => simp [withdrawHashesLoop]
  | cons hash rest ih =>
    unfold withdrawHashesLoop
    cases hd : ctx.IsSidechainTxHashDuplicate hash
    · simp [hd, ih]
    · simp [hd]

/-- C11, counterexample: a withdraw-from-sidechain transaction that is not a coinbase, not a
sidechain proof of work, has a new hash, a sidechain hash the store does not know and is no
double spend, in a store that fails to resolve its references, gets `ErrSidechainTxDuplicate`;
a cross-chain transfer in the same store gets `ErrInvalidOutput`. -/
theorem unresolved_withdraw_not_UnknownReferedTx :
    (withdrawExample [List.replicate 32 4]).IsCoinBaseTx = false ∧
    (withdrawExample [List.replicate 32 4]).IsSideChainPowTx = false ∧
    unresolvedContext.IsTxHashDuplicate
      (unresolvedContext.Hash (withdrawExample [List.replicate 32 4])) = false ∧
    unresolvedContext.IsSidechainTxHashDuplicate (List.replicate 32 4) = false ∧
    unresolvedContext.IsDoubleSpend (withdrawExample [List.replicate 32 4]) = false ∧
    unresolvedContext.GetTxReference (withdrawExample [List.replicate 32 4]) = none ∧
    CheckTransactionContext unresolvedContext (withdrawExample [List.replicate 32 4]) =
      some .ErrSidechainTxDuplicate ∧
    unresolvedContext.GetTxReference (crossChainExample [crossChainOutput 999]) = none ∧
    CheckTransactionContext unresolvedContext (crossChainExample [crossChainOutput 999]) =
      some .ErrInvalidOutput := by
  refine ⟨by decide, by decide, by decide, by decide, by decide, by decide, by decide, by decide,
    by decide⟩

/-- A cross-chain transfer whose references do not resolve is never accepted by
`CheckTransferCrossChainAssetTransaction`. -/
theorem CheckTransferCrossChainAssetTransaction_unresolved (ctx : Context) (txn : Transaction)
    (hres : ctx.GetTxReference txn = none) :
    CheckTransferCrossChainAssetTransaction ctx txn ≠ some .ok := by
  intro h
  rcases hp : txn.Payload with _ | _ | _ | _ | _ | _ | ⟨addresses, amounts, indexes⟩ | _ <;>
    try (unfold CheckTransferCrossChainAssetTransaction at h; rw [hp] at h; simp at h; done)
  obtain ⟨_, _, _, _, _, _, reference, hr, _⟩ :=
    CheckTransferCrossChainAssetTransaction_ok_imp ctx txn addresses amounts indexes hp h
  rw [hres] at hr
  cases hr

/-- C11, amended: for a transaction that is not a coinbase and not a sidechain proof of work,
whose hash is new, whose sidechain hashes the store does not know and which is no double spend,
when the store fails to resolve the references the contextual check never answers `Success`: it
answers `ErrUnknownReferedTx` when the transaction is neither a withdraw-from-sidechain nor a
cross-chain transfer, `ErrSidechainTxDuplicate` when it is a withdraw-from-sidechain, and for a
cross-chain transfer `ErrInvalidOutput` unless it stops with a run-time fault. -/
theorem CheckTransactionContext_unresolved_references (ctx : Context) (txn : Transaction)
    (hdup : ctx.IsTxHashDuplicate (ctx.Hash txn) = false)
    (hcb : txn.IsCoinBaseTx = false) (hpow : txn.IsSideChainPowTx = false)
    (hside : ∀ hashes, txn.Payload = .WithdrawFromSideChain hashes →
      ∀ hash ∈ hashes, ctx.IsSidechainTxHashDuplicate hash = false)
    (hds : ctx.IsDoubleSpend txn = false)
    (hres : ctx.GetTxReference txn = none) :
    CheckTransactionContext ctx txn ≠ some .Success ∧
    (txn.IsWithdrawFromSideChainTx = false → txn.IsTransferCrossChainAssetTx = false →
      CheckTransactionContext ctx txn = some .ErrUnknownReferedTx) ∧
    (txn.IsWithdrawFromSideChainTx = true →
      CheckTransactionContext ctx txn = some .ErrSidechainTxDuplicate) ∧
    (txn.IsTransferCrossChainAssetTx = true →
      CheckTransactionContext ctx txn = some .ErrInvalidOutput ∨
      CheckTransactionContext ctx txn = none) := by
  have hstep1 : sideChainPowStep ctx txn = some .ok := by
    unfold sideChainPowStep
    rw [hpow]
    rfl
  have hstep4 : doubleSpendStep ctx txn = some .ok := by
    unfold doubleSpendStep
    rw [hds]
    rfl
  have hmain : CheckTransactionContext ctx txn =
      match withdrawStep ctx txn with
      | none => none
      | some (.err _) => some .ErrSidechainTxDuplicate
      | some .ok =>
        match crossChainStep ctx txn with
        | none => none
        | some (.err _) => some .ErrInvalidOutput
        | some .ok => some .ErrUnknownReferedTx := by
    unfold CheckTransactionContext
    rw [hdup, hcb, hstep1, hstep4, hres]
    rfl
  rw [hmain]
  rcases hp : txn.Payload with _ | _ | _ | _ | _ | hashes | ⟨addresses, amounts, indexes⟩ | _
  case WithdrawFromSideChain =>
    have hw : withdrawStep ctx txn = some (.err "Invalid transaction inputs") := by
      unfold withdrawStep Transaction.IsWithdrawFromSideChainTx
        CheckWithdrawFromSideChainTransaction
      rw [hp]
      simp only [if_true]
      rw [(withdrawHashesLoop_ok_iff ctx hashes).2 (hside hashes hp), hres]
    simp [hw, Transaction.IsWithdrawFromSideChainTx, Transaction.IsTransferCrossChainAssetTx, hp]
  case TransferCrossChainAsset =>
    have hw : withdrawStep ctx txn = some .ok := by
      unfold withdrawStep Transaction.IsWithdrawFromSideChainTx
      rw [hp]
      rfl
    have hc : crossChainStep ctx txn = CheckTransferCrossChainAssetTransaction ctx txn := by
      unfold crossChainStep Transaction.IsTransferCrossChainAssetTx
      rw [hp]
      rfl
    have hne := CheckTransferCrossChainAssetTransaction_unresolved ctx txn hres
    rw [hw, hc]
    rcases hr : CheckTransferCrossChainAssetTransaction ctx txn with _ | _ | msg
    · simp [Transaction.IsWithdrawFromSideChainTx, Transaction.IsTransferCrossChainAssetTx, hp]
    · exact absurd hr hne
    · simp [Transaction.IsWithdrawFromSideChainTx, Transaction.IsTransferCrossChainAssetTx, hp]
  all_goals
    have hw : withdrawStep ctx txn = some .ok := by
      unfold withdrawStep Transaction.IsWithdrawFromSideChainTx
      rw [hp]
      rfl
    have hc : crossChainStep ctx txn = some .ok := by
      unfold crossChainStep Transaction.IsTransferCrossChainAssetTx
      rw [hp]
      rfl
    simp [hw, hc, Transaction.IsWithdrawFromSideChainTx, Transaction.IsTransferCrossChainAssetTx,
      hp]

/-- Witness for C11: a transfer whose references do not resolve gets `ErrUnknownReferedTx`. -/
theorem CheckTransactionContext_unresolved_references_witness :
    CheckTransactionContext unresolvedContext
      (transferExample 0 [sampleInput 0] [sampleOutput 1 0]) = some .ErrUnknownReferedTx :=
  (CheckTransactionContext_unresolved_references unresolvedContext
    (transferExample 0 [sampleInput 0] [sampleOutput 1 0]) (by decide) (by decide) (by decide)
    (by intro hashes h; cases h) (by decide) (by decide)).2.1 (by decide) (by decide)

/-- The loop over the referenced outputs accepts exactly when each has the cross-chain prefix. -/
theorem withdrawReferenceLoop_ok_iff (ctx : Context) (reference : References) :
    withdrawReferenceLoop ctx reference = .ok ↔
      ∀ p ∈ reference, prefixByte p.2.ProgramHash = ctx.PrefixCrossChain := by
  induction reference with
  | nil => simp [withdrawReferenceLoop]
  | cons p rest ih =>
    obtain ⟨input, v⟩ := p
    unfold withdrawReferenceLoop
    by_cases h : prefixByte v.ProgramHash = ctx.PrefixCrossChain
    · simp [h, ih]
    · simp [h]

/-- C14: for a withdraw-from-sidechain transaction whose references resolve,
`CheckWithdrawFromSideChainTransaction` accepts exactly when the store knows none of its
sidechain transaction hashes and every referenced output has the cross-chain prefix. -/
theorem CheckWithdrawFromSideChainTransaction_ok_iff (ctx : Context) (txn : Transaction)
    (hashes : List Uint256) (reference : References)
    (hp : txn.Payload = .WithdrawFromSideChain hashes)
    (hres : ctx.GetTxReference txn = some reference) :
    CheckWithdrawFromSideChainTransaction ctx txn = .ok ↔
      (∀ hash ∈ hashes, ctx.IsSidechainTxHashDuplicate hash = false) ∧
      ∀ p ∈ reference, prefixByte p.2.ProgramHash = ctx.PrefixCrossChain := by
  unfold CheckWithdrawFromSideChainTransaction
  rw [hp]
  simp only []
  rcases hl : withdrawHashesLoop ctx hashes with _ | msg
  · simp only [hres]
    rw [withdrawReferenceLoop_ok_iff]
    have := (withdrawHashesLoop_ok_iff ctx hashes).1 hl
    constructor
    · intro h
      exact ⟨this, h⟩
    · intro h
      exact h.2
  · simp only []
    constructor
    · intro h
      cases h
    · intro h
      have := (withdrawHashesLoop_ok_iff ctx hashes).2 h.1
      rw [this] at hl
      cases hl

/-- Witness for C14: a withdraw whose single referenced output has the cross-chain prefix. -/
theorem CheckWithdrawFromSideChainTransaction_ok_iff_witness :
    CheckWithdrawFromSideChainTransaction
      (contextWithReferences [(sampleInput 0, crossChainOutput 1000)])
      (withdrawExample [List.replicate 32 4]) = .ok :=
  (CheckWithdrawFromSideChainTransaction_ok_iff
    (contextWithReferences [(sampleInput 0, crossChainOutput 1000)])
    (withdrawExample [List.replicate 32 4]) [List.replicate 32 4]
    [(sampleInput 0, crossChainOutput 1000)] rfl rfl).2 ⟨by decide, by decide⟩

/-- The loop over the sidechain hashes of one transaction accepts exactly when no hash is
already in the map and the hashes are pairwise distinct. -/
theorem checkSidechainHashesLoop_ok_iff (hashes existing : List Uint256) :
    checkSidechainHashesLoop hashes existing = .ok ↔
      (∀ hash ∈ hashes, hash ∉ existing) ∧ hashes.Nodup := by
  induction hashes generalizing existing with
  | nil => simp [checkSidechainHashesLoop]
  | cons hash rest ih =>
    unfold checkSidechainHashesLoop
    by_cases h : hash ∈ existing
    · simp [h]
    · rw [if_neg h, ih]
      simp only [List.mem_cons, forall_eq_or_imp, not_or, List.nodup_cons]
      constructor
      · rintro ⟨ha, hb⟩
        exact ⟨⟨h, fun x hx => (ha x hx).2⟩, fun hm => (ha hash hm).1 rfl, hb⟩
      · rintro ⟨⟨_, ha⟩, hb, hc⟩
        exact ⟨fun x hx => ⟨fun heq => hb (heq ▸ hx), ha x hx⟩, hc⟩

/-- C15: `CheckDuplicateSidechainTx` returns an error exactly when the transaction is a
withdraw-from-sidechain transaction whose list of sidechain hashes holds the same hash at two
different positions; the sanity check reports that error as `ErrSidechainTxDuplicate` once the
six earlier checks have passed; a transaction of any other payload kind is accepted. -/
theorem CheckDuplicateSidechainTx_err_iff (ctx : Context) (version : Nat) (txn : Transaction) :
    ((∃ msg, CheckDuplicateSidechainTx txn = .err msg) ↔
      ∃ hashes, txn.Payload = .WithdrawFromSideChain hashes ∧
        ∃ i j, i < j ∧ j < hashes.length ∧ hashes.get? i = hashes.get? j) ∧
    ((∃ msg, CheckDuplicateSidechainTx txn = .err msg) →
      CheckTransactionSize ctx txn = .ok → CheckTransactionInput txn = .ok →
      CheckTransactionOutput ctx version txn = .ok → CheckAssetPrecision ctx txn = .ok →
      CheckAttributeProgram ctx txn = .ok → CheckTransactionPayload ctx txn = .ok →
      CheckTransactionSanity ctx version txn = .ErrSidechainTxDuplicate) ∧
    (txn.IsWithdrawFromSideChainTx = false → CheckDuplicateSidechainTx txn = .ok) := by
  have hloop : ∀ hashes : List Uint256,
      (∃ msg, checkSidechainHashesLoop hashes [] = .err msg) ↔
        ∃ i j, i < j ∧ j < hashes.length ∧ hashes.get? i = hashes.get? j := by
    intro hashes
    have h1 := checkSidechainHashesLoop_ok_iff hashes []
    have h2 : (∃ msg, checkSidechainHashesLoop hashes [] = .err msg) ↔ ¬ hashes.Nodup := by
      rcases hr : checkSidechainHashesLoop hashes [] with _ | msg
      · have := (h1.1 hr).2
        simp [this]
      · have : ¬ hashes.Nodup := by
          intro hn
          have := h1.2 ⟨by simp, hn⟩
          rw [this] at hr
          cases hr
        simp [this]
    rw [h2, List.nodup_iff_get?_ne_get?]
    push_neg
    rfl
  refine ⟨?_, ?_, ?_⟩
  · unfold CheckDuplicateSidechainTx
    rcases hp : txn.Payload with _ | _ | _ | _ | _ | hashes | _ | _ <;> simp [hloop]
  · rintro ⟨msg, hmsg⟩ h1 h2 h3 h4 h5 h6
    unfold CheckTransactionSanity
    rw [h1, h2, h3, h4, h5, h6, hmsg]
  · intro hw
    unfold CheckDuplicateSidechainTx
    unfold Transaction.IsWithdrawFromSideChainTx at hw
    rcases hp : txn.Payload with _ | _ | _ | _ | _ | hashes | _ | _ <;>
      first | rfl | (rw [hp] at hw; cases hw)

/-- Witness for C15: a withdraw listing the same sidechain hash twice is reported as
`ErrSidechainTxDuplicate`. -/
theorem CheckDuplicateSidechainTx_err_iff_witness :
    CheckTransactionSanity sampleContext 1
      (withdrawExample [List.replicate 32 4, List.replicate 32 4]) = .ErrSidechainTxDuplicate :=
  (CheckDuplicateSidechainTx_err_iff sampleContext 1
    (withdrawExample [List.replicate 32 4, List.replicate 32 4])).2.1
    ((CheckDuplicateSidechainTx_err_iff sampleContext 1
      (withdrawExample [List.replicate 32 4, List.replicate 32 4])).1.2
      ⟨_, rfl, 0, 1, by decide, by decide, by decide⟩)
    (by decide) (by decide) (by decide) (by decide) (by decide) (by decide)

/-- With a configured list that is not empty (and shorter than `2^32`) `GetCurrentArbiter`
returns the arbitrator at index `height mod |arbitrators|`, which is in range; when the lookup
of the list fails it returns that error, and the contextual check of a sidechain proof-of-work
transaction then answers `ErrSideChainPowConsensus`. -/
theorem GetCurrentArbiter_nonempty (ctx : Context) (txn : Transaction) :
    (∀ arbitrators, ctx.GetArbitrators = some arbitrators → arbitrators ≠ [] →
      arbitrators.length < 2 ^ 32 →
      ctx.GetHeight % arbitrators.length < arbitrators.length ∧
      ∃ arbitrator, arbitrators.get? (ctx.GetHeight % arbitrators.length) = some arbitrator ∧
        GetCurrentArbiter ctx = some (.ok arbitrator)) ∧
    (ctx.GetArbitrators = none →
      (∃ msg, GetCurrentArbiter ctx = some (.error msg)) ∧
      (ctx.IsTxHashDuplicate (ctx.Hash txn) = false → txn.IsCoinBaseTx = false →
        txn.IsSideChainPowTx = true →
        CheckTransactionContext ctx txn = some .ErrSideChainPowConsensus)) := by
  constructor
  · intro arbitrators hg hne hlen
    have hpos : 0 < arbitrators.length := List.length_pos.2 hne
    have hlt : ctx.GetHeight % arbitrators.length < arbitrators.length := Nat.mod_lt _ hpos
    refine ⟨hlt, arbitrators.get ⟨_, hlt⟩, List.get?_eq_get hlt, ?_⟩
    unfold GetCurrentArbiter
    rw [hg]
    have hmod : arbitrators.length % 2 ^ 32 = arbitrators.length := Nat.mod_eq_of_lt hlen
    simp only [hmod]
    rw [if_neg (by omega), List.get?_eq_get hlt]
  · intro hg
    have h1 : GetCurrentArbiter ctx = some (.error "GetArbitrators failed") := by
      unfold GetCurrentArbiter
      rw [hg]
    refine ⟨⟨_, h1⟩, ?_⟩
    intro hdup hcb hpow
    unfold CheckTransactionContext sideChainPowStep
    rw [hdup, hcb, hpow, h1]
    rfl

/-- C16, failing input: the configured arbitrator list is empty and its lookup reports no
error.  `GetCurrentArbiter` then takes the remainder of the height by zero, a run-time fault,
and the contextual check of a sidechain proof-of-work transaction faults with it instead of
answering `ErrSideChainPowConsensus`; with the one-element list of the example context the same
transaction is accepted. -/
theorem GetCurrentArbiter_empty_list_faults :
    noArbiterContext.GetArbitrators = some [] ∧
    GetCurrentArbiter noArbiterContext = none ∧
    sideChainPowExample.IsSideChainPowTx = true ∧
    CheckTransactionContext noArbiterContext sideChainPowExample = none ∧
    CheckTransactionContext (contextWithReferences [(sampleInput 0, sampleOutput 1000 0)])
      sideChainPowExample = some .Success := by
  refine ⟨by decide, rfl, by decide, by decide, by decide⟩

/-- `CheckDestructionAddress` fails exactly when a referenced output belongs to the destruction
address. -/
theorem CheckDestructionAddress_err_iff (references : References) :
    (∃ msg, CheckDestructionAddress references = .err msg) ↔
      ∃ p ∈ references, p.2.ProgramHash = destructionAddress := by
  induction references with
  | nil => simp [CheckDestructionAddress]
  | cons p rest ih =>
    obtain ⟨input, output⟩ := p
    unfold CheckDestructionAddress
    change (∃ msg, (if output.ProgramHash = destructionAddress then
      CheckResult.err "cannot use utxo in the Elastos foundation destruction address"
      else CheckDestructionAddress rest) = .err msg) ↔ _
    by_cases h : output.ProgramHash = destructionAddress
    · simp [h]
    · rw [if_neg h, ih]
      simp [h]

set_option maxRecDepth 100000 in
/-- C12, counterexample: a coinbase whose input the store resolves to an output of the
destruction address.  `CheckDestructionAddress` rejects its reference map, and still the
contextual check answers `Success`, since a coinbase is accepted before the references are
asked for; the sanity check accepts the transaction as well. -/
theorem coinbase_destruction_reference_accepted :
    (coinbaseExample 1000 2000).IsCoinBaseTx = true ∧
    (coinbaseExample 1000 2000).Inputs = [⟨⟨EmptyHash, 65535⟩, 0⟩] ∧
    (contextWithReferences
      [(⟨⟨EmptyHash, 65535⟩, 0⟩, ⟨sampleAsset, 1000, 0, destructionAddress⟩)]).GetTxReference
      (coinbaseExample 1000 2000) =
      some [(⟨⟨EmptyHash, 65535⟩, 0⟩, ⟨sampleAsset, 1000, 0, destructionAddress⟩)] ∧
    CheckDestructionAddress
      [(⟨⟨EmptyHash, 65535⟩, 0⟩, ⟨sampleAsset, 1000, 0, destructionAddress⟩)] =
      .err "cannot use utxo in the Elastos foundation destruction address" ∧
    CheckTransactionSanity (contextWithReferences
      [(⟨⟨EmptyHash, 65535⟩, 0⟩, ⟨sampleAsset, 1000, 0, destructionAddress⟩)]) 0
      (coinbaseExample 1000 2000) = .Success ∧
    CheckTransactionContext (contextWithReferences
      [(⟨⟨EmptyHash, 65535⟩, 0⟩, ⟨sampleAsset, 1000, 0, destructionAddress⟩)])
      (coinbaseExample 1000 2000) = some .Success := by
  refine ⟨rfl, rfl, rfl, by decide, by decide, by decide⟩

/-- C12, amended: `CheckDestructionAddress` returns an error exactly when some output of the
reference map has the program hash of the destruction address; when the contextual check
reaches that step and it fails, the answer is `ErrInvalidInput`; and a transaction that is not
a coinbase and is accepted by the contextual check has a resolved reference map without any
output of the destruction address. -/
theorem CheckDestructionAddress_spec (ctx : Context) (txn : Transaction)
    (references : References) :
    ((∃ msg, CheckDestructionAddress references = .err msg) ↔
      ∃ p ∈ references, p.2.ProgramHash = destructionAddress) ∧
    (ctx.IsTxHashDuplicate (ctx.Hash txn) = false → txn.IsCoinBaseTx = false →
      sideChainPowStep ctx txn = some .ok → withdrawStep ctx txn = some .ok →
      crossChainStep ctx txn = some .ok → doubleSpendStep ctx txn = some .ok →
      ctx.GetTxReference txn = some references →
      CheckTransactionUTXOLock txn references = .ok →
      CheckTransactionFee ctx txn references = .ok →
      (∃ p ∈ references, p.2.ProgramHash = destructionAddress) →
      CheckTransactionContext ctx txn = some .ErrInvalidInput) ∧
    (CheckTransactionContext ctx txn = some .Success → txn.IsCoinBaseTx = false →
      ∃ refs, ctx.GetTxReference txn = some refs ∧
        ∀ p ∈ refs, p.2.ProgramHash ≠ destructionAddress) := by
  refine ⟨CheckDestructionAddress_err_iff references, ?_, ?_⟩
  · intro hdup hcb h1 h2 h3 h4 hr hu hf hd
    obtain ⟨msg, hmsg⟩ := (CheckDestructionAddress_err_iff references).2 hd
    unfold CheckTransactionContext
    rw [hdup, hcb, h1, h2, h3, h4, hr]
    simp only [Bool.false_eq_true, if_false]
    rw [hu, hf, hmsg]
  · intro hacc hcb
    unfold CheckTransactionContext at hacc
    rw [hcb] at hacc
    split at hacc
    · cases hacc
    simp only [Bool.false_eq_true, if_false] at hacc
    split at hacc
    · cases hacc
    · cases hacc
    split at hacc
    · cases hacc
    · cases hacc
    split at hacc
    · cases hacc
    · cases hacc
    split at hacc
    · cases hacc
    · cases hacc
    split at hacc
    · cases hacc
    rename_i refs hrefs
    split at hacc
    · cases hacc
    split at hacc
    · cases hacc
    split at hacc
    · cases hacc
    rename_i hdestr
    refine ⟨refs, hrefs, ?_⟩
    intro p hp heq
    obtain ⟨msg, hmsg⟩ := (CheckDestructionAddress_err_iff refs).2 ⟨p, hp, heq⟩
    rw [hmsg] at hdestr
    cases hdestr

/-- Witness for C12: a transfer spending an output of the destruction address gets
`ErrInvalidInput`. -/
theorem CheckDestructionAddress_spec_witness :
    CheckTransactionContext
      (contextWithReferences [(sampleInput 0, ⟨sampleAsset, 1000, 0, destructionAddress⟩)])
      (transferExample 0 [sampleInput 0] [sampleOutput 1 0]) = some .ErrInvalidInput :=
  (CheckDestructionAddress_spec
    (contextWithReferences [(sampleInput 0, ⟨sampleAsset, 1000, 0, destructionAddress⟩)])
    (transferExample 0 [sampleInput 0] [sampleOutput 1 0])
    [(sampleInput 0, ⟨sampleAsset, 1000, 0, destructionAddress⟩)]).2.1
    (by decide) (by decide) (by decide) (by decide) (by decide) (by decide) (by decide)
    (by decide) (by decide) ⟨_, List.mem_cons_self _ _, rfl⟩

/-- For a precision up to 8 the amount is precise exactly when `10^(8 - precision)` divides
it; the truncated remainder of Go and the mathematical remainder vanish together. -/
theorem checkAmountPrecise_iff (amount : Int) (precision : Nat) (hp : precision ≤ 8) :
    checkAmountPrecise amount precision = true ↔ amount % 10 ^ (8 - precision) = 0 := by
  unfold checkAmountPrecise
  have h1 : (8 + 256 - precision % 256) % 256 = 8 - precision := by omega
  have h2 : pow10Int64 (8 - precision) = 10 ^ (8 - precision) := by
    unfold pow10Int64
    rw [if_pos (by omega)]
  rw [h1, h2, decide_eq_true_iff]
  constructor
  · intro h
    exact Int.emod_eq_zero_of_dvd (Int.dvd_of_tmod_eq_zero h)
  · intro h
    exact Int.tmod_eq_zero_of_dvd (Int.dvd_of_emod_eq_zero h)

/-- Appending an output to the map adds its (asset, output) pair and nothing else. -/
theorem mem_assetPairs_appendAssetOutput (v : Output) (m : List (Uint256 × List Output))
    (x : Uint256 × Output) :
    x ∈ assetPairs (appendAssetOutput v m) ↔ x ∈ assetPairs m ∨ x = (v.AssetID, v) := by
  induction m with
  | nil => simp [appendAssetOutput, assetPairs]
  | cons entry rest ih =>
    obtain ⟨k, outputs⟩ := entry
    unfold appendAssetOutput
    by_cases hk : k = v.AssetID
    · rw [if_pos hk]
      clear ih
      simp only [assetPairs, List.flatMap_cons, List.mem_append, List.mem_map,
        List.mem_singleton, hk]
      constructor
      · rintro (⟨a, (ha | rfl), rfl⟩ | hr)
        · exact Or.inl (Or.inl ⟨a, ha, rfl⟩)
        · exact Or.inr rfl
        · exact Or.inl (Or.inr hr)
      · rintro ((⟨a, ha, rfl⟩ | hr) | rfl)
        · exact Or.inl ⟨a, Or.inl ha, rfl⟩
        · exact Or.inr hr
        · exact Or.inl ⟨v, Or.inr rfl, rfl⟩
    · rw [if_neg hk]
      simp only [assetPairs, List.flatMap_cons, List.mem_append] at ih ⊢
      rw [ih]
      tauto

/-- Appending an output to the map leaves no asset with an empty slice. -/
theorem appendAssetOutput_nonempty (v : Output) (m : List (Uint256 × List Output))
    (h : ∀ entry ∈ m, entry.2 ≠ []) : ∀ entry ∈ appendAssetOutput v m, entry.2 ≠ [] := by
  induction m with
  | nil => simp [appendAssetOutput]
  | cons entry rest ih =>
    obtain ⟨k, outputs⟩ := entry
    have hrest := ih (fun e he => h e (List.mem_cons_of_mem _ he))
    unfold appendAssetOutput
    by_cases hk : k = v.AssetID
    · rw [if_pos hk]
      intro e he
      rcases List.mem_cons.1 he with rfl | he
      · simp
      · exact h e (List.mem_cons_of_mem _ he)
    · rw [if_neg hk]
      intro e he
      rcases List.mem_cons.1 he with rfl | he
      · exact h _ (List.mem_cons_self _ _)
      · exact hrest e he

/-- The map built from the outputs holds exactly the pairs (asset of the output, output), and
no asset with an empty slice. -/
theorem assetOutputs_spec (outputs : List Output) (m : List (Uint256 × List Output))
    (h : ∀ entry ∈ m, entry.2 ≠ []) :
    (∀ x, x ∈ assetPairs (outputs.foldl (fun m v => appendAssetOutput v m) m) ↔
      x ∈ assetPairs m ∨ ∃ v ∈ outputs, x = (v.AssetID, v)) ∧
    ∀ entry ∈ outputs.foldl (fun m v => appendAssetOutput v m) m, entry.2 ≠ [] := by
  induction outputs generalizing m with
  | nil => exact ⟨by simp, h⟩
  | cons v rest ih =>
    simp only [List.foldl_cons]
    obtain ⟨i1, i2⟩ := ih (appendAssetOutput v m) (appendAssetOutput_nonempty v m h)
    refine ⟨?_, i2⟩
    intro x
    rw [i1, mem_assetPairs_appendAssetOutput]
    simp only [List.mem_cons, exists_eq_or_imp]
    tauto

/-- The inner precision loop accepts exactly when every value is precise. -/
theorem checkPrecisionLoop_ok_iff (precision : Nat) (outputs : List Output) :
    checkPrecisionLoop precision outputs = .ok ↔
      ∀ output ∈ outputs, checkAmountPrecise output.Value precision = true := by
  induction outputs with
  | nil => simp [checkPrecisionLoop]
  | cons output rest ih =>
    unfold checkPrecisionLoop
    by_cases hp : checkAmountPrecise output.Value precision = true
    · simp [hp, ih]
    · simp [hp]

/-- On a map without empty slices the outer loop accepts exactly when every pair has a known
asset and a value precise for it. -/
theorem checkAssetsLoop_ok_iff (ctx : Context) (m : List (Uint256 × List Output))
    (h : ∀ entry ∈ m, entry.2 ≠ []) :
    checkAssetsLoop ctx m = .ok ↔
      ∀ x ∈ assetPairs m, ∃ precision, ctx.GetAsset x.1 = some precision ∧
        checkAmountPrecise x.2.Value precision = true := by
  induction m with
  | nil => simp [checkAssetsLoop, assetPairs]
  | cons entry rest ih =>
    obtain ⟨k, outputs⟩ := entry
    have hne : outputs ≠ [] := h (k, outputs) (List.mem_cons_self _ _)
    have ih2 := ih (fun e he => h e (List.mem_cons_of_mem _ he))
    unfold checkAssetsLoop
    simp only [assetPairs, List.flatMap_cons, List.mem_append, List.mem_map] at ih2 ⊢
    rcases hg : ctx.GetAsset k with _ | precision
    · simp only []
      constructor
      · intro hc
        cases hc
      · intro hall
        obtain ⟨o, os, rfl⟩ := List.exists_cons_of_ne_nil hne
        obtain ⟨p, hp, _⟩ := hall (k, o) (Or.inl ⟨o, List.mem_cons_self _ _, rfl⟩)
        rw [hg] at hp
        cases hp
    · simp only []
      rcases hl : checkPrecisionLoop precision outputs with _ | msg
      · simp only []
        rw [ih2]
        have hl2 := (checkPrecisionLoop_ok_iff precision outputs).1 hl
        constructor
        · intro hrest x hx
          rcases hx with ⟨o, ho, rfl⟩ | hx
          · exact ⟨precision, hg, hl2 o ho⟩
          · exact hrest x hx
        · intro hall x hx
          exact hall x (Or.inr hx)
      · simp only []
        constructor
        · intro hc
          cases hc
        · intro hall
          have : checkPrecisionLoop precision outputs = .ok := by
            rw [checkPrecisionLoop_ok_iff]
            intro o ho
            obtain ⟨p, hp, hp2⟩ := hall (k, o) (Or.inl ⟨o, ho, rfl⟩)
            rw [hg] at hp
            cases hp
            exact hp2
          rw [this] at hl
          cases hl

/-- `CheckAssetPrecision` accepts exactly when every output has a known asset and a value
precise for it. -/
theorem CheckAssetPrecision_ok_iff (ctx : Context) (txn : Transaction) :
    CheckAssetPrecision ctx txn = .ok ↔
      ∀ output ∈ txn.Outputs, ∃ precision, ctx.GetAsset output.AssetID = some precision ∧
        checkAmountPrecise output.Value precision = true := by
  unfold CheckAssetPrecision
  by_cases h0 : txn.Outputs.length = 0
  · rw [if_pos h0]
    have : txn.Outputs = [] := List.length_eq_zero.1 h0
    simp [this]
  · rw [if_neg h0]
    obtain ⟨s1, s2⟩ := assetOutputs_spec txn.Outputs [] (by simp)
    rw [checkAssetsLoop_ok_iff ctx _ s2]
    constructor
    · intro hall o ho
      exact hall (o.AssetID, o) ((s1 _).2 (Or.inr ⟨o, ho, rfl⟩))
    · intro hall x hx
      rcases (s1 x).1 hx with hx | ⟨o, ho, rfl⟩
      · simp [assetPairs] at hx
      · exact hall o ho

/-- C13: when every output refers to an asset the ledger knows with a precision from 0 to 8,
`CheckAssetPrecision` accepts exactly when every output value `v`, negative or not, satisfies
`v mod 10^(8 - p) = 0` for the precision `p` of its asset; it rejects whenever the asset of some
output is unknown, and it accepts every transaction without outputs.  With precision 0 the
value `-200000000` is accepted and the value `-1` is rejected. -/
theorem CheckAssetPrecision_accepts_iff (ctx : Context) (txn : Transaction) :
    ((∀ output ∈ txn.Outputs, ∃ p, ctx.GetAsset output.AssetID = some p ∧ p ≤ 8) →
      (CheckAssetPrecision ctx txn = .ok ↔
        ∀ output ∈ txn.Outputs, ∀ p, ctx.GetAsset output.AssetID = some p →
          output.Value % 10 ^ (8 - p) = 0)) ∧
    ((∃ output ∈ txn.Outputs, ctx.GetAsset output.AssetID = none) →
      ∃ msg, CheckAssetPrecision ctx txn = .err msg) ∧
    (txn.Outputs = [] → CheckAssetPrecision ctx txn = .ok) ∧
    CheckAssetPrecision wholeUnitContext
      (transferExample 0 [sampleInput 0] [sampleOutput (-200000000) 0]) = .ok ∧
    CheckAssetPrecision wholeUnitContext
      (transferExample 0 [sampleInput 0] [sampleOutput (-1) 0]) =
        .err "The precision of asset is incorrect." := by
  refine ⟨?_, ?_, ?_, by decide, by decide⟩
  · intro hknown
    rw [CheckAssetPrecision_ok_iff]
    constructor
    · intro hall o ho p hp
      obtain ⟨q, hq, hprec⟩ := hall o ho
      obtain ⟨p2, hp2, hle⟩ := hknown o ho
      rw [hq] at hp hp2
      cases hp
      cases hp2
      exact (checkAmountPrecise_iff _ _ hle).1 hprec
    · intro hall o ho
      obtain ⟨p, hp, hle⟩ := hknown o ho
      exact ⟨p, hp, (checkAmountPrecise_iff _ _ hle).2 (hall o ho p hp)⟩
  · rintro ⟨o, ho, hnone⟩
    rcases hr : CheckAssetPrecision ctx txn with _ | msg
    · obtain ⟨p, hp, _⟩ := (CheckAssetPrecision_ok_iff ctx txn).1 hr o ho
      rw [hnone] at hp
      cases hp
    · exact ⟨msg, rfl⟩
  · intro hempty
    rw [CheckAssetPrecision_ok_iff, hempty]
    simp

/-- Witness for C13: one output of value 1 in an asset of precision 8. -/
theorem CheckAssetPrecision_accepts_iff_witness :
    CheckAssetPrecision sampleContext (transferExample 0 [sampleInput 0] [sampleOutput 1 0]) =
      .ok :=
  ((CheckAssetPrecision_accepts_iff sampleContext
    (transferExample 0 [sampleInput 0] [sampleOutput 1 0])).1 (by decide)).2 (by decide)

/-- A check is accepted exactly when it returns `nil`. -/
theorem CheckResult.accepted_iff (r : CheckResult) : r.accepted = true ↔ r = .ok := by
  cases r <;> simp [CheckResult.accepted]

/-- Two checks that return `nil` on the same condition have the same verdict. -/
theorem CheckResult.accepted_congr (a b : CheckResult) (h : a = .ok ↔ b = .ok) :
    a.accepted = b.accepted := by
  cases a <;> cases b <;> simp [CheckResult.accepted] at h ⊢

/-- The lock loop accepts exactly when no entry is locked. -/
theorem utxoLockLoop_ok_iff (txn : Transaction) (references : References) :
    utxoLockLoop txn references = .ok ↔
      ¬ ∃ p ∈ references, p.2.OutputLock ≠ 0 ∧
        (p.1.Sequence ≠ 4294967294 ∨ txn.LockTime < p.2.OutputLock) := by
  rw [← utxoLockLoop_err_iff]
  cases utxoLockLoop txn references <;> simp

/-- The verdict of `CheckTransactionUTXOLock` does not depend on the enumeration order. -/
theorem CheckTransactionUTXOLock_perm (txn : Transaction) (r1 r2 : References)
    (h : r1.Perm r2) :
    (CheckTransactionUTXOLock txn r1).accepted = (CheckTransactionUTXOLock txn r2).accepted := by
  unfold CheckTransactionUTXOLock
  split
  · rfl
  · apply CheckResult.accepted_congr
    rw [utxoLockLoop_ok_iff, utxoLockLoop_ok_iff]
    simp only [h.mem_iff]

/-- The result of `CheckTransactionFee` does not depend on the enumeration order. -/
theorem CheckTransactionFee_perm (ctx : Context) (txn : Transaction) (r1 r2 : References)
    (h : r1.Perm r2) : CheckTransactionFee ctx txn r1 = CheckTransactionFee ctx txn r2 := by
  unfold CheckTransactionFee
  simp only [sumFixed64_eq]
  rw [(h.map (fun reference => reference.2.Value)).sum_eq]

/-- The verdict of `CheckDestructionAddress` does not depend on the enumeration order. -/
theorem CheckDestructionAddress_perm (r1 r2 : References) (h : r1.Perm r2) :
    (CheckDestructionAddress r1).accepted = (CheckDestructionAddress r2).accepted := by
  have key : ∀ r : References, CheckDestructionAddress r = .ok ↔
      ¬ ∃ p ∈ r, p.2.ProgramHash = destructionAddress := by
    intro r
    rw [← CheckDestructionAddress_err_iff]
    cases CheckDestructionAddress r <;> simp
  apply CheckResult.accepted_congr
  rw [key, key]
  simp only [h.mem_iff]

/-- The verdict of the loop over the referenced outputs of a withdraw does not depend on the
enumeration order. -/
theorem withdrawReferenceLoop_perm (ctx : Context) (r1 r2 : References) (h : r1.Perm r2) :
    (withdrawReferenceLoop ctx r1).accepted = (withdrawReferenceLoop ctx r2).accepted := by
  apply CheckResult.accepted_congr
  rw [withdrawReferenceLoop_ok_iff, withdrawReferenceLoop_ok_iff]
  simp only [h.mem_iff]

/-- The maturity loop reads only the store lookup, the height and the lock time parameter. -/
theorem coinbaseOutputLockLoop_congr (ctx ctx2 : Context) (inputs : List Input)
    (h1 : ctx2.GetTransaction = ctx.GetTransaction) (h2 : ctx2.GetHeight = ctx.GetHeight)
    (h3 : ctx2.CoinbaseLockTime = ctx.CoinbaseLockTime) :
    coinbaseOutputLockLoop ctx2 inputs = coinbaseOutputLockLoop ctx inputs := by
  induction inputs with
  | nil => rfl
  | cons input rest ih =>
    unfold coinbaseOutputLockLoop
    rw [h1, h2, h3, ih]

/-- The loop over the sidechain hashes reads only the store query for known hashes. -/
theorem withdrawHashesLoop_congr (ctx ctx2 : Context) (hashes : List Uint256)
    (h : ctx2.IsSidechainTxHashDuplicate = ctx.IsSidechainTxHashDuplicate) :
    withdrawHashesLoop ctx2 hashes = withdrawHashesLoop ctx hashes := by
  induction hashes with
  | nil => rfl
  | cons hash rest ih =>
    unfold withdrawHashesLoop
    rw [h, ih]

/-- The loop over the referenced outputs of a withdraw reads only the cross-chain prefix. -/
theorem withdrawReferenceLoop_congr (ctx ctx2 : Context) (reference : References)
    (h : ctx2.PrefixCrossChain = ctx.PrefixCrossChain) :
    withdrawReferenceLoop ctx2 reference = withdrawReferenceLoop ctx reference := by
  induction reference with
  | nil => rfl
  | cons p rest ih =>
    obtain ⟨input, v⟩ := p
    unfold withdrawReferenceLoop
    rw [h, ih]

/-- The address loop of a cross-chain transfer reads only the cross-chain prefix. -/
theorem crossChainAddressLoop_congr (ctx ctx2 : Context) (outputs : List Output)
    (addresses : List String) (indexes : List Nat)
    (h : ctx2.PrefixCrossChain = ctx.PrefixCrossChain) :
    crossChainAddressLoop ctx2 outputs addresses indexes =
      crossChainAddressLoop ctx outputs addresses indexes := by
  induction addresses generalizing indexes with
  | nil => rfl
  | cons address rest ih =>
    rcases indexes with _ | ⟨outputIndex, indexes⟩
    · rfl
    · unfold crossChainAddressLoop
      rw [h]
      simp only [ih]

/-- The amount loop of a cross-chain transfer reads only the cross-chain fee parameter. -/
theorem crossChainAmountLoop_congr (ctx ctx2 : Context) (outputs : List Output)
    (amounts : List Int) (indexes : List Nat)
    (h : ctx2.MinCrossChainTxFee = ctx.MinCrossChainTxFee) :
    crossChainAmountLoop ctx2 outputs amounts indexes =
      crossChainAmountLoop ctx outputs amounts indexes := by
  induction amounts generalizing indexes with
  | nil => rfl
  | cons amount rest ih =>
    rcases indexes with _ | ⟨outputIndex, indexes⟩
    · rfl
    · unfold crossChainAmountLoop
      rw [h]
      simp only [ih]

/-- The verdict of a step decides the code the contextual check derives from it. -/
theorem accepted_cases (a b : CheckResult) (h : a.accepted = b.accepted) :
    (a = .ok ∧ b = .ok) ∨ ((∃ m, a = .err m) ∧ ∃ m, b = .err m) := by
  cases a <;> cases b <;> simp [CheckResult.accepted] at h ⊢

/-- C17: the contextual check does not depend on the order in which the reference map is
enumerated.  For two enumerations of the same reference pairs `CheckTransactionUTXOLock` and
`CheckDestructionAddress` give the same verdict and `CheckTransactionFee` the same result; and
when a second store answers every reference query with the same pairs in another order, and the
sorted program hashes handed to the signature check do not depend on that order, the contextual
check returns the same code. -/
theorem CheckTransactionContext_enumeration_order (ctx : Context) (txn : Transaction)
    (getReference : Transaction → Option References) :
    (∀ r1 r2 : References, r1.Perm r2 →
      (CheckTransactionUTXOLock txn r1).accepted = (CheckTransactionUTXOLock txn r2).accepted ∧
      CheckTransactionFee ctx txn r1 = CheckTransactionFee ctx txn r2 ∧
      (CheckDestructionAddress r1).accepted = (CheckDestructionAddress r2).accepted) ∧
    ((∀ t, sameReferences (ctx.GetTxReference t) (getReference t)) →
      (∀ r1 r2 : References, r1.Perm r2 →
        (ctx.GetTxProgramHashes txn r1).map ctx.SortProgramHashes =
          (ctx.GetTxProgramHashes txn r2).map ctx.SortProgramHashes) →
      CheckTransactionContext ctx txn =
        CheckTransactionContext { ctx with GetTxReference := getReference } txn) := by
  refine ⟨fun r1 r2 h => ⟨CheckTransactionUTXOLock_perm txn r1 r2 h,
    CheckTransactionFee_perm ctx txn r1 r2 h, CheckDestructionAddress_perm r1 r2 h⟩, ?_⟩
  intro hrel hsig
  generalize hc2 : ({ ctx with GetTxReference := getReference } : Context) = ctx2
  have hget : ctx2.GetTxReference = getReference := by rw [← hc2]
  have hdup : ctx2.IsTxHashDuplicate (ctx2.Hash txn) = ctx.IsTxHashDuplicate (ctx.Hash txn) := by
    rw [← hc2]
  have hpow : sideChainPowStep ctx2 txn = sideChainPowStep ctx txn := by rw [← hc2]; rfl
  have hds : doubleSpendStep ctx2 txn = doubleSpendStep ctx txn := by rw [← hc2]; rfl
  have hlock : CheckTransactionCoinbaseOutputLock ctx2 txn =
      CheckTransactionCoinbaseOutputLock ctx txn := by
    unfold CheckTransactionCoinbaseOutputLock
    apply coinbaseOutputLockLoop_congr <;> rw [← hc2]
  have hrel2 := hrel txn
  have hwith : ∃ a b, withdrawStep ctx txn = some a ∧ withdrawStep ctx2 txn = some b ∧
      a.accepted = b.accepted := by
    unfold withdrawStep
    split
    · refine ⟨_, _, rfl, rfl, ?_⟩
      unfold CheckWithdrawFromSideChainTransaction
      have hp : ctx2.PrefixCrossChain = ctx.PrefixCrossChain := by rw [← hc2]
      have hwl : withdrawHashesLoop ctx2 = withdrawHashesLoop ctx := by
        funext hashes
        apply withdrawHashesLoop_congr
        rw [← hc2]
      have hrl : withdrawReferenceLoop ctx2 = withdrawReferenceLoop ctx := by
        funext reference
        exact withdrawReferenceLoop_congr ctx ctx2 reference hp
      rw [hwl, hrl, hget]
      split
      · split
        · rfl
        · rcases h1 : ctx.GetTxReference txn with _ | r1 <;>
            rcases h2 : getReference txn with _ | r2 <;>
            rw [h1, h2] at hrel2 <;> simp only [sameReferences] at hrel2
          all_goals first | rfl | exact withdrawReferenceLoop_perm ctx r1 r2 hrel2
      · rfl
    · exact ⟨_, _, rfl, rfl, rfl⟩
  have hcross : crossChainStep ctx2 txn = crossChainStep ctx txn := by
    unfold crossChainStep
    split
    · unfold CheckTransferCrossChainAssetTransaction
      have h1 : crossChainAddressLoop ctx2 = crossChainAddressLoop ctx := by
        funext outputs addresses indexes
        apply crossChainAddressLoop_congr
        rw [← hc2]
      have h2 : crossChainAmountLoop ctx2 = crossChainAmountLoop ctx := by
        funext outputs amounts indexes
        apply crossChainAmountLoop_congr
        rw [← hc2]
      have h3 : crossChainFeeCheck ctx2 txn = crossChainFeeCheck ctx txn := by
        unfold crossChainFeeCheck
        have hfee : ctx2.MinCrossChainTxFee = ctx.MinCrossChainTxFee := by rw [← hc2]
        rw [hget, hfee]
        rcases h1 : ctx.GetTxReference txn with _ | r1 <;>
          rcases h2 : getReference txn with _ | r2 <;>
          rw [h1, h2] at hrel2 <;> simp only [sameReferences] at hrel2
        all_goals first | rfl | (simp only [sumFixed64_eq]
                                 rw [(hrel2.map (fun v => v.2.Value)).sum_eq])
      rw [h1, h2, h3]
    · rfl
  have hsigeq : ∀ r1 r2 : References, r1.Perm r2 →
      CheckTransactionSignature ctx2 txn r2 = CheckTransactionSignature ctx txn r1 := by
    intro r1 r2 hperm
    have hs := hsig r1 r2 hperm
    rw [← hc2]
    unfold CheckTransactionSignature
    simp only []
    rcases h1 : ctx.GetTxProgramHashes txn r1 with _ | s1 <;>
      rcases h2 : ctx.GetTxProgramHashes txn r2 with _ | s2 <;>
      rw [h1, h2] at hs <;>
      simp only [Option.map_none', Option.map_some', Option.some.injEq, reduceCtorEq] at hs
    all_goals first | rfl | simp only [hs]
  have hfee : ∀ r : References, CheckTransactionFee ctx2 txn r = CheckTransactionFee ctx txn r := by
    intro r
    rw [← hc2]
    rfl
  unfold CheckTransactionContext
  rw [hdup, hpow, hds, hlock, hcross, hget]
  obtain ⟨a, b, ha, hb, hab⟩ := hwith
  rw [ha, hb]
  split
  · rfl
  split
  · rfl
  split
  · rfl
  · rfl
  rcases accepted_cases a b hab with ⟨rfl, rfl⟩ | ⟨⟨ma, rfl⟩, ⟨mb, rfl⟩⟩
  swap
  · rfl
  simp only []
  split
  · rfl
  · rfl
  split
  · rfl
  · rfl
  rcases h1 : ctx.GetTxReference txn with _ | r1 <;>
    rcases h2 : getReference txn with _ | r2 <;>
    rw [h1, h2] at hrel2 <;> simp only [sameReferences] at hrel2
  simp only []
  rw [hfee, hsigeq r1 r2 hrel2, ← CheckTransactionFee_perm ctx txn r1 r2 hrel2]
  rcases accepted_cases _ _ (CheckTransactionUTXOLock_perm txn r1 r2 hrel2) with
    ⟨e1, e2⟩ | ⟨⟨ma, e1⟩, ⟨mb, e2⟩⟩ <;> rw [e1, e2]
  rcases accepted_cases _ _ (CheckDestructionAddress_perm r1 r2 hrel2) with
    ⟨e3, e4⟩ | ⟨⟨ma, e3⟩, ⟨mb, e4⟩⟩ <;> rw [e3, e4]

/-- Witness for C17: a transfer with two inputs, checked against a store that enumerates the
two reference pairs in one order and against a store that enumerates them in the other. -/
theorem CheckTransactionContext_enumeration_order_witness :
    CheckTransactionContext
        (contextWithReferences [(sampleInput 0, sampleOutput 1000 0), (secondInput, sampleOutput 500 0)])
        (transferExample 0 [sampleInput 0, secondInput] [sampleOutput 1 0]) =
      CheckTransactionContext
        { contextWithReferences
            [(sampleInput 0, sampleOutput 1000 0), (secondInput, sampleOutput 500 0)] with
          GetTxReference := fun _ =>
            some [(secondInput, sampleOutput 500 0), (sampleInput 0, sampleOutput 1000 0)] }
        (transferExample 0 [sampleInput 0, secondInput] [sampleOutput 1 0]) :=
  (CheckTransactionContext_enumeration_order
    (contextWithReferences [(sampleInput 0, sampleOutput 1000 0), (secondInput, sampleOutput 500 0)])
    (transferExample 0 [sampleInput 0, secondInput] [sampleOutput 1 0])
    (fun _ => some [(secondInput, sampleOutput 500 0), (sampleInput 0, sampleOutput 1000 0)])).2
    (fun _ => List.Perm.swap _ _ []) (fun _ _ _ => rfl)

/-- An assignment adds at most one entry that is not persistent to a map of peers, and none
when the peer assigned is persistent. -/
theorem filter_mapInsert_le (k : Nat) (v : Node) (m : List (Nat × Node)) :
    ((mapInsert k v m).filter (fun e => !e.2.persistent)).length ≤
      (m.filter (fun e => !e.2.persistent)).length + 1 ∧
    (v.persistent = true →
      ((mapInsert k v m).filter (fun e => !e.2.persistent)).length ≤
        (m.filter (fun e => !e.2.persistent)).length) := by
  have hsub : ((m.filter (fun e => decide (e.1 ≠ k))).filter (fun e => !e.2.persistent)).length ≤
      (m.filter (fun e => !e.2.persistent)).length :=
    (List.Sublist.filter _ (List.filter_sublist m)).length_le
  unfold mapInsert
  constructor
  · rw [List.filter_cons]
    split
    · simp only [List.length_cons]
      omega
    · omega
  · intro hp
    rw [List.filter_cons]
    simp only [hp, Bool.not_true, Bool.false_eq_true, if_false]
    exact hsub

/-- Deleting a key does not raise the number of entries that are not persistent. -/
theorem filter_mapDelete_le (k : Nat) (m : List (Nat × Node)) :
    ((mapDelete k m).filter (fun e => !e.2.persistent)).length ≤
      (m.filter (fun e => !e.2.persistent)).length :=
  (List.Sublist.filter _ (List.filter_sublist m)).length_le

/-- An assignment adds at most one entry to a map. -/
theorem length_mapInsert_le {κ ν : Type} [DecidableEq κ] (k : κ) (v : ν) (m : List (κ × ν)) :
    (mapInsert k v m).length ≤ m.length + 1 := by
  unfold mapInsert
  simp only [List.length_cons]
  have := List.length_filter_le (fun e : κ × ν => decide (e.1 ≠ k)) m
  omega

/-- The peers that are not persistent are among the registered peers. -/
theorem nonPersistentCount_le_Count (ps : nodeState) : nonPersistentCount ps ≤ ps.Count := by
  unfold nonPersistentCount nodeState.Count
  have h1 := List.length_filter_le (fun e : Nat × Node => !e.2.persistent) ps.inboundNodes
  have h2 := List.length_filter_le (fun e : Nat × Node => !e.2.persistent) ps.outboundNodes
  have h3 := List.length_filter_le (fun e : Nat × Node => !e.2.persistent) ps.persistentNodes
  omega

/-- `handleAddNodeMsg` keeps the number of peers that are not persistent within the cap. -/
theorem handleAddNodeMsg_bound (env : NodeEnv) (state : nodeState) (n : Option Node)
    (h : nonPersistentCount state ≤ env.DefaultMaxPeers) :
    nonPersistentCount (handleAddNodeMsg env state n).2.1 ≤ env.DefaultMaxPeers := by
  rcases n with _ | n
  · exact h
  unfold handleAddNodeMsg
  simp only []
  split
  · exact h
  rename_i hacc
  have hle := nonPersistentCount_le_Count state
  unfold nonPersistentCount nodeState.Count at *
  have i1 := filter_mapInsert_le n.id n state.inboundNodes
  have i2 := filter_mapInsert_le n.id n state.outboundNodes
  have i3 := filter_mapInsert_le n.id n state.persistentNodes
  cases hp : n.persistent
  · have hlt : state.inboundNodes.length + state.outboundNodes.length +
        state.persistentNodes.length < env.DefaultMaxPeers := by
      by_contra hc
      apply hacc
      constructor
      · rw [hp]
        decide
      · omega
    have f1 := List.length_filter_le (fun e : Nat × Node => !e.2.persistent) state.inboundNodes
    have f2 := List.length_filter_le (fun e : Nat × Node => !e.2.persistent) state.outboundNodes
    have f3 := List.length_filter_le (fun e : Nat × Node => !e.2.persistent)
      state.persistentNodes
    split
    · simp only []
      omega
    · simp only [Bool.false_eq_true, if_false]
      omega
  · have j1 := i1.2 hp
    have j3 := i3.2 hp
    split
    · simp only []
      omega
    · simp only [if_true]
      omega

/-- `handleDoneNodeMsg` does not raise the number of peers that are not persistent. -/
theorem handleDoneNodeMsg_bound (state : nodeState) (n : Node) :
    nonPersistentCount (handleDoneNodeMsg state n).1 ≤ nonPersistentCount state := by
  have d1 := filter_mapDelete_le n.id state.inboundNodes
  have d2 := filter_mapDelete_le n.id state.outboundNodes
  have d3 := filter_mapDelete_le n.id state.persistentNodes
  unfold handleDoneNodeMsg nonPersistentCount
  split
  · split
    · simp only []
      omega
    · exact le_refl _
  · split
    · split
      · simp only []
        omega
      · exact le_refl _
    · split
      · simp only []
        omega
      · exact le_refl _

/-- One step of `nodeHandler` keeps the number of peers that are not persistent within the
cap. -/
theorem nodeHandlerStep_bound (env : NodeEnv) (reg : Registry) (msg : RegistryMsg)
    (h : nonPersistentCount reg.state ≤ env.DefaultMaxPeers) :
    nonPersistentCount (nodeHandlerStep env reg msg).1.state ≤ env.DefaultMaxPeers := by
  rcases msg with n | n
  · exact handleAddNodeMsg_bound env reg.state n h
  · have := handleDoneNodeMsg_bound reg.state n
    unfold nodeHandlerStep
    simp only []
    split <;> simp only [] <;> omega

/-- Every run of `nodeHandler` keeps the number of peers that are not persistent within the
cap. -/
theorem runRegistry_bound (env : NodeEnv) (reg : Registry) (msgs : List RegistryMsg)
    (h : nonPersistentCount reg.state ≤ env.DefaultMaxPeers) :
    nonPersistentCount (runRegistry env reg msgs).state ≤ env.DefaultMaxPeers := by
  induction msgs generalizing reg with
  | nil => exact h
  | cons msg rest ih =>
    unfold runRegistry
    exact ih _ (nodeHandlerStep_bound env reg msg h)

/-- C18: in every registry state reached from the empty registry by a sequence of `NewNode`
and `DoneNode` messages the number of registered peers that are not persistent is at most
`DefaultMaxPeers`; and a peer that is not persistent and arrives when `Count()` has reached
`DefaultMaxPeers` is disconnected, the state being left unchanged. -/
theorem registry_peer_cap (env : NodeEnv) (msgs : List RegistryMsg) (state : nodeState)
    (n : Node) :
    nonPersistentCount (runRegistry env emptyRegistry msgs).state ≤ env.DefaultMaxPeers ∧
    (n.persistent = false → state.Count ≥ env.DefaultMaxPeers →
      handleAddNodeMsg env state (some n) = (false, state, [.Disconnect n])) := by
  constructor
  · apply runRegistry_bound
    exact Nat.zero_le _
  · intro hp hc
    unfold handleAddNodeMsg
    simp only []
    rw [if_pos ⟨by rw [hp]; decide, hc⟩]

/-- Witness for C18: with a cap of 2 the third peer that is not persistent is disconnected. -/
theorem registry_peer_cap_witness :
    handleAddNodeMsg sampleNodeEnv
      (runRegistry sampleNodeEnv emptyRegistry
        [.NewNode (some (samplePeer 1 true false 101)),
         .NewNode (some (samplePeer 2 false false 110))]).state
      (some (samplePeer 3 false false 120)) =
      (false,
        (runRegistry sampleNodeEnv emptyRegistry
          [.NewNode (some (samplePeer 1 true false 101)),
           .NewNode (some (samplePeer 2 false false 110))]).state,
        [.Disconnect (samplePeer 3 false false 120)]) :=
  (registry_peer_cap sampleNodeEnv [] _ (samplePeer 3 false false 120)).2 (by decide) (by decide)

/-- The closure of `startSync` keeps a candidate once it has one. -/
theorem foldl_pickCandidate_some (best : Nat) (l : List Node) (x : Node) :
    l.foldl (pickCandidate best) (some x) = some x := by
  induction l with
  | nil => rfl
  | cons n rest ih =>
    simp only [List.foldl_cons, pickCandidate]
    rw [if_neg (by simp)]
    exact ih

/-- Run over the peers in order, the closure of `startSync` selects the first peer above the
local best height. -/
theorem foldl_pickCandidate (best : Nat) (l : List Node) :
    l.foldl (pickCandidate best) none = l.find? (fun n => decide (n.height > best)) := by
  induction l with
  | nil => rfl
  | cons n rest ih =>
    simp only [List.foldl_cons, List.find?_cons]
    by_cases h : n.height > best
    · simp only [pickCandidate, h, and_self, if_true, decide_True]
      exact foldl_pickCandidate_some best rest n
    · simp only [pickCandidate, h, and_false, if_false, decide_False]
      exact ih

/-- Whatever the enumeration order, `forAllNodes` visits exactly the peers of the three maps. -/
theorem mem_forAllNodes (env : NodeEnv) (hperm : ∀ m, (env.rangeOrder m).Perm m)
    (ps : nodeState) (x : Node) :
    x ∈ ps.forAllNodes env ↔ ∃ e ∈ ps.entries, e.2 = x := by
  unfold nodeState.forAllNodes nodeState.forAllOutboundNodes nodeState.entries
  simp only [List.mem_append, List.mem_map, (hperm _).mem_iff]
  constructor
  · rintro (⟨e, he, rfl⟩ | ⟨e, he, rfl⟩ | ⟨e, he, rfl⟩)
    · exact ⟨e, Or.inl (Or.inl he), rfl⟩
    · exact ⟨e, Or.inl (Or.inr he), rfl⟩
    · exact ⟨e, Or.inr he, rfl⟩
  · rintro ⟨e, ((he | he) | he), rfl⟩
    · exact Or.inl ⟨e, he, rfl⟩
    · exact Or.inr (Or.inl ⟨e, he, rfl⟩)
    · exact Or.inr (Or.inr ⟨e, he, rfl⟩)

/-- An assignment keeps entries of the map or adds the assigned one. -/
theorem mem_mapInsert {κ ν : Type} [DecidableEq κ] (k : κ) (v : ν) (m : List (κ × ν))
    (e : κ × ν) (h : e ∈ mapInsert k v m) : e = (k, v) ∨ e ∈ m := by
  unfold mapInsert at h
  rcases List.mem_cons.1 h with h | h
  · exact Or.inl h
  · exact Or.inr (List.mem_filter.1 h).1

/-- After `handleAddNodeMsg` every registered entry was registered before or is the new peer. -/
theorem handleAddNodeMsg_entries (env : NodeEnv) (state : nodeState) (n : Node)
    (e : Nat × Node) (h : e ∈ (handleAddNodeMsg env state (some n)).2.1.entries) :
    e ∈ state.entries ∨ e = (n.id, n) := by
  unfold handleAddNodeMsg at h
  simp only [] at h
  split at h
  · exact Or.inl h
  split at h
  · simp only [nodeState.entries, List.mem_append] at h ⊢
    rcases h with (h | h) | h
    · rcases mem_mapInsert _ _ _ _ h with h | h
      · exact Or.inr h
      · exact Or.inl (Or.inl (Or.inl h))
    · exact Or.inl (Or.inl (Or.inr h))
    · exact Or.inl (Or.inr h)
  split at h
  · simp only [nodeState.entries, List.mem_append] at h ⊢
    rcases h with (h | h) | h
    · exact Or.inl (Or.inl (Or.inl h))
    · exact Or.inl (Or.inl (Or.inr h))
    · rcases mem_mapInsert _ _ _ _ h with h | h
      · exact Or.inr h
      · exact Or.inl (Or.inr h)
  · simp only [nodeState.entries, List.mem_append] at h ⊢
    rcases h with (h | h) | h
    · exact Or.inl (Or.inl (Or.inl h))
    · rcases mem_mapInsert _ _ _ _ h with h | h
      · exact Or.inr h
      · exact Or.inl (Or.inl (Or.inr h))
    · exact Or.inl (Or.inr h)

/-- A peer accepted by `handleAddNodeMsg` is registered under its id; a rejected peer leaves
the state unchanged. -/
theorem handleAddNodeMsg_accepted (env : NodeEnv) (state : nodeState) (n : Node) :
    ((handleAddNodeMsg env state (some n)).1 = true →
      (n.id, n) ∈ (handleAddNodeMsg env state (some n)).2.1.entries) ∧
    ((handleAddNodeMsg env state (some n)).1 = false →
      (handleAddNodeMsg env state (some n)).2.1 = state) := by
  unfold handleAddNodeMsg
  simp only []
  split
  · simp
  split
  · simp [nodeState.entries, mapInsert]
  split
  · simp [nodeState.entries, mapInsert]
  · simp [nodeState.entries, mapInsert]

/-- With a block locator at hand and no sync peer set, `startSync` selects the first peer in
enumeration order that is above the local best height. -/
theorem startSync_none (env : NodeEnv) (hloc : env.LatestBlockLocator ≠ none)
    (state : nodeState) :
    (startSync env none state).1 =
      (state.forAllNodes env).find? (fun n => decide (n.height > env.BestHeight)) := by
  unfold startSync
  simp only [foldl_pickCandidate]
  rcases hf : (state.forAllNodes env).find? (fun n => decide (n.height > env.BestHeight)) with
    _ | best
  · rw [hf]
  · rcases hl : env.LatestBlockLocator with _ | locator
    · exact absurd hl hloc
    · rw [hf]

/-- Once a sync peer is set, no sequence of `NewNode` messages changes it. -/
theorem runRegistry_keeps_sync (env : NodeEnv) (peers : List (Option Node)) (reg : Registry)
    (s : Node) (h : reg.syncNode = some s) :
    (runRegistry env reg (peers.map (fun p => RegistryMsg.NewNode p))).syncNode = some s := by
  induction peers generalizing reg with
  | nil => exact h
  | cons p rest ih =>
    simp only [List.map_cons, runRegistry]
    apply ih
    simp only [nodeHandlerStep, h, startSync]

/-- From a registry without sync peer whose peers are all at or below the local best height,
a sequence of arriving peers leaves as sync peer the first accepted peer above that height. -/
theorem runRegistry_syncNode (env : NodeEnv) (hperm : ∀ m, (env.rangeOrder m).Perm m)
    (hloc : env.LatestBlockLocator ≠ none) (peers : List Node) (state : nodeState)
    (hlow : ∀ e ∈ state.entries, e.2.height ≤ env.BestHeight) :
    (runRegistry env ⟨state, none⟩
      (peers.map (fun p => RegistryMsg.NewNode (some p)))).syncNode =
      firstTallAccepted env state peers := by
  induction peers generalizing state with
  | nil => rfl
  | cons p rest ih =>
    simp only [List.map_cons, runRegistry, nodeHandlerStep, firstTallAccepted]
    rw [startSync_none env hloc]
    obtain ⟨hacc, hrej⟩ := handleAddNodeMsg_accepted env state p
    by_cases hc : (handleAddNodeMsg env state (some p)).1 = true ∧ p.height > env.BestHeight
    · rw [if_pos hc]
      have hfind : ((handleAddNodeMsg env state (some p)).2.1.forAllNodes env).find?
          (fun n => decide (n.height > env.BestHeight)) = some p := by
        rcases hf : ((handleAddNodeMsg env state (some p)).2.1.forAllNodes env).find?
            (fun n => decide (n.height > env.BestHeight)) with _ | x
        · have hall := List.find?_eq_none.1 hf p
            ((mem_forAllNodes env hperm _ p).2 ⟨_, hacc hc.1, rfl⟩)
          simp only [decide_eq_true_eq] at hall
          exact absurd hc.2 hall
        · have hx := List.find?_some hf
          simp only [decide_eq_true_eq] at hx
          obtain ⟨e, he, rfl⟩ := (mem_forAllNodes env hperm _ x).1 (List.mem_of_find?_eq_some hf)
          rcases handleAddNodeMsg_entries env state p e he with hold | hnew
          · have := hlow e hold
            omega
          · rw [hf, hnew]
      rw [hfind]
      have hk := runRegistry_keeps_sync env (rest.map some)
        ⟨(handleAddNodeMsg env state (some p)).2.1, some p⟩ p rfl
      rw [List.map_map] at hk
      exact hk
    · rw [if_neg hc]
      have hlow2 : ∀ e ∈ (handleAddNodeMsg env state (some p)).2.1.entries,
          e.2.height ≤ env.BestHeight := by
        intro e he
        cases hb : (handleAddNodeMsg env state (some p)).1
        · rw [hrej hb] at he
          exact hlow e he
        · rcases handleAddNodeMsg_entries env state p e he with hold | hnew
          · exact hlow e hold
          · rw [hnew]
            have : ¬ p.height > env.BestHeight := fun ht => hc ⟨hb, ht⟩
            simp only
            omega
      have hfind : ((handleAddNodeMsg env state (some p)).2.1.forAllNodes env).find?
          (fun n => decide (n.height > env.BestHeight)) = none := by
        rw [List.find?_eq_none]
        intro x hx
        obtain ⟨e, he, rfl⟩ := (mem_forAllNodes env hperm _ x).1 hx
        have := hlow2 e he
        simp only [decide_eq_true_eq]
        omega
      rw [hfind]
      exact ih _ hlow2

/-- When no arriving peer is above the local best height, no peer qualifies as sync peer. -/
theorem firstTallAccepted_none (env : NodeEnv) (peers : List Node) (state : nodeState)
    (h : ∀ p ∈ peers, p.height ≤ env.BestHeight) : firstTallAccepted env state peers = none := by
  induction peers generalizing state with
  | nil => rfl
  | cons p rest ih =>
    unfold firstTallAccepted
    have := h p (List.mem_cons_self _ _)
    rw [if_neg (by omega)]
    exact ih _ (fun q hq => h q (List.mem_cons_of_mem _ hq))

/-- C19: starting from the empty registry without sync peer, with `NewNode` messages processed
in arrival order, each followed by `startSync`, and a block locator at hand, the sync peer is
the first arrived peer that was accepted and reports a height above the local best height,
whatever the order in which `range` enumerates the maps; no later `NewNode` replaces a sync peer
that is set (peers of height best+1 then best+10 leave the first as sync peer); `startSync`
called while a sync peer is set changes nothing and sends nothing; and when no peer is above the
local best height the sync peer stays unset. -/
theorem startSync_first_candidate (env : NodeEnv) (hperm : ∀ m, (env.rangeOrder m).Perm m)
    (hloc : env.LatestBlockLocator ≠ none) (peers : List Node) :
    (runRegistry env emptyRegistry
      (peers.map (fun p => RegistryMsg.NewNode (some p)))).syncNode =
      firstTallAccepted env emptyRegistry.state peers ∧
    (∀ (reg : Registry) (s : Node) (n : Option Node), reg.syncNode = some s →
      (nodeHandlerStep env reg (.NewNode n)).1.syncNode = some s) ∧
    (runRegistry sampleNodeEnv emptyRegistry
      [.NewNode (some (samplePeer 1 true false 101)),
       .NewNode (some (samplePeer 2 true false 110))]).syncNode =
      some (samplePeer 1 true false 101) ∧
    (∀ (s : Node) (state : nodeState), startSync env (some s) state = (some s, [])) ∧
    ((∀ p ∈ peers, p.height ≤ env.BestHeight) →
      (runRegistry env emptyRegistry
        (peers.map (fun p => RegistryMsg.NewNode (some p)))).syncNode = none) := by
  have hmain := runRegistry_syncNode env hperm hloc peers emptyRegistry.state
    (by intro e he; simp [emptyRegistry, nodeState.entries] at he)
  refine ⟨hmain, ?_, by decide, fun s state => rfl, ?_⟩
  · intro reg s n h
    simp only [nodeHandlerStep, h, startSync]
  · intro hall
    have h2 : (⟨emptyRegistry.state, none⟩ : Registry) = emptyRegistry := rfl
    rw [h2] at hmain
    rw [hmain]
    exact firstTallAccepted_none env peers _ hall

/-- Witness for C19: with a `range` that enumerates backwards, the peer of height 101 that
arrived first is the sync peer, not the peer of height 110 that arrived second. -/
theorem startSync_first_candidate_witness :
    (runRegistry sampleNodeEnv emptyRegistry
      ([samplePeer 1 true false 101, samplePeer 2 true false 110].map
        (fun p => RegistryMsg.NewNode (some p)))).syncNode =
      firstTallAccepted sampleNodeEnv emptyRegistry.state
        [samplePeer 1 true false 101, samplePeer 2 true false 110] :=
  (startSync_first_candidate sampleNodeEnv (fun m => List.reverse_perm m) (by decide)
    [samplePeer 1 true false 101, samplePeer 2 true false 110]).1

/-- An assignment keeps the keys of a map distinct. -/
theorem mapInsert_nodup {κ ν : Type} [DecidableEq κ] (k : κ) (v : ν) (m : List (κ × ν))
    (h : (m.map Prod.fst).Nodup) : ((mapInsert k v m).map Prod.fst).Nodup := by
  unfold mapInsert
  rw [List.map_cons, List.nodup_cons]
  constructor
  · intro hk
    obtain ⟨e, he, hek⟩ := List.mem_map.1 hk
    have := (List.mem_filter.1 he).2
    simp only [decide_eq_true_eq] at this
    exact this hek
  · exact h.sublist (List.Sublist.map _ (List.filter_sublist _))

/-- A deletion keeps the keys of a map distinct. -/
theorem mapDelete_nodup {κ ν : Type} [DecidableEq κ] (k : κ) (m : List (κ × ν))
    (h : (m.map Prod.fst).Nodup) : ((mapDelete k m).map Prod.fst).Nodup := by
  unfold mapDelete
  exact h.sublist (List.Sublist.map _ (List.filter_sublist _))

/-- A deleted key is no longer in the map. -/
theorem not_mem_mapDelete {κ ν : Type} [DecidableEq κ] (k : κ) (v : ν) (m : List (κ × ν)) :
    (k, v) ∉ mapDelete k m := by
  unfold mapDelete
  intro h
  have := (List.mem_filter.1 h).2
  simp at this

/-- Entries of a map after a deletion were entries before. -/
theorem mem_of_mem_mapDelete {κ ν : Type} [DecidableEq κ] (k : κ) (m : List (κ × ν))
    (e : κ × ν) (h : e ∈ mapDelete k m) : e ∈ m := by
  unfold mapDelete at h
  exact (List.mem_filter.1 h).1

/-- A deletion of a key that is absent changes nothing. -/
theorem mapDelete_absent {κ ν : Type} [DecidableEq κ] (k : κ) (m : List (κ × ν))
    (h : k ∉ m.map Prod.fst) : mapDelete k m = m := by
  unfold mapDelete
  rw [List.filter_eq_self]
  intro e he
  simp only [decide_eq_true_eq]
  intro hek
  exact h (List.mem_map.2 ⟨e, he, hek⟩)

/-- A deletion of a key that is present makes a map with distinct keys one entry shorter. -/
theorem length_mapDelete {κ ν : Type} [DecidableEq κ] (k : κ) (m : List (κ × ν))
    (hnd : (m.map Prod.fst).Nodup) (hk : k ∈ m.map Prod.fst) :
    (mapDelete k m).length + 1 = m.length := by
  induction m with
  | nil => simp at hk
  | cons e rest ih =>
    rw [List.map_cons, List.nodup_cons] at hnd
    by_cases hek : e.1 = k
    · have hrest : mapDelete k rest = rest := mapDelete_absent k rest (hek ▸ hnd.1)
      have : mapDelete k (e :: rest) = mapDelete k rest := by
        unfold mapDelete
        rw [List.filter_cons_of_neg (by simp [hek])]
      rw [this, hrest, List.length_cons]
    · have hk2 : k ∈ rest.map Prod.fst := by
        rw [List.map_cons, List.mem_cons] at hk
        rcases hk with hk | hk
        · exact absurd hk.symm hek
        · exact hk
      have : mapDelete k (e :: rest) = e :: mapDelete k rest := by
        unfold mapDelete
        rw [List.filter_cons_of_pos (by simp [hek])]
      rw [this, List.length_cons, List.length_cons, ih hnd.2 hk2]

/-- A key with an entry in the map is found by the lookup. -/
theorem mapLookup_isSome {κ ν : Type} [DecidableEq κ] (k : κ) (v : ν) (m : List (κ × ν))
    (h : (k, v) ∈ m) : (mapLookup k m).isSome = true := by
  unfold mapLookup
  have hf : (m.find? (fun e => decide (e.1 = k))).isSome = true := by
    rw [List.find?_isSome]
    exact ⟨(k, v), h, by simp⟩
  rcases hx : m.find? (fun e => decide (e.1 = k)) with _ | x
  · rw [hx] at hf
    cases hf
  · rw [hx]
    rfl

/-- The empty registry satisfies the invariant of the maps. -/
theorem wellFiled_empty : wellFiled emptyRegistry.state := by
  simp [wellFiled, emptyRegistry]

/-- The addition of a peer `handleAddNodeMsg` keeps the invariant of the maps. -/
theorem handleAddNodeMsg_wellFiled (env : NodeEnv) (state : nodeState) (n : Option Node)
    (h : wellFiled state) : wellFiled (handleAddNodeMsg env state n).2.1 := by
  obtain ⟨⟨n1, n2, n3⟩, f1, f2, f3⟩ := h
  unfold handleAddNodeMsg
  rcases n with _ | n
  · exact ⟨⟨n1, n2, n3⟩, f1, f2, f3⟩
  simp only []
  split
  · exact ⟨⟨n1, n2, n3⟩, f1, f2, f3⟩
  rename_i hcap
  split
  · rename_i hin
    refine ⟨⟨mapInsert_nodup _ _ _ n1, n2, n3⟩, ?_, f2, f3⟩
    intro e he
    rcases List.mem_cons.1 he with he | he
    · rw [he]
      exact ⟨rfl, hin⟩
    · exact f1 e (List.mem_filter.1 he).1
  rename_i hin
  split
  · rename_i hp
    refine ⟨⟨n1, n2, mapInsert_nodup _ _ _ n3⟩, f1, f2, ?_⟩
    intro e he
    rcases List.mem_cons.1 he with he | he
    · rw [he]
      exact ⟨rfl, by simpa using hin, hp⟩
    · exact f3 e (List.mem_filter.1 he).1
  · rename_i hp
    refine ⟨⟨n1, mapInsert_nodup _ _ _ n2, n3⟩, f1, ?_, f3⟩
    intro e he
    rcases List.mem_cons.1 he with he | he
    · rw [he]
      exact ⟨rfl, by simpa using hin, by simpa using hp⟩
    · exact f2 e (List.mem_filter.1 he).1

/-- The removal of a peer by `handleDoneNodeMsg` keeps the invariant of the maps. -/
theorem handleDoneNodeMsg_wellFiled (state : nodeState) (n : Node) (h : wellFiled state) :
    wellFiled (handleDoneNodeMsg state n).1 := by
  obtain ⟨⟨n1, n2, n3⟩, f1, f2, f3⟩ := h
  unfold handleDoneNodeMsg
  split
  · split
    · exact ⟨⟨n1, n2, mapDelete_nodup _ _ n3⟩, f1, f2,
        fun e he => f3 e (mem_of_mem_mapDelete _ _ e he)⟩
    · exact ⟨⟨n1, n2, n3⟩, f1, f2, f3⟩
  · split
    · split
      · exact ⟨⟨mapDelete_nodup _ _ n1, n2, n3⟩,
          fun e he => f1 e (mem_of_mem_mapDelete _ _ e he), f2, f3⟩
      · exact ⟨⟨n1, n2, n3⟩, f1, f2, f3⟩
    · split
      · exact ⟨⟨n1, mapDelete_nodup _ _ n2, n3⟩, f1,
          fun e he => f2 e (mem_of_mem_mapDelete _ _ e he), f3⟩
      · exact ⟨⟨n1, n2, n3⟩, f1, f2, f3⟩

/-- Every run of `nodeHandler` keeps the invariant of the maps. -/
theorem runRegistry_wellFiled (env : NodeEnv) (reg : Registry) (msgs : List RegistryMsg)
    (h : wellFiled reg.state) : wellFiled (runRegistry env reg msgs).state := by
  induction msgs generalizing reg with
  | nil => exact h
  | cons msg rest ih =>
    unfold runRegistry
    apply ih
    rcases msg with n | n
    · exact handleAddNodeMsg_wellFiled env reg.state n h
    · have := handleDoneNodeMsg_wellFiled reg.state n h
      unfold nodeHandlerStep
      simp only []
      split <;> exact this

/-- A peer accepted by `handleAddNodeMsg` is registered afterwards. -/
theorem handleAddNodeMsg_registers (env : NodeEnv) (state : nodeState) (n : Node)
    (h : (handleAddNodeMsg env state (some n)).1 = true) :
    isRegistered (handleAddNodeMsg env state (some n)).2.1 n := by
  have := (handleAddNodeMsg_accepted env state n).1 h
  simp only [nodeState.entries, List.mem_append] at this
  unfold isRegistered
  tauto

/-- In a state that satisfies the invariant of the maps, `handleDoneNodeMsg` removes a
registered peer that is not both inbound and persistent, and `Count()` drops by one. -/
theorem handleDoneNodeMsg_removes (state : nodeState) (n : Node) (h : wellFiled state)
    (hflags : ¬ (n.inbound = true ∧ n.persistent = true)) (hreg : isRegistered state n) :
    ¬ isRegistered (handleDoneNodeMsg state n).1 n ∧
    (handleDoneNodeMsg state n).1.Count + 1 = state.Count := by
  obtain ⟨⟨n1, n2, n3⟩, f1, f2, f3⟩ := h
  rcases hreg with hm | hm | hm
  · have hi : n.inbound = true := (f1 _ hm).2
    have hp : n.persistent = false := by
      cases hpp : n.persistent
      · rfl
      · exact absurd ⟨hi, hpp⟩ hflags
    have hl := mapLookup_isSome _ _ _ hm
    have hlen := length_mapDelete n.id state.inboundNodes n1 (List.mem_map.2 ⟨_, hm, rfl⟩)
    unfold handleDoneNodeMsg
    simp only [hp, hi, hl, if_true, Bool.false_eq_true, if_false]
    refine ⟨?_, ?_⟩
    · rintro (hr | hr | hr)
      · exact not_mem_mapDelete _ _ _ hr
      · have := (f2 _ hr).2.1
        simp [hi] at this
      · have := (f3 _ hr).2.1
        simp [hi] at this
    · simp only [nodeState.Count]
      omega
  · have hi : n.inbound = false := (f2 _ hm).2.1
    have hp : n.persistent = false := (f2 _ hm).2.2
    have hl := mapLookup_isSome _ _ _ hm
    have hlen := length_mapDelete n.id state.outboundNodes n2 (List.mem_map.2 ⟨_, hm, rfl⟩)
    unfold handleDoneNodeMsg
    simp only [hp, hi, hl, if_true, Bool.false_eq_true, if_false]
    refine ⟨?_, ?_⟩
    · rintro (hr | hr | hr)
      · have := (f1 _ hr).2
        simp [hi] at this
      · exact not_mem_mapDelete _ _ _ hr
      · have := (f3 _ hr).2.2
        simp [hp] at this
    · simp only [nodeState.Count]
      omega
  · have hi : n.inbound = false := (f3 _ hm).2.1
    have hp : n.persistent = true := (f3 _ hm).2.2
    have hl := mapLookup_isSome _ _ _ hm
    have hlen := length_mapDelete n.id state.persistentNodes n3 (List.mem_map.2 ⟨_, hm, rfl⟩)
    unfold handleDoneNodeMsg
    simp only [hp, hl, if_true]
    refine ⟨?_, ?_⟩
    · rintro (hr | hr | hr)
      · have := (f1 _ hr).2
        simp [hi] at this
      · have := (f2 _ hr).2.2
        simp [hp] at this
      · exact not_mem_mapDelete _ _ _ hr
    · simp only [nodeState.Count]
      omega

/-- C20, the case the claim gets wrong: a peer that is inbound and persistent is accepted by
`handleAddNodeMsg` into the inbound map, and the following `handleDoneNodeMsg`, which looks
for it in the persistent map, leaves it registered and `Count()` unchanged. -/
theorem handleDoneNodeMsg_keeps_inbound_persistent :
    (handleAddNodeMsg sampleNodeEnv emptyRegistry.state
      (some (samplePeer 1 true true 101))).1 = true ∧
    isRegistered (handleDoneNodeMsg
      (handleAddNodeMsg sampleNodeEnv emptyRegistry.state
        (some (samplePeer 1 true true 101))).2.1 (samplePeer 1 true true 101)).1
      (samplePeer 1 true true 101) ∧
    (handleDoneNodeMsg
      (handleAddNodeMsg sampleNodeEnv emptyRegistry.state
        (some (samplePeer 1 true true 101))).2.1 (samplePeer 1 true true 101)).1.Count =
    (handleAddNodeMsg sampleNodeEnv emptyRegistry.state
      (some (samplePeer 1 true true 101))).2.1.Count := by
  decide

/-- C20, amended: in every registry state reached from the empty registry by a sequence of
`NewNode` and `DoneNode` messages, for every peer that is not both inbound and persistent, a
peer accepted by `handleAddNodeMsg` is registered, the following `handleDoneNodeMsg` for it
leaves it in none of the three maps with `Count()` one less than before, and the same holds
for `handleDoneNodeMsg` on any peer registered in such a state. -/
theorem handleDoneNodeMsg_removes_added (env : NodeEnv) (msgs : List RegistryMsg) (n : Node)
    (hflags : ¬ (n.inbound = true ∧ n.persistent = true)) :
    ((handleAddNodeMsg env (runRegistry env emptyRegistry msgs).state (some n)).1 = true →
      isRegistered (handleAddNodeMsg env (runRegistry env emptyRegistry msgs).state (some n)).2.1 n ∧
      ¬ isRegistered (handleDoneNodeMsg
        (handleAddNodeMsg env (runRegistry env emptyRegistry msgs).state (some n)).2.1 n).1 n ∧
      (handleDoneNodeMsg
        (handleAddNodeMsg env (runRegistry env emptyRegistry msgs).state (some n)).2.1 n).1.Count
        + 1 =
      (handleAddNodeMsg env (runRegistry env emptyRegistry msgs).state (some n)).2.1.Count) ∧
    (isRegistered (runRegistry env emptyRegistry msgs).state n →
      ¬ isRegistered (handleDoneNodeMsg (runRegistry env emptyRegistry msgs).state n).1 n ∧
      (handleDoneNodeMsg (runRegistry env emptyRegistry msgs).state n).1.Count + 1 =
        (runRegistry env emptyRegistry msgs).state.Count) := by
  have hw := runRegistry_wellFiled env emptyRegistry msgs wellFiled_empty
  refine ⟨fun hacc => ?_, fun hreg => handleDoneNodeMsg_removes _ n hw hflags hreg⟩
  have hreg := handleAddNodeMsg_registers env _ n hacc
  exact ⟨hreg, handleDoneNodeMsg_removes _ n
    (handleAddNodeMsg_wellFiled env _ (some n) hw) hflags hreg⟩

/-- Witness for C20: after one inbound peer has arrived, an outbound persistent peer is
accepted, and its removal leaves it unregistered with `Count()` back at one. -/
theorem handleDoneNodeMsg_removes_added_witness :
    ¬ ((samplePeer 2 false true 101).inbound = true ∧
      (samplePeer 2 false true 101).persistent = true) ∧
    (handleDoneNodeMsg
      (handleAddNodeMsg sampleNodeEnv
        (runRegistry sampleNodeEnv emptyRegistry
          [.NewNode (some (samplePeer 1 true false 101))]).state
        (some (samplePeer 2 false true 101))).2.1 (samplePeer 2 false true 101)).1.Count + 1 =
      (handleAddNodeMsg sampleNodeEnv
        (runRegistry sampleNodeEnv emptyRegistry
          [.NewNode (some (samplePeer 1 true false 101))]).state
        (some (samplePeer 2 false true 101))).2.1.Count :=
  ⟨by decide,
    ((handleDoneNodeMsg_removes_added sampleNodeEnv
      [.NewNode (some (samplePeer 1 true false 101))] (samplePeer 2 false true 101)
      (by decide)).1 (by decide)).2.2⟩

/-- For output indexes below `2^63` the loop over `OutputIndexes` does what its test is there
for: when it passes, every index is below the number of outputs. -/
theorem outputIndexLoop_ok_small (outputCount : Nat) (indexes seen : List Nat)
    (hsmall : ∀ i ∈ indexes, i < 2 ^ 63)
    (h : outputIndexLoop outputCount indexes seen = .ok) :
    ∀ i ∈ indexes, i < outputCount := by
  induction indexes generalizing seen with
  | nil => intro i hi; cases hi
  | cons outputIndex rest ih =>
    unfold outputIndexLoop at h
    split at h
    · cases h
    · rename_i hc
      have hs := hsmall outputIndex (List.mem_cons_self _ _)
      have hlt : outputIndex < outputCount := by
        have h2 : ¬ uint64ToInt outputIndex ≥ (outputCount : Int) := fun hge => hc (Or.inr hge)
        unfold uint64ToInt wrapInt64 at h2
        omega
      intro i hi
      rcases List.mem_cons.1 hi with hi | hi
      · rw [hi]
        exact hlt
      · exact ih (outputIndex :: seen) (fun j hj => hsmall j (List.mem_cons_of_mem _ hj)) h i hi

/-- C27, failing input: a cross-chain transfer with one output and the output index `2^63` in
its payload, which the sanity check accepts.  The shape check passes, `int(outputIndex)` is `-2^63`, which is below the number
of outputs, so the loop over `OutputIndexes` passes although `2^63` is not below 1; the read of
`txn.Outputs[2^63]` that follows is out of range, a run-time fault, and the contextual check
faults with it. -/
theorem output_index_guard_misses_large_index :
    CheckTransactionSanity sampleContext 0 hugeIndexExample = .Success ∧
    hugeIndexExample.Payload = .TransferCrossChainAsset ["a"] [0] [2 ^ 63] ∧
    hugeIndexExample.Outputs.length = 1 ∧
    uint64ToInt (2 ^ 63) = -(2 ^ 63) ∧
    outputIndexLoop hugeIndexExample.Outputs.length [2 ^ 63] [] = .ok ∧
    ¬ (2 ^ 63 < hugeIndexExample.Outputs.length) ∧
    hugeIndexExample.Outputs.get? (2 ^ 63) = none ∧
    CheckTransferCrossChainAssetTransaction sampleContext hugeIndexExample = none ∧
    CheckTransactionContext sampleContext hugeIndexExample = none := by
  refine ⟨by decide, rfl, rfl, by decide, by decide, by decide, by decide, by decide, by decide⟩

/-- When the lock time of every coinbase source is at most the current height, a
transaction that passes the maturity loop spends only coinbase outputs with
`lock_time + CoinbaseLockTime ≤ current_height`. -/
theorem coinbaseOutputLockLoop_ok_mature (ctx : Context) (inputs : List Input)
    (hlock : ∀ input ∈ inputs, ∀ source, ctx.GetTransaction input.Previous.TxID = some source →
      source.IsCoinBaseTx = true → source.LockTime ≤ ctx.GetHeight)
    (h : coinbaseOutputLockLoop ctx inputs = some .ok) :
    ∀ input ∈ inputs, ∀ source, ctx.GetTransaction input.Previous.TxID = some source →
      source.IsCoinBaseTx = true → source.LockTime + ctx.CoinbaseLockTime ≤ ctx.GetHeight := by
  induction inputs with
  | nil => intro input hi; cases hi
  | cons input rest ih =>
    unfold coinbaseOutputLockLoop at h
    rcases hg : ctx.GetTransaction input.Previous.TxID with _ | referTxn
    · rw [hg] at h
      cases h
    · rw [hg] at h
      simp only [] at h
      have hrest : coinbaseOutputLockLoop ctx rest = some .ok ∧
          (referTxn.IsCoinBaseTx = true →
            referTxn.LockTime + ctx.CoinbaseLockTime ≤ ctx.GetHeight) := by
        by_cases hc : referTxn.IsCoinBaseTx = true
        · rw [if_pos hc] at h
          split at h
          · cases h
          · rename_i hlt
            refine ⟨h, fun _ => ?_⟩
            have hl := hlock input (List.mem_cons_self _ _) referTxn hg hc
            unfold wrapUint32 at hlt
            omega
        · rw [if_neg hc] at h
          exact ⟨h, fun hc2 => absurd hc2 hc⟩
      intro i hi source hs hcb
      rcases List.mem_cons.1 hi with hi | hi
      · rw [hi, hg] at hs
        cases hs
        exact hrest.2 hcb
      · exact ih (fun j hj => hlock j (List.mem_cons_of_mem _ hj)) hrest.1 i hi source hs hcb

/-- C28, failing input: the store is at height 99 and the source of the input is a coinbase
with lock time 100 found by the store, `CoinbaseLockTime` being 100.  The `uint32` subtraction
`99 - 100` wraps to `2^32 - 1`, which is not below 100, so `CheckTransactionCoinbaseOutputLock`
passes and the contextual check answers `Success`, although `100 + 100 ≤ 99` is false and the
lock time is above the current height. -/
theorem coinbase_lock_underflow_accepted :
    (maturityContext 99).GetTransaction (sampleInput 0).Previous.TxID = some maturitySource ∧
    maturitySource.IsCoinBaseTx = true ∧ maturitySource.LockTime = 100 ∧
    (maturityContext 99).GetHeight = 99 ∧ (maturityContext 99).CoinbaseLockTime = 100 ∧
    wrapUint32 (99 - 100) = 2 ^ 32 - 1 ∧
    CheckTransactionCoinbaseOutputLock (maturityContext 99)
      (transferExample 0 [sampleInput 0] [sampleOutput 1 0]) = some .ok ∧
    CheckTransactionSanity (maturityContext 99) 0
      (transferExample 0 [sampleInput 0] [sampleOutput 1 0]) = .Success ∧
    CheckTransactionContext (maturityContext 99)
      (transferExample 0 [sampleInput 0] [sampleOutput 1 0]) = some .Success ∧
    ¬ (maturitySource.LockTime + (maturityContext 99).CoinbaseLockTime ≤
      (maturityContext 99).GetHeight) := by
  refine ⟨rfl, by decide, rfl, rfl, rfl, by decide, by decide, by decide, by decide, by decide⟩

/-- The insertion rearranges the element and the slice. -/
theorem sortInsert_perm {α : Type} (less : α → α → Bool) (a : α) (l : List α) :
    (sortInsert less a l).Perm (a :: l) := by
  induction l with
  | nil => exact List.Perm.refl _
  | cons b rest ih =>
    unfold sortInsert
    split
    · exact (List.Perm.cons b ih).trans (List.Perm.swap a b rest)
    · exact List.Perm.refl _

/-- The sort rearranges the slice. -/
theorem sortSlice_perm {α : Type} (less : α → α → Bool) (l : List α) :
    (sortSlice less l).Perm l := by
  induction l with
  | nil => exact List.Perm.refl _
  | cons a rest ih =>
    unfold sortSlice
    exact (sortInsert_perm less a _).trans (List.Perm.cons a ih)

/-- The insertion by id keeps a slice of peers in ascending order of id. -/
theorem sortInsert_sorted (a : Node) (l : List Node)
    (h : l.Pairwise (fun x y => x.id ≤ y.id)) :
    (sortInsert (fun x y => decide (x.id < y.id)) a l).Pairwise (fun x y => x.id ≤ y.id) := by
  induction l with
  | nil => simp [sortInsert]
  | cons b rest ih =>
    rw [List.pairwise_cons] at h
    unfold sortInsert
    by_cases hlt : b.id < a.id
    · simp only [hlt, decide_True, if_true]
      rw [List.pairwise_cons]
      refine ⟨?_, ih h.2⟩
      intro x hx
      rcases List.mem_cons.1 ((sortInsert_perm _ a rest).mem_iff.1 hx) with hx | hx
      · rw [hx]
        omega
      · exact h.1 x hx
    · simp only [hlt, decide_False, Bool.false_eq_true, if_false]
      rw [List.pairwise_cons, List.pairwise_cons]
      refine ⟨?_, h⟩
      intro x hx
      rcases List.mem_cons.1 hx with hx | hx
      · rw [hx]
        omega
      · have := h.1 x hx
        omega

/-- The sort by id leaves a slice of peers in ascending order of id. -/
theorem sortSlice_sorted (l : List Node) :
    (sortSlice (fun x y => decide (x.id < y.id)) l).Pairwise (fun x y => x.id ≤ y.id) := by
  induction l with
  | nil => simp [sortSlice]
  | cons a rest ih =>
    unfold sortSlice
    exact sortInsert_sorted a _ ih

/-- Whatever the enumeration order, `forAllNodes` visits every entry of the three maps once. -/
theorem forAllNodes_perm (env : NodeEnv) (hperm : ∀ m, (env.rangeOrder m).Perm m)
    (ps : nodeState) : (ps.forAllNodes env).Perm (ps.entries.map Prod.snd) := by
  unfold nodeState.forAllNodes nodeState.forAllOutboundNodes nodeState.entries
  rw [List.map_append, List.map_append, List.append_assoc]
  exact ((hperm _).map _).append (((hperm _).map _).append ((hperm _).map _))

/-- In a map whose peers are stored under their id with distinct keys, no peer occurs twice. -/
theorem values_nodup (m : List (Nat × Node)) (hkey : ∀ e ∈ m, e.1 = e.2.id)
    (hnd : (m.map Prod.fst).Nodup) : (m.map Prod.snd).Nodup := by
  have : m.map Prod.fst = (m.map Prod.snd).map Node.id := by
    rw [List.map_map]
    exact List.map_congr_left (fun e he => hkey e he)
  rw [this] at hnd
  exact List.Nodup.of_map _ hnd

/-- In a state that satisfies the invariant of the maps no peer is registered twice. -/
theorem entries_nodup (ps : nodeState) (h : wellFiled ps) :
    (ps.entries.map Prod.snd).Nodup := by
  obtain ⟨⟨n1, n2, n3⟩, f1, f2, f3⟩ := h
  unfold nodeState.entries
  rw [List.map_append, List.map_append, List.nodup_append, List.nodup_append]
  refine ⟨⟨values_nodup _ (fun e he => (f1 e he).1) n1,
    values_nodup _ (fun e he => (f2 e he).1) n2, ?_⟩,
    values_nodup _ (fun e he => (f3 e he).1) n3, ?_⟩
  · intro x hx1 hx2
    obtain ⟨e1, he1, rfl⟩ := List.mem_map.1 hx1
    obtain ⟨e2, he2, heq⟩ := List.mem_map.1 hx2
    have h1 := (f1 e1 he1).2
    have h2 := (f2 e2 he2).2.1
    rw [heq, h1] at h2
    cases h2
  · intro x hx1 hx2
    obtain ⟨e3, he3, heq⟩ := List.mem_map.1 hx2
    have h3 := f3 e3 he3
    rw [heq] at h3
    rcases List.mem_append.1 hx1 with hx | hx
    · obtain ⟨e1, he1, rfl⟩ := List.mem_map.1 hx
      have h1 := (f1 e1 he1).2
      rw [h3.2.1] at h1
      cases h1
    · obtain ⟨e2, he2, rfl⟩ := List.mem_map.1 hx
      have h2 := (f2 e2 he2).2.2
      rw [h3.2.2] at h2
      cases h2

/-- C21: for every registry state, whatever the order in which `range` enumerates the maps,
the reply of `handleGetNodesMsg` is a rearrangement of the connected peers among the entries
of the inbound, outbound and persistent maps, so it holds exactly those peers, each as often
as it is registered; it is in ascending order of id; and in a state whose maps have distinct
keys and hold every peer under its id in its own map, as every reachable state has, no peer
occurs twice in the reply. -/
theorem handleGetNodesMsg_connected_sorted (env : NodeEnv)
    (hperm : ∀ m, (env.rangeOrder m).Perm m) (state : nodeState) :
    (handleGetNodesMsg env state).Perm
      ((state.entries.map Prod.snd).filter (fun n => n.connected)) ∧
    (∀ n, n ∈ handleGetNodesMsg env state ↔
      (∃ e ∈ state.entries, e.2 = n) ∧ n.connected = true) ∧
    (handleGetNodesMsg env state).Pairwise (fun a b => a.id ≤ b.id) ∧
    (wellFiled state → (handleGetNodesMsg env state).Nodup) ∧
    (∀ msgs, (handleGetNodesMsg env (runRegistry env emptyRegistry msgs).state).Nodup) := by
  have hp : (handleGetNodesMsg env state).Perm
      ((state.entries.map Prod.snd).filter (fun n => n.connected)) :=
    (sortSlice_perm _ _).trans ((forAllNodes_perm env hperm state).filter _)
  have hnd : ∀ st, wellFiled st → (handleGetNodesMsg env st).Nodup := fun st hw =>
    (((sortSlice_perm _ _).trans ((forAllNodes_perm env hperm st).filter _)).nodup_iff).2
      ((entries_nodup st hw).filter _)
  refine ⟨hp, ?_, sortSlice_sorted _, hnd state, fun msgs =>
    hnd _ (runRegistry_wellFiled env emptyRegistry msgs wellFiled_empty)⟩
  intro n
  rw [hp.mem_iff, List.mem_filter, List.mem_map]

/-- Witness for C21: two connected peers and one that is not, registered in the order of ids
2, 1, 3 and enumerated backwards; the reply holds the peers 1 and 2 in that order. -/
theorem handleGetNodesMsg_connected_sorted_witness :
    handleGetNodesMsg { sampleNodeEnv with DefaultMaxPeers := 5 }
      (runRegistry { sampleNodeEnv with DefaultMaxPeers := 5 } emptyRegistry
        [.NewNode (some (samplePeer 2 false false 101)),
         .NewNode (some (samplePeer 1 true false 101)),
         .NewNode (some { samplePeer 3 true false 101 with connected := false })]).state =
      [samplePeer 1 true false 101, samplePeer 2 false false 101] ∧
    (handleGetNodesMsg { sampleNodeEnv with DefaultMaxPeers := 5 }
      (runRegistry { sampleNodeEnv with DefaultMaxPeers := 5 } emptyRegistry
        [.NewNode (some (samplePeer 2 false false 101)),
         .NewNode (some (samplePeer 1 true false 101)),
         .NewNode (some { samplePeer 3 true false 101 with connected := false })]).state).Pairwise
      (fun a b => a.id ≤ b.id) :=
  ⟨by decide,
    (handleGetNodesMsg_connected_sorted { sampleNodeEnv with DefaultMaxPeers := 5 }
      (fun m => List.reverse_perm m) _).2.2.1⟩

/-- The second loop of `onInv` on a transaction vector. -/
theorem invLoop_tx (env : ChainEnv) (h : HandlerEIP001) (lastBlock : Int) (i : Nat)
    (requested : List Uint256) (iv : InvVect) (rest : List InvVect)
    (hty : iv.Typ = .InvTypeTx) :
    invLoop env h lastBlock i requested (iv :: rest) =
      if (env.GetTransactionPool iv.Hash).isNone then
        { invLoop env h lastBlock (i + 1) requested rest with
          getData := iv :: (invLoop env h lastBlock (i + 1) requested rest).getData }
      else invLoop env h lastBlock (i + 1) requested rest := by
  rw [invLoop]
  simp only [hty]

/-- The second loop of `onInv` on a vector that is neither a block nor a transaction. -/
theorem invLoop_other (env : ChainEnv) (h : HandlerEIP001) (lastBlock : Int) (i : Nat)
    (requested : List Uint256) (iv : InvVect) (rest : List InvVect)
    (hb : iv.Typ ≠ .InvTypeBlock) (ht : iv.Typ ≠ .InvTypeTx) :
    invLoop env h lastBlock i requested (iv :: rest) =
      invLoop env h lastBlock (i + 1) requested rest := by
  rw [invLoop]
  rcases hty : iv.Typ with _ | _ | _ | code
  · exact absurd hty ht
  · exact absurd hty hb
  · rfl
  · rfl

/-- The second loop of `onInv` on a block vector from an external peer: the handler returns. -/
theorem invLoop_block_external (env : ChainEnv) (h : HandlerEIP001) (lastBlock : Int) (i : Nat)
    (requested : List Uint256) (iv : InvVect) (rest : List InvVect)
    (hty : iv.Typ = .InvTypeBlock) (hx : h.IsExternal = true) :
    invLoop env h lastBlock i requested (iv :: rest) = ⟨requested, [], true, []⟩ := by
  rw [invLoop]
  simp only [hty, hx, if_true]

/-- The second loop of `onInv` on a block vector that is neither in the chain, nor a known
orphan, nor requested: the block is requested. -/
theorem invLoop_block_select (env : ChainEnv) (h : HandlerEIP001) (lastBlock : Int) (i : Nat)
    (requested : List Uint256) (iv : InvVect) (rest : List InvVect)
    (hty : iv.Typ = .InvTypeBlock) (hx : h.IsExternal = false)
    (he : env.BlockExists iv.Hash = false) (ho : env.IsKnownOrphan iv.Hash = false)
    (hr : iv.Hash ∉ requested) :
    invLoop env h lastBlock i requested (iv :: rest) =
      { invLoop env h lastBlock (i + 1) (AddRequestedBlock iv.Hash requested) rest with
        getData := iv ::
          (invLoop env h lastBlock (i + 1) (AddRequestedBlock iv.Hash requested) rest).getData } := by
  rw [invLoop]
  simp only [hty, hx, he, ho, IsRequestedBlock, hr, decide_False, Bool.or_self,
    Bool.false_eq_true, not_false_eq_true, if_true, if_false]

/-- The second loop of `onInv` on a block vector that is in the chain, a known orphan or
requested: nothing is added to `getData` and the set of requested blocks is left as it is. -/
theorem invLoop_block_known (env : ChainEnv) (h : HandlerEIP001) (lastBlock : Int) (i : Nat)
    (requested : List Uint256) (iv : InvVect) (rest : List InvVect)
    (hty : iv.Typ = .InvTypeBlock) (hx : h.IsExternal = false)
    (hk : env.BlockExists iv.Hash = true ∨ env.IsKnownOrphan iv.Hash = true ∨
      iv.Hash ∈ requested) :
    ∃ pushes,
      invLoop env h lastBlock i requested (iv :: rest) =
        { invLoop env h lastBlock (i + 1) requested rest with
          effects := pushes ++ (invLoop env h lastBlock (i + 1) requested rest).effects } ∧
      ∀ e ∈ pushes, ∃ locator hashStop, e = .PushGetBlocksMsg locator hashStop := by
  rw [invLoop]
  have hhave : (env.BlockExists iv.Hash || env.IsKnownOrphan iv.Hash ||
      IsRequestedBlock iv.Hash requested) = true := by
    rcases hk with hk | hk | hk
    · simp [hk]
    · simp [hk]
    · simp [IsRequestedBlock, hk]
  simp only [hty, hx, hhave, Bool.false_eq_true, not_true_eq_false, if_false]
  split
  · rcases env.LatestBlockLocator with ⟨locator, _ | err⟩
    · exact ⟨[_], rfl, by simp⟩
    · exact ⟨[], rfl, by simp⟩
  · split
    · exact ⟨[_], rfl, by simp⟩
    · exact ⟨[], rfl, by simp⟩

/-- Membership in the set of requested blocks after `AddRequestedBlock`. -/
theorem mem_AddRequestedBlock (hash x : Uint256) (requested : List Uint256) :
    x ∈ AddRequestedBlock hash requested ↔ x = hash ∨ x ∈ requested := by
  unfold AddRequestedBlock
  split
  · rename_i hm
    constructor
    · exact fun hx => Or.inr hx
    · rintro (hx | hx)
      · rw [hx]
        exact hm
      · exact hx
  · exact List.mem_cons

/-- The block hashes of a list of vectors that starts with a block vector. -/
theorem blockHashes_cons_block (iv : InvVect) (l : List InvVect)
    (hty : iv.Typ = .InvTypeBlock) : blockHashes (iv :: l) = iv.Hash :: blockHashes l := by
  simp [blockHashes, hty]

/-- The block hashes of a list of vectors that starts with a vector of another type. -/
theorem blockHashes_cons_other (iv : InvVect) (l : List InvVect)
    (hty : iv.Typ ≠ .InvTypeBlock) : blockHashes (iv :: l) = blockHashes l := by
  simp [blockHashes, hty]

/-- What the second loop of `onInv` selects.  The block hashes it adds to `getData` are hashes
of block vectors of the inv that are neither in the chain, nor known orphans, nor requested
before; none occurs twice; for a peer that is not external the loop runs to its end and every
such hash of the inv is selected; the set of requested blocks afterwards is the one before
together with the selected hashes; the effects of the loop are `getblocks` messages only; and
for an external peer no block is selected. -/
theorem invLoop_spec (env : ChainEnv) (h : HandlerEIP001) (lastBlock : Int)
    (inv : List InvVect) (i : Nat) (requested : List Uint256) :
    (∀ x ∈ blockHashes (invLoop env h lastBlock i requested inv).getData,
      (∃ iv ∈ inv, iv.Typ = .InvTypeBlock ∧ iv.Hash = x) ∧ env.BlockExists x = false ∧
        env.IsKnownOrphan x = false ∧ x ∉ requested) ∧
    (blockHashes (invLoop env h lastBlock i requested inv).getData).Nodup ∧
    (h.IsExternal = false →
      (invLoop env h lastBlock i requested inv).returned = false ∧
      ∀ iv ∈ inv, iv.Typ = .InvTypeBlock → env.BlockExists iv.Hash = false →
        env.IsKnownOrphan iv.Hash = false → iv.Hash ∉ requested →
        iv.Hash ∈ blockHashes (invLoop env h lastBlock i requested inv).getData) ∧
    (∀ x, x ∈ (invLoop env h lastBlock i requested inv).requested ↔
      x ∈ requested ∨ x ∈ blockHashes (invLoop env h lastBlock i requested inv).getData) ∧
    (∀ e ∈ (invLoop env h lastBlock i requested inv).effects,
      ∃ locator hashStop, e = .PushGetBlocksMsg locator hashStop) ∧
    (h.IsExternal = true →
      blockHashes (invLoop env h lastBlock i requested inv).getData = []) := by
  induction inv generalizing i requested with
  | nil => simp [invLoop, blockHashes]
  | cons iv rest ih =>
    by_cases hty : iv.Typ = .InvTypeBlock
    · by_cases hx : h.IsExternal = true
      · rw [invLoop_block_external env h lastBlock i requested iv rest hty hx]
        simp [blockHashes, hx]
      · have hx2 : h.IsExternal = false := by simpa using hx
        by_cases hk : env.BlockExists iv.Hash = true ∨ env.IsKnownOrphan iv.Hash = true ∨
            iv.Hash ∈ requested
        · obtain ⟨pushes, heq, hpush⟩ :=
            invLoop_block_known env h lastBlock i requested iv rest hty hx2 hk
          obtain ⟨p1, p2, p3, p4, p5, p6⟩ := ih (i + 1) requested
          rw [heq]
          refine ⟨?_, p2, ?_, p4, ?_, p6⟩
          · intro x hxm
            obtain ⟨⟨v, hv, hvt, hvh⟩, r2⟩ := p1 x hxm
            exact ⟨⟨v, List.mem_cons_of_mem _ hv, hvt, hvh⟩, r2⟩
          · intro hext
            refine ⟨(p3 hext).1, ?_⟩
            intro v hv hvt hve hvo hvr
            rcases List.mem_cons.1 hv with hv | hv
            · rw [hv] at hve hvo hvr
              rcases hk with hk | hk | hk
              · rw [hk] at hve
                cases hve
              · rw [hk] at hvo
                cases hvo
              · exact absurd hk hvr
            · exact (p3 hext).2 v hv hvt hve hvo hvr
          · intro e he
            rcases List.mem_append.1 he with he | he
            · exact hpush e he
            · exact p5 e he
        · have he : env.BlockExists iv.Hash = false := by
            cases hb : env.BlockExists iv.Hash
            · rfl
            · exact absurd (Or.inl hb) hk
          have ho : env.IsKnownOrphan iv.Hash = false := by
            cases hb : env.IsKnownOrphan iv.Hash
            · rfl
            · exact absurd (Or.inr (Or.inl hb)) hk
          have hr : iv.Hash ∉ requested := fun hm => hk (Or.inr (Or.inr hm))
          obtain ⟨p1, p2, p3, p4, p5, p6⟩ := ih (i + 1) (AddRequestedBlock iv.Hash requested)
          rw [invLoop_block_select env h lastBlock i requested iv rest hty hx2 he ho hr]
          simp only [blockHashes_cons_block _ _ hty]
          refine ⟨?_, ?_, ?_, ?_, p5, ?_⟩
          · intro x hxm
            rcases List.mem_cons.1 hxm with hxm | hxm
            · rw [hxm]
              exact ⟨⟨iv, List.mem_cons_self _ _, hty, rfl⟩, he, ho, hr⟩
            · obtain ⟨⟨v, hv, hvt, hvh⟩, r1, r2, r3⟩ := p1 x hxm
              exact ⟨⟨v, List.mem_cons_of_mem _ hv, hvt, hvh⟩, r1, r2,
                fun hm => r3 ((mem_AddRequestedBlock _ _ _).2 (Or.inr hm))⟩
          · rw [List.nodup_cons]
            refine ⟨?_, p2⟩
            intro hm
            exact (p1 _ hm).2.2.2 ((mem_AddRequestedBlock _ _ _).2 (Or.inl rfl))
          · intro hext
            refine ⟨(p3 hext).1, ?_⟩
            intro v hv hvt hve hvo hvr
            by_cases hsame : v.Hash = iv.Hash
            · rw [hsame]
              exact List.mem_cons_self _ _
            · rcases List.mem_cons.1 hv with hv | hv
              · rw [hv]
                exact List.mem_cons_self _ _
              · refine List.mem_cons_of_mem _ ((p3 hext).2 v hv hvt hve hvo ?_)
                intro hm
                rcases (mem_AddRequestedBlock _ _ _).1 hm with hm | hm
                · exact hsame hm
                · exact hvr hm
          · intro x
            rw [p4 x, mem_AddRequestedBlock, List.mem_cons]
            tauto
          · intro hext
            rw [hext] at hx2
            cases hx2
    · have hskip : ∀ r : InvLoopResult,
          blockHashes ({ r with getData := iv :: r.getData } : InvLoopResult).getData =
            blockHashes r.getData := fun r => blockHashes_cons_other iv r.getData hty
      obtain ⟨p1, p2, p3, p4, p5, p6⟩ := ih (i + 1) requested
      have hmem : ∀ x, (∃ v ∈ rest, v.Typ = .InvTypeBlock ∧ v.Hash = x) →
          ∃ v ∈ iv :: rest, v.Typ = .InvTypeBlock ∧ v.Hash = x := by
        rintro x ⟨v, hv, hvt, hvh⟩
        exact ⟨v, List.mem_cons_of_mem _ hv, hvt, hvh⟩
      have hall : ∀ v ∈ iv :: rest, v.Typ = .InvTypeBlock → v ∈ rest := by
        intro v hv hvt
        rcases List.mem_cons.1 hv with hv | hv
        · rw [hv] at hvt
          exact absurd hvt hty
        · exact hv
      have hgoal : ∀ r : InvLoopResult,
          (r = invLoop env h lastBlock (i + 1) requested rest ∨
            r = { invLoop env h lastBlock (i + 1) requested rest with
              getData := iv :: (invLoop env h lastBlock (i + 1) requested rest).getData }) →
          (∀ x ∈ blockHashes r.getData,
            (∃ v ∈ iv :: rest, v.Typ = .InvTypeBlock ∧ v.Hash = x) ∧
              env.BlockExists x = false ∧ env.IsKnownOrphan x = false ∧ x ∉ requested) ∧
          (blockHashes r.getData).Nodup ∧
          (h.IsExternal = false → r.returned = false ∧
            ∀ v ∈ iv :: rest, v.Typ = .InvTypeBlock → env.BlockExists v.Hash = false →
              env.IsKnownOrphan v.Hash = false → v.Hash ∉ requested →
              v.Hash ∈ blockHashes r.getData) ∧
          (∀ x, x ∈ r.requested ↔ x ∈ requested ∨ x ∈ blockHashes r.getData) ∧
          (∀ e ∈ r.effects, ∃ locator hashStop, e = .PushGetBlocksMsg locator hashStop) ∧
          (h.IsExternal = true → blockHashes r.getData = []) := by
        intro r hr
        have hbh : blockHashes r.getData =
            blockHashes (invLoop env h lastBlock (i + 1) requested rest).getData := by
          rcases hr with hr | hr
          · rw [hr]
          · rw [hr]
            exact hskip _
        have hret : r.returned = (invLoop env h lastBlock (i + 1) requested rest).returned := by
          rcases hr with hr | hr <;> rw [hr]
        have hreq : r.requested = (invLoop env h lastBlock (i + 1) requested rest).requested := by
          rcases hr with hr | hr <;> rw [hr]
        have heff : r.effects = (invLoop env h lastBlock (i + 1) requested rest).effects := by
          rcases hr with hr | hr <;> rw [hr]
        rw [hbh, hret, hreq, heff]
        refine ⟨fun x hxm => ⟨hmem x (p1 x hxm).1, (p1 x hxm).2⟩, p2, ?_, p4, p5, p6⟩
        intro hext
        exact ⟨(p3 hext).1, fun v hv hvt => (p3 hext).2 v (hall v hv hvt) hvt⟩
      by_cases htx : iv.Typ = .InvTypeTx
      · rw [invLoop_tx env h lastBlock i requested iv rest htx]
        split
        · exact hgoal _ (Or.inr rfl)
        · exact hgoal _ (Or.inl rfl)
      · rw [invLoop_other env h lastBlock i requested iv rest hty htx]
        exact hgoal _ (Or.inl rfl)

/-- The requested block hashes of two lists of effects in a row. -/
theorem requestedBlockHashes_append (a b : List HandlerEffect) :
    requestedBlockHashes (a ++ b) = requestedBlockHashes a ++ requestedBlockHashes b := by
  induction a with
  | nil => rfl
  | cons e rest ih =>
    cases e <;> simp [requestedBlockHashes, ih]

/-- A list of `getblocks` messages requests no block through `getdata`. -/
theorem requestedBlockHashes_pushes (l : List HandlerEffect)
    (h : ∀ e ∈ l, ∃ locator hashStop, e = .PushGetBlocksMsg locator hashStop) :
    requestedBlockHashes l = [] ∧ sentGetDatas l = [] := by
  induction l with
  | nil => exact ⟨rfl, rfl⟩
  | cons e rest ih =>
    obtain ⟨locator, hashStop, he⟩ := h e (List.mem_cons_self _ _)
    rw [he]
    exact ih (fun x hx => h x (List.mem_cons_of_mem _ hx))

/-- The block hashes requested by `onInv` are those its loop selected, and its set of
requested blocks is the one the loop leaves, unless the sync gate has stopped it. -/
theorem onInv_requested (env : ChainEnv) (syncNode : Option Node) (h : HandlerEIP001)
    (requested : List Uint256) (inv : List InvVect) :
    ((syncNode ≠ none ∧ some h.node ≠ syncNode) ∧
      onInv env syncNode h requested inv = (requested, [])) ∨
    (¬ (syncNode ≠ none ∧ some h.node ≠ syncNode) ∧
      (onInv env syncNode h requested inv).1 =
        (invLoop env h (lastBlockLoop inv inv.length) 0 requested inv).requested ∧
      requestedBlockHashes (onInv env syncNode h requested inv).2 =
        blockHashes (invLoop env h (lastBlockLoop inv inv.length) 0 requested inv).getData ∧
      (h.IsExternal = false → ∃ pushes,
        (onInv env syncNode h requested inv).2 = pushes ++
          [.SendGetData (invLoop env h (lastBlockLoop inv inv.length) 0 requested inv).getData] ∧
        sentGetDatas pushes = [])) := by
  obtain ⟨-, -, p3, -, p5, p6⟩ := invLoop_spec env h (lastBlockLoop inv inv.length) inv 0 requested
  unfold onInv
  by_cases hgate : syncNode ≠ none ∧ some h.node ≠ syncNode
  · exact Or.inl ⟨hgate, by rw [if_pos hgate]⟩
  · right
    rw [if_neg hgate]
    refine ⟨hgate, ?_⟩
    simp only []
    by_cases hret : (invLoop env h (lastBlockLoop inv inv.length) 0 requested inv).returned = true
    · have hext : h.IsExternal = true := by
        cases hx : h.IsExternal
        · rw [(p3 hx).1] at hret
          cases hret
        · rfl
      rw [if_pos hret]
      refine ⟨rfl, ?_, ?_⟩
      · rw [p6 hext]
        exact (requestedBlockHashes_pushes _ p5).1
      · intro hx
        rw [hext] at hx
        cases hx
    · rw [if_neg hret]
      refine ⟨rfl, ?_, fun _ => ⟨_, rfl, (requestedBlockHashes_pushes _ p5).2⟩⟩
      rw [requestedBlockHashes_append, (requestedBlockHashes_pushes _ p5).1]
      simp [requestedBlockHashes]

/-- C23: for every inv handled by `onInv`, the block hashes of the `getdata` it sends are
hashes of block vectors of the inv that, when examined, are neither in the chain, nor known
orphans, nor in the set of requested blocks, so none was requested before, and none occurs
twice; when the peer is not external and the sync gate lets the inv through, exactly one
`getdata` is sent, as the last message, and it holds every such hash of the inv; the set of
requested blocks afterwards is the one before together with the hashes selected; and a later
inv, from whatever peer, while the chain is the same, requests no hash of that set again. -/
theorem onInv_requests_unrequested_blocks (env : ChainEnv) (syncNode : Option Node)
    (h : HandlerEIP001) (requested : List Uint256) (inv : List InvVect) :
    (∀ x ∈ requestedBlockHashes (onInv env syncNode h requested inv).2,
      (∃ iv ∈ inv, iv.Typ = .InvTypeBlock ∧ iv.Hash = x) ∧ env.BlockExists x = false ∧
        env.IsKnownOrphan x = false ∧ x ∉ requested) ∧
    (requestedBlockHashes (onInv env syncNode h requested inv).2).Nodup ∧
    (h.IsExternal = false → (syncNode = none ∨ syncNode = some h.node) →
      (∃ pushes getData, (onInv env syncNode h requested inv).2 =
          pushes ++ [.SendGetData getData] ∧ sentGetDatas pushes = []) ∧
      ∀ iv ∈ inv, iv.Typ = .InvTypeBlock → env.BlockExists iv.Hash = false →
        env.IsKnownOrphan iv.Hash = false → iv.Hash ∉ requested →
        iv.Hash ∈ requestedBlockHashes (onInv env syncNode h requested inv).2) ∧
    (∀ x, x ∈ (onInv env syncNode h requested inv).1 ↔
      x ∈ requested ∨ x ∈ requestedBlockHashes (onInv env syncNode h requested inv).2) ∧
    (∀ (syncNode2 : Option Node) (h2 : HandlerEIP001) (inv2 : List InvVect),
      ∀ x ∈ (onInv env syncNode h requested inv).1,
        x ∉ requestedBlockHashes
          (onInv env syncNode2 h2 (onInv env syncNode h requested inv).1 inv2).2) := by
  have hfirst : ∀ (s : Option Node) (g : HandlerEIP001) (req : List Uint256)
      (l : List InvVect),
      ∀ x ∈ requestedBlockHashes (onInv env s g req l).2,
        (∃ iv ∈ l, iv.Typ = .InvTypeBlock ∧ iv.Hash = x) ∧ env.BlockExists x = false ∧
          env.IsKnownOrphan x = false ∧ x ∉ req := by
    intro s g req l x hx
    rcases onInv_requested env s g req l with ⟨-, heq⟩ | ⟨-, -, hb, -⟩
    · rw [heq] at hx
      cases hx
    · rw [hb] at hx
      exact (invLoop_spec env g (lastBlockLoop l l.length) l 0 req).1 x hx
  obtain ⟨-, p2, p3, p4, -, -⟩ :=
    invLoop_spec env h (lastBlockLoop inv inv.length) inv 0 requested
  refine ⟨hfirst syncNode h requested inv, ?_, ?_, ?_, ?_⟩
  · rcases onInv_requested env syncNode h requested inv with ⟨-, heq⟩ | ⟨-, -, hb, -⟩
    · rw [heq]
      exact List.nodup_nil
    · rw [hb]
      exact p2
  · intro hext hsync
    rcases onInv_requested env syncNode h requested inv with ⟨hgate, -⟩ | ⟨-, -, hb, hsend⟩
    · rcases hsync with hs | hs
      · exact absurd hs hgate.1
      · exact absurd hs.symm hgate.2
    · obtain ⟨pushes, heq, hp⟩ := hsend hext
      refine ⟨⟨pushes, _, heq, hp⟩, ?_⟩
      rw [hb]
      exact (p3 hext).2
  · intro x
    rcases onInv_requested env syncNode h requested inv with ⟨-, heq⟩ | ⟨-, hr, hb, -⟩
    · rw [heq]
      simp [requestedBlockHashes]
    · rw [hr, hb]
      exact p4 x
  · intro syncNode2 h2 inv2 x hx hx2
    exact (hfirst syncNode2 h2 _ inv2 x hx2).2.2.2 hx

/-- Witness for C23: block 5 is unknown and announced twice after a block of the chain; it is
requested once, and it is in the set of requested blocks afterwards. -/
theorem onInv_requests_unrequested_blocks_witness :
    (sampleHandler 1 none).IsExternal = false ∧
    (blockVect 5).Hash ∈ requestedBlockHashes (onInv sampleChainEnv none (sampleHandler 1 none) []
      [blockVect 1, blockVect 5, blockVect 5]).2 ∧
    onInv sampleChainEnv none (sampleHandler 1 none) [] [blockVect 1, blockVect 5, blockVect 5] =
      ([List.replicate 32 5],
        [.PushGetBlocksMsg [List.replicate 32 5] EmptyHash, .SendGetData [blockVect 5]]) :=
  ⟨rfl,
    ((onInv_requests_unrequested_blocks sampleChainEnv none (sampleHandler 1 none) []
      [blockVect 1, blockVect 5, blockVect 5]).2.2.1 rfl (Or.inl rfl)).2 (blockVect 5)
      (by decide) rfl (by decide) (by decide) (by decide),
    by decide⟩

/-- When every block vector of an inv is in the chain and every transaction vector is in the
pool, the second loop of `onInv` adds no vector to `getData` and requests no block. -/
theorem invLoop_all_known (env : ChainEnv) (h : HandlerEIP001) (lastBlock : Int)
    (inv : List InvVect) (i : Nat) (requested : List Uint256)
    (hb : ∀ iv ∈ inv, iv.Typ = .InvTypeBlock → env.BlockExists iv.Hash = true)
    (ht : ∀ iv ∈ inv, iv.Typ = .InvTypeTx → (env.GetTransactionPool iv.Hash).isSome = true) :
    (invLoop env h lastBlock i requested inv).getData = [] ∧
    (invLoop env h lastBlock i requested inv).requested = requested := by
  induction inv generalizing i with
  | nil => exact ⟨rfl, rfl⟩
  | cons iv rest ih =>
    have ih2 := ih (i + 1) (fun v hv => hb v (List.mem_cons_of_mem _ hv))
      (fun v hv => ht v (List.mem_cons_of_mem _ hv))
    have hb0 := hb iv (List.mem_cons_self _ _)
    have ht0 := ht iv (List.mem_cons_self _ _)
    by_cases hty : iv.Typ = .InvTypeBlock
    · by_cases hx : h.IsExternal = true
      · rw [invLoop_block_external env h lastBlock i requested iv rest hty hx]
        exact ⟨rfl, rfl⟩
      · have hx2 : h.IsExternal = false := by simpa using hx
        obtain ⟨pushes, heq, -⟩ :=
          invLoop_block_known env h lastBlock i requested iv rest hty hx2 (Or.inl (hb0 hty))
        rw [heq]
        exact ih2
    · by_cases htx : iv.Typ = .InvTypeTx
      · rw [invLoop_tx env h lastBlock i requested iv rest htx]
        have hn : (env.GetTransactionPool iv.Hash).isNone = false := by
          have hp := ht0 htx
          rcases hg : env.GetTransactionPool iv.Hash with _ | tx
          · rw [hg] at hp
            cases hp
          · rfl
        rw [hn]
        exact ih2
      · rw [invLoop_other env h lastBlock i requested iv rest hty htx]
        exact ih2

/-- When every vector of an inv is already known, every `getdata` that `onInv` sends is
empty and the set of requested blocks is left as it is. -/
theorem onInv_all_known (env : ChainEnv) (syncNode : Option Node) (h : HandlerEIP001)
    (requested : List Uint256) (inv : List InvVect)
    (hb : ∀ iv ∈ inv, iv.Typ = .InvTypeBlock → env.BlockExists iv.Hash = true)
    (ht : ∀ iv ∈ inv, iv.Typ = .InvTypeTx → (env.GetTransactionPool iv.Hash).isSome = true) :
    (∀ getData ∈ sentGetDatas (onInv env syncNode h requested inv).2, getData = []) ∧
    (onInv env syncNode h requested inv).1 = requested := by
  obtain ⟨hg, hr⟩ := invLoop_all_known env h (lastBlockLoop inv inv.length) inv 0 requested hb ht
  have hp := (invLoop_spec env h (lastBlockLoop inv inv.length) inv 0 requested).2.2.2.2.1
  have hs := (requestedBlockHashes_pushes _ hp).2
  have happ : ∀ a b : List HandlerEffect, sentGetDatas (a ++ b) =
      sentGetDatas a ++ sentGetDatas b := by
    intro a b
    induction a with
    | nil => rfl
    | cons e rest ih => cases e <;> simp [sentGetDatas, ih]
  unfold onInv
  split
  · exact ⟨by simp [sentGetDatas], rfl⟩
  · simp only []
    split
    · rw [hs, hr]
      exact ⟨by simp, rfl⟩
    · rw [happ, hs, hg, hr]
      exact ⟨by simp [sentGetDatas], rfl⟩

/-- C22, failing input: an inv of three block hashes, all in the chain, from a peer that is
not external while no sync peer is set.  No vector is selected, and `onInv` still sends the
`getdata` message it has built, with an empty list, after the `getblocks` for the last block
vector. -/
theorem onInv_known_blocks_sends_empty_getdata :
    (∀ iv ∈ [blockVect 1, blockVect 2, blockVect 3],
      iv.Typ = .InvTypeBlock ∧ sampleChainEnv.BlockExists iv.Hash = true) ∧
    (sampleHandler 1 none).IsExternal = false ∧
    onInv sampleChainEnv none (sampleHandler 1 none) [] [blockVect 1, blockVect 2, blockVect 3] =
      ([], [.PushGetBlocksMsg [List.replicate 32 3] EmptyHash, .SendGetData []]) ∧
    sentGetDatas (onInv sampleChainEnv none (sampleHandler 1 none) []
      [blockVect 1, blockVect 2, blockVect 3]).2 = [[]] := by
  refine ⟨by decide, rfl, by decide, by decide⟩

/-- Transactions sent to the peer are neither inventories nor `notfound` messages. -/
theorem sent_map_SendTx (txs : List Transaction) (l : List HandlerEffect) :
    sentInventories (txs.map (fun tx => HandlerEffect.SendTx tx) ++ l) = sentInventories l ∧
    sentNotFounds (txs.map (fun tx => HandlerEffect.SendTx tx) ++ l) = sentNotFounds l := by
  induction txs with
  | nil => exact ⟨rfl, rfl⟩
  | cons tx rest ih => exact ih

/-- The inventories of two lists of effects in a row. -/
theorem sentInventories_append (a b : List HandlerEffect) :
    sentInventories (a ++ b) = sentInventories a ++ sentInventories b := by
  induction a with
  | nil => rfl
  | cons e rest ih => cases e <;> simp [sentInventories, ih]

/-- The `notfound` messages of two lists of effects in a row. -/
theorem sentNotFounds_append (a b : List HandlerEffect) :
    sentNotFounds (a ++ b) = sentNotFounds a ++ sentNotFounds b := by
  induction a with
  | nil => rfl
  | cons e rest ih => cases e <;> simp [sentNotFounds, ih]

/-- One round of the loop of `onGetData` that ends with a result.  Either the handler returns
from inside the loop, on a filtered-block vector of a peer without filter; or the vector is a
block vector that is served and whose hash is the marker, and the inventory of the best block
follows the block while the marker is cleared; or the vector is served or added to `notFound`
without any inventory, the marker being left as it is. -/
theorem getDataLoop_cons (env : ChainEnv) (filterLoaded : Bool) (continueHash : Option Uint256)
    (iv : InvVect) (rest : List InvVect) (r : GetDataLoopResult)
    (h : getDataLoop env filterLoaded continueHash (iv :: rest) = some r) :
    (r = ⟨continueHash, [], true, []⟩ ∧ iv.Typ = .InvTypeFilteredBlock ∧
      filterLoaded = false) ∨
    (∃ block r2, iv.Typ = .InvTypeBlock ∧ env.GetBlock iv.Hash = some block ∧
      continueHash = some iv.Hash ∧ getDataLoop env filterLoaded none rest = some r2 ∧
      r = { r2 with effects := .SendBlock block ::
        .SendInventory [⟨.InvTypeBlock, env.BestChainHash⟩] :: r2.effects }) ∨
    (∃ r2 extra, getDataLoop env filterLoaded continueHash rest = some r2 ∧
      r.continueHash = r2.continueHash ∧ r.returned = r2.returned ∧
      r.notFound = (if unserved env iv = true then iv :: r2.notFound else r2.notFound) ∧
      r.effects = extra ++ r2.effects ∧ sentInventories extra = [] ∧
      sentNotFounds extra = [] ∧
      (iv.Typ = .InvTypeBlock → continueHash = some iv.Hash → env.GetBlock iv.Hash = none) ∧
      (iv.Typ = .InvTypeFilteredBlock → filterLoaded = true)) := by
  rw [getDataLoop] at h
  rcases hty : iv.Typ with _ | _ | _ | code
  · simp only [hty] at h
    right; right
    rcases hg : env.GetTransactionPool iv.Hash with _ | tx
    · simp only [hg, Option.map_eq_some'] at h
      obtain ⟨r2, hr2, rfl⟩ := h
      exact ⟨r2, [], hr2, rfl, rfl, by simp [unserved, hty, hg], rfl, rfl, rfl,
        by simp, by simp⟩
    · simp only [hg, Option.map_eq_some'] at h
      obtain ⟨r2, hr2, rfl⟩ := h
      exact ⟨r2, [.SendTx tx], hr2, rfl, rfl, by simp [unserved, hty, hg], rfl, rfl, rfl,
        by simp, by simp⟩
  · simp only [hty] at h
    rcases hg : env.GetBlock iv.Hash with _ | block
    · simp only [hg, Option.map_eq_some'] at h
      obtain ⟨r2, hr2, rfl⟩ := h
      right; right
      exact ⟨r2, [], hr2, rfl, rfl, by simp [unserved, hty, hg], rfl, rfl, rfl,
        by simp, by simp⟩
    · simp only [hg] at h
      by_cases hc : continueHash = some iv.Hash
      · rw [if_pos hc] at h
        simp only [Option.map_eq_some'] at h
        obtain ⟨r2, hr2, rfl⟩ := h
        right; left
        exact ⟨block, r2, rfl, rfl, hc, hr2, rfl⟩
      · rw [if_neg hc] at h
        simp only [Option.map_eq_some'] at h
        obtain ⟨r2, hr2, rfl⟩ := h
        right; right
        exact ⟨r2, [.SendBlock block], hr2, rfl, rfl, by simp [unserved, hty, hg], rfl, rfl,
          rfl, fun _ hc2 => absurd hc2 hc, by simp⟩
  · simp only [hty] at h
    cases filterLoaded with
    | true =>
      simp only [not_true_eq_false, if_false] at h
      right; right
      rcases hg : env.GetBlock iv.Hash with _ | block
      · simp only [hg, Option.map_eq_some'] at h
        obtain ⟨r2, hr2, rfl⟩ := h
        exact ⟨r2, [], hr2, rfl, rfl, by simp [unserved, hty, hg], rfl, rfl, rfl,
          by simp, fun _ => rfl⟩
      · simp only [hg] at h
        rcases hm : matchedTransactions block (env.NewMerkleBlock block) with _ | txs
        · rw [hm] at h
          cases h
        · simp only [hm, Option.map_eq_some'] at h
          obtain ⟨r2, hr2, rfl⟩ := h
          exact ⟨r2, .SendMerkleBlock block :: txs.map (fun tx => HandlerEffect.SendTx tx),
            hr2, rfl, rfl, by simp [unserved, hty, hg], by simp,
            by simpa [sentInventories] using (sent_map_SendTx txs []).1,
            by simpa [sentNotFounds] using (sent_map_SendTx txs []).2, by simp, fun _ => rfl⟩
    | false =>
      simp only [Bool.false_eq_true, not_false_eq_true, if_true, Option.some.injEq] at h
      left
      exact ⟨h.symm, rfl, rfl⟩
  · simp only [hty] at h
    right; right
    exact ⟨r, [], h, rfl, rfl, by simp [unserved, hty], rfl, rfl, rfl, by simp, by simp⟩

/-- The loop of `onGetData` sends no `notfound` message itself. -/
theorem getDataLoop_no_notFound (env : ChainEnv) (filterLoaded : Bool) (getData : List InvVect)
    (continueHash : Option Uint256) (r : GetDataLoopResult)
    (h : getDataLoop env filterLoaded continueHash getData = some r) :
    sentNotFounds r.effects = [] := by
  induction getData generalizing continueHash r with
  | nil =>
    rw [getDataLoop] at h
    cases h
    rfl
  | cons iv rest ih =>
    rcases getDataLoop_cons env filterLoaded continueHash iv rest r h with
      ⟨rfl, -, -⟩ | ⟨block, r2, -, -, -, hr2, rfl⟩ | ⟨r2, extra, hr2, -, -, -, he, -, hn, -, -⟩
    · rfl
    · exact ih none r2 hr2
    · rw [he, sentNotFounds_append, hn, ih continueHash r2 hr2]
      rfl

/-- When no filtered-block vector meets a peer without filter, the loop of `onGetData` runs to
its end and `notFound` holds, in the order of the request, exactly the vectors that were not
served. -/
theorem getDataLoop_notFound (env : ChainEnv) (filterLoaded : Bool) (getData : List InvVect)
    (continueHash : Option Uint256) (r : GetDataLoopResult)
    (hfl : filterLoaded = true ∨ ∀ iv ∈ getData, iv.Typ ≠ .InvTypeFilteredBlock)
    (h : getDataLoop env filterLoaded continueHash getData = some r) :
    r.returned = false ∧ r.notFound = getData.filter (unserved env) := by
  induction getData generalizing continueHash r with
  | nil =>
    rw [getDataLoop] at h
    cases h
    exact ⟨rfl, rfl⟩
  | cons iv rest ih =>
    have hfl2 : filterLoaded = true ∨ ∀ v ∈ rest, v.Typ ≠ .InvTypeFilteredBlock := by
      rcases hfl with hfl | hfl
      · exact Or.inl hfl
      · exact Or.inr (fun v hv => hfl v (List.mem_cons_of_mem _ hv))
    rcases getDataLoop_cons env filterLoaded continueHash iv rest r h with
      ⟨-, hty, hf⟩ | ⟨block, r2, hty, hg, -, hr2, rfl⟩ | ⟨r2, extra, hr2, -, hret, hnf, -, -, -, -, -⟩
    · rcases hfl with hfl | hfl
      · rw [hf] at hfl
        cases hfl
      · exact absurd hty (hfl iv (List.mem_cons_self _ _))
    · obtain ⟨i1, i2⟩ := ih none r2 hfl2 hr2
      have hu : unserved env iv = false := by simp [unserved, hty, hg]
      refine ⟨i1, ?_⟩
      rw [List.filter_cons, hu]
      exact i2
    · obtain ⟨i1, i2⟩ := ih continueHash r2 hfl2 hr2
      refine ⟨hret.trans i1, ?_⟩
      rw [hnf, List.filter_cons, i2]

/-- The use of the marker by the loop of `onGetData`.  Either no inventory is sent and the
marker is left as it is; or the marker was set, a block vector of the request has its hash, the
block of that hash is sent, the inventory of the best block alone follows it at once, no other
inventory is sent, and the marker is cleared. -/
theorem getDataLoop_marker (env : ChainEnv) (filterLoaded : Bool) (getData : List InvVect)
    (continueHash : Option Uint256) (r : GetDataLoopResult)
    (h : getDataLoop env filterLoaded continueHash getData = some r) :
    (sentInventories r.effects = [] ∧ r.continueHash = continueHash) ∨
    (∃ c block pre post, continueHash = some c ∧ env.GetBlock c = some block ∧
      (⟨.InvTypeBlock, c⟩ : InvVect) ∈ getData ∧ r.continueHash = none ∧
      r.effects = pre ++ .SendBlock block ::
        .SendInventory [⟨.InvTypeBlock, env.BestChainHash⟩] :: post ∧
      sentInventories pre = [] ∧ sentInventories post = []) := by
  induction getData generalizing continueHash r with
  | nil =>
    rw [getDataLoop] at h
    cases h
    exact Or.inl ⟨rfl, rfl⟩
  | cons iv rest ih =>
    rcases getDataLoop_cons env filterLoaded continueHash iv rest r h with
      ⟨rfl, -, -⟩ | ⟨block, r2, hty, hg, hc, hr2, rfl⟩ |
      ⟨r2, extra, hr2, hch, -, -, he, hi, -, -, -⟩
    · exact Or.inl ⟨rfl, rfl⟩
    · right
      rcases ih none r2 hr2 with ⟨i1, i2⟩ | ⟨c, _, _, _, hcontra, _⟩
      · refine ⟨iv.Hash, block, [], r2.effects, hc, hg, ?_, i2, rfl, rfl, i1⟩
        have : (⟨.InvTypeBlock, iv.Hash⟩ : InvVect) = iv := by
          cases iv
          simp only [] at hty
          rw [hty]
        rw [this]
        exact List.mem_cons_self _ _
      · cases hcontra
    · rcases ih continueHash r2 hr2 with ⟨i1, i2⟩ | ⟨c, block, pre, post, j1, j2, j3, j4, j5, j6, j7⟩
      · left
        rw [he, sentInventories_append, hi, i1, hch, i2]
        exact ⟨rfl, rfl⟩
      · right
        refine ⟨c, block, extra ++ pre, post, j1, j2, List.mem_cons_of_mem _ j3, hch.trans j4, ?_,
          ?_, j7⟩
        · rw [he, j5, List.append_assoc]
        · rw [sentInventories_append, hi, j6]
          rfl

/-- When the loop of `onGetData` runs to its end on a request that holds a block vector with
the hash of the marker, and the store has that block, the marker is cleared. -/
theorem getDataLoop_follow_up (env : ChainEnv) (filterLoaded : Bool) (getData : List InvVect)
    (continueHash : Option Uint256) (r : GetDataLoopResult) (c : Uint256) (block : Block)
    (h : getDataLoop env filterLoaded continueHash getData = some r)
    (hret : r.returned = false) (hc : continueHash = some c)
    (hmem : (⟨.InvTypeBlock, c⟩ : InvVect) ∈ getData) (hg : env.GetBlock c = some block) :
    r.continueHash = none := by
  induction getData generalizing r with
  | nil => cases hmem
  | cons iv rest ih =>
    rcases getDataLoop_cons env filterLoaded continueHash iv rest r h with
      ⟨rfl, -, -⟩ | ⟨block2, r2, -, -, -, hr2, rfl⟩ | ⟨r2, extra, hr2, hch, hr, -, -, -, -, hno, -⟩
    · cases hret
    · rcases getDataLoop_marker env filterLoaded rest none r2 hr2 with
        ⟨-, i2⟩ | ⟨_, _, _, _, hcontra, _⟩
      · exact i2
      · cases hcontra
    · rcases List.mem_cons.1 hmem with hm | hm
      · have h1 : iv.Typ = .InvTypeBlock := by rw [← hm]
        have h2 : iv.Hash = c := by rw [← hm]
        have := hno h1 (by rw [hc, h2])
        rw [h2, hg] at this
        cases this
      · rw [hch]
        exact ih r2 hr2 (hr.symm.trans hret) hm

/-- With matched indexes in range, the transactions of the matched indexes are read without
fault. -/
theorem matchedTransactions_some (block : Block) (indexes : List Nat)
    (h : ∀ index ∈ indexes, index < block.Transactions.length) :
    ∃ txs, matchedTransactions block indexes = some txs := by
  induction indexes with
  | nil => exact ⟨[], rfl⟩
  | cons index rest ih =>
    obtain ⟨txs, htxs⟩ := ih (fun i hi => h i (List.mem_cons_of_mem _ hi))
    have hlt := h index (List.mem_cons_self _ _)
    rw [matchedTransactions, htxs, List.get?_eq_get hlt]
    exact ⟨_, rfl⟩

/-- When `NewMerkleBlock` gives matched indexes in range, the loop of `onGetData` ends without
fault. -/
theorem getDataLoop_returns (env : ChainEnv) (filterLoaded : Bool) (getData : List InvVect)
    (continueHash : Option Uint256)
    (hidx : ∀ block, ∀ index ∈ env.NewMerkleBlock block, index < block.Transactions.length) :
    ∃ r, getDataLoop env filterLoaded continueHash getData = some r := by
  induction getData generalizing continueHash with
  | nil => exact ⟨_, rfl⟩
  | cons iv rest ih =>
    have hmap : ∀ (ch : Option Uint256) (f : GetDataLoopResult → GetDataLoopResult),
        ∃ r, (getDataLoop env filterLoaded ch rest).map f = some r := by
      intro ch f
      obtain ⟨r2, hr2⟩ := ih ch
      exact ⟨f r2, by rw [hr2]; rfl⟩
    rw [getDataLoop]
    rcases hty : iv.Typ with _ | _ | _ | code
    · simp only []
      rcases env.GetTransactionPool iv.Hash with _ | tx
      · exact hmap _ _
      · exact hmap _ _
    · simp only []
      rcases env.GetBlock iv.Hash with _ | block
      · exact hmap _ _
      · simp only []
        split
        · exact hmap _ _
        · exact hmap _ _
    · simp only []
      split
      · exact ⟨_, rfl⟩
      · rcases env.GetBlock iv.Hash with _ | block
        · exact hmap _ _
        · obtain ⟨txs, htxs⟩ := matchedTransactions_some block (env.NewMerkleBlock block)
            (hidx block)
          simp only [htxs]
          exact hmap _ _
    · exact ih continueHash

/-- Every `getdata` is answered with at most one `notfound`; and when no filtered-block vector
meets a peer without filter, the `notfound` is sent exactly when some vector was not served,
as the last message, and lists the unserved vectors in the order of the request. -/
theorem onGetData_notFound (env : ChainEnv) (h : HandlerEIP001) (getData : List InvVect)
    (h2 : HandlerEIP001) (effects : List HandlerEffect)
    (hres : onGetData env h getData = some (h2, effects)) :
    (sentNotFounds effects).length ≤ 1 ∧
    ((h.filterLoaded = true ∨ ∀ iv ∈ getData, iv.Typ ≠ .InvTypeFilteredBlock) →
      (getData.filter (unserved env) = [] → sentNotFounds effects = []) ∧
      (getData.filter (unserved env) ≠ [] →
        sentNotFounds effects = [getData.filter (unserved env)] ∧
        ∃ served, effects = served ++ [.SendNotFound (getData.filter (unserved env))])) := by
  unfold onGetData at hres
  simp only [Option.map_eq_some', Prod.mk.injEq] at hres
  obtain ⟨r, hr, -, heff⟩ := hres
  have hn := getDataLoop_no_notFound env h.filterLoaded getData h.continueHash r hr
  constructor
  · rw [← heff]
    split
    · rw [hn]
      exact Nat.zero_le _
    · split
      · rw [sentNotFounds_append, hn]
        exact le_refl _
      · rw [hn]
        exact Nat.zero_le _
  · intro hfl
    obtain ⟨hret, hnf⟩ := getDataLoop_notFound env h.filterLoaded getData h.continueHash r hfl hr
    rw [hret, hnf] at heff
    simp only [Bool.false_eq_true, if_false] at heff
    constructor
    · intro hnone
      rw [hnone] at heff
      simp only [List.length_nil, gt_iff_lt, lt_self_iff_false, if_false] at heff
      rw [← heff]
      exact hn
    · intro hsome
      have hpos : (getData.filter (unserved env)).length > 0 := List.length_pos.2 hsome
      rw [if_pos hpos] at heff
      rw [← heff, sentNotFounds_append, hn]
      exact ⟨rfl, r.effects, rfl⟩

/-- C24, failing input: a `getdata` with a block vector the store does not have, followed by a
filtered-block vector, from a peer that has no filter loaded.  The block vector is added to
`notFound`; on the filtered-block vector the handler returns at once, so no `notfound` is sent
although a vector was not served.  The same block vector alone is answered with a
`notfound`. -/
theorem onGetData_return_drops_notFound :
    unserved sampleChainEnv (blockVect 7) = true ∧
    (sampleHandler 1 none).filterLoaded = false ∧
    onGetData sampleChainEnv (sampleHandler 1 none)
      [blockVect 7, ⟨.InvTypeFilteredBlock, List.replicate 32 1⟩] =
      some (sampleHandler 1 none, []) ∧
    onGetData sampleChainEnv (sampleHandler 1 none) [blockVect 7] =
      some (sampleHandler 1 none, [.SendNotFound [blockVect 7]]) := by
  refine ⟨by decide, rfl, by decide, by decide⟩

/-- When no filtered-block vector ahead of it meets a peer without filter, the loop of
`onGetData` reaches a block vector with the hash of the marker; when the store has that block,
the marker is cleared. -/
theorem getDataLoop_reaches_marker (env : ChainEnv) (filterLoaded : Bool)
    (pre post : List InvVect) (c : Uint256) (block : Block) (r : GetDataLoopResult)
    (hpre : ∀ iv ∈ pre, iv.Typ = .InvTypeFilteredBlock → filterLoaded = true)
    (hg : env.GetBlock c = some block)
    (h : getDataLoop env filterLoaded (some c) (pre ++ ⟨.InvTypeBlock, c⟩ :: post) = some r) :
    r.continueHash = none := by
  have hnone : ∀ (l : List InvVect) (r2 : GetDataLoopResult),
      getDataLoop env filterLoaded none l = some r2 → r2.continueHash = none := by
    intro l r2 hr2
    rcases getDataLoop_marker env filterLoaded l none r2 hr2 with
      ⟨-, i2⟩ | ⟨_, _, _, _, hcontra, _⟩
    · exact i2
    · cases hcontra
  induction pre generalizing r with
  | nil =>
    rcases getDataLoop_cons env filterLoaded (some c) _ post r h with
      ⟨-, hty, -⟩ | ⟨block2, r2, -, -, -, hr2, rfl⟩ | ⟨r2, extra, -, -, -, -, -, -, -, hno, -⟩
    · cases hty
    · exact hnone post r2 hr2
    · have := hno rfl rfl
      rw [hg] at this
      cases this
  | cons iv rest ih =>
    rw [List.cons_append] at h
    rcases getDataLoop_cons env filterLoaded (some c) iv _ r h with
      ⟨-, hty, hf⟩ | ⟨block2, r2, -, -, -, hr2, rfl⟩ | ⟨r2, extra, hr2, hch, -, -, -, -, -, -, -⟩
    · have := hpre iv (List.mem_cons_self _ _) hty
      rw [hf] at this
      cases this
    · exact hnone _ r2 hr2
    · rw [hch]
      exact ih r2 (fun v hv => hpre v (List.mem_cons_of_mem _ hv)) hr2

/-- C25: the marker `continueHash` is used at most once.  `onGetBlocks` asks `GetBlockHashes`
for at most `MaxBlocksPerMsg` hashes from the latest hash of the locator; when the lookup fails
or gives no hash it sends nothing and leaves the handler as it is; otherwise it sends the
inventory of these hashes, sets the marker to the last of them when they are `MaxBlocksPerMsg`
in number, and leaves the handler as it is when they are not.  In every `onGetData`, either no
inventory is sent and the handler is left as it is; or the marker was set, the request holds a
block vector with its hash, that block is sent, the inventory of the best block alone follows
it at once, no other inventory is sent and the marker is cleared.  When the handler reaches a
block vector with the hash of the marker, that is when it has not returned on a filtered-block
vector ahead of it, and the store has the block, the second case applies, whatever follows in
the request; on a filtered-block vector from a peer without filter the handler returns at
once.  With the marker cleared no inventory is sent.  With matched indexes in range `onGetData`
ends without fault.  After a full reply of two hashes, a request for the last of them twice
gets the follow-up inventory once; after a reply that is not full it gets none. -/
theorem continueHash_used_once (env : ChainEnv) (h : HandlerEIP001) :
    (∀ req : GetBlocks,
      (env.GetBlockHashes (env.LatestLocatorHash req.Locator) req.HashStop
          env.MaxBlocksPerMsg = none → onGetBlocks env h req = (h, [])) ∧
      (∀ hashes, env.GetBlockHashes (env.LatestLocatorHash req.Locator) req.HashStop
          env.MaxBlocksPerMsg = some hashes →
        (hashes = [] → onGetBlocks env h req = (h, [])) ∧
        (hashes ≠ [] →
          (onGetBlocks env h req).2 =
            [.SendInventory (hashes.map (fun hash => (⟨.InvTypeBlock, hash⟩ : InvVect)))] ∧
          (hashes.length = env.MaxBlocksPerMsg →
            (onGetBlocks env h req).1 = { h with continueHash := hashes.getLast? }) ∧
          (hashes.length ≠ env.MaxBlocksPerMsg → (onGetBlocks env h req).1 = h)))) ∧
    (∀ getData h2 effects, onGetData env h getData = some (h2, effects) →
      (sentInventories effects = [] ∧ h2 = h) ∨
      (∃ c block pre post, h.continueHash = some c ∧ env.GetBlock c = some block ∧
        (⟨.InvTypeBlock, c⟩ : InvVect) ∈ getData ∧ h2 = { h with continueHash := none } ∧
        effects = pre ++ .SendBlock block ::
          .SendInventory [⟨.InvTypeBlock, env.BestChainHash⟩] :: post ∧
        sentInventories pre = [] ∧ sentInventories post = [])) ∧
    (∀ pre post h2 effects c block,
      onGetData env h (pre ++ ⟨.InvTypeBlock, c⟩ :: post) = some (h2, effects) →
      (∀ iv ∈ pre, iv.Typ = .InvTypeFilteredBlock → h.filterLoaded = true) →
      h.continueHash = some c → env.GetBlock c = some block →
      h2.continueHash = none ∧
      sentInventories effects = [[⟨.InvTypeBlock, env.BestChainHash⟩]]) ∧
    (∀ iv rest, iv.Typ = .InvTypeFilteredBlock → h.filterLoaded = false →
      onGetData env h (iv :: rest) = some (h, [])) ∧
    (∀ getData h2 effects, h.continueHash = none →
      onGetData env h getData = some (h2, effects) →
      sentInventories effects = [] ∧ h2.continueHash = none) ∧
    ((∀ block, ∀ index ∈ env.NewMerkleBlock block, index < block.Transactions.length) →
      ∀ getData, ∃ out, onGetData env h getData = some out) ∧
    (onGetBlocks sampleChainEnv (sampleHandler 1 none) ⟨[], EmptyHash⟩ =
      (sampleHandler 1 (some (List.replicate 32 2)),
        [.SendInventory [blockVect 1, blockVect 2]]) ∧
     onGetData sampleChainEnv
      (onGetBlocks sampleChainEnv (sampleHandler 1 none) ⟨[], EmptyHash⟩).1
      [blockVect 2, blockVect 2] =
      some (sampleHandler 1 none,
        [.SendBlock (sampleBlock 2), .SendInventory [blockVect 3],
          .SendBlock (sampleBlock 2)])) ∧
    (onGetBlocks { sampleChainEnv with MaxBlocksPerMsg := 5 } (sampleHandler 1 none)
        ⟨[], EmptyHash⟩ =
      (sampleHandler 1 none, [.SendInventory [blockVect 1, blockVect 2, blockVect 3]]) ∧
     onGetData { sampleChainEnv with MaxBlocksPerMsg := 5 }
      (onGetBlocks { sampleChainEnv with MaxBlocksPerMsg := 5 } (sampleHandler 1 none)
        ⟨[], EmptyHash⟩).1 [blockVect 3, blockVect 3] =
      some (sampleHandler 1 none, [.SendBlock (sampleBlock 3), .SendBlock (sampleBlock 3)])) := by
  have hdata : ∀ getData h2 effects, onGetData env h getData = some (h2, effects) →
      ∃ r, getDataLoop env h.filterLoaded h.continueHash getData = some r ∧
        h2 = { h with continueHash := r.continueHash } ∧
        (effects = r.effects ∨ ∃ nf, effects = r.effects ++ [.SendNotFound nf]) := by
    intro getData h2 effects hres
    unfold onGetData at hres
    simp only [Option.map_eq_some', Prod.mk.injEq] at hres
    obtain ⟨r, hr, hh, heff⟩ := hres
    refine ⟨r, hr, hh.symm, ?_⟩
    rw [← heff]
    split
    · exact Or.inl rfl
    · split
      · exact Or.inr ⟨_, rfl⟩
      · exact Or.inl rfl
  have hinv : ∀ (r : GetDataLoopResult) (effects : List HandlerEffect),
      (effects = r.effects ∨ ∃ nf, effects = r.effects ++ [.SendNotFound nf]) →
      sentInventories effects = sentInventories r.effects := by
    intro r effects he
    rcases he with he | ⟨nf, he⟩
    · rw [he]
    · rw [he, sentInventories_append]
      simp [sentInventories]
  have hmark : ∀ getData h2 effects, onGetData env h getData = some (h2, effects) →
      (sentInventories effects = [] ∧ h2 = h) ∨
      (∃ c block pre post, h.continueHash = some c ∧ env.GetBlock c = some block ∧
        (⟨.InvTypeBlock, c⟩ : InvVect) ∈ getData ∧ h2 = { h with continueHash := none } ∧
        effects = pre ++ .SendBlock block ::
          .SendInventory [⟨.InvTypeBlock, env.BestChainHash⟩] :: post ∧
        sentInventories pre = [] ∧ sentInventories post = []) := by
    intro getData h2 effects hres
    obtain ⟨r, hr, hh, heff⟩ := hdata getData h2 effects hres
    rcases getDataLoop_marker env h.filterLoaded getData h.continueHash r hr with
      ⟨i1, i2⟩ | ⟨c, block, pre, post, j1, j2, j3, j4, j5, j6, j7⟩
    · left
      refine ⟨by rw [hinv r effects heff, i1], ?_⟩
      rw [hh, i2]
    · right
      refine ⟨c, block, pre, ?_⟩
      rcases heff with he | ⟨nf, he⟩
      · exact ⟨post, j1, j2, j3, by rw [hh, j4], by rw [he, j5], j6, j7⟩
      · refine ⟨post ++ [.SendNotFound nf], j1, j2, j3, by rw [hh, j4], ?_, j6, ?_⟩
        · rw [he, j5]
          simp
        · rw [sentInventories_append, j7]
          rfl
  refine ⟨?_, hmark, ?_, ?_, ?_, ?_, ⟨by decide, by decide⟩, ⟨by decide, by decide⟩⟩
  · intro req
    refine ⟨?_, ?_⟩
    · intro hlook
      unfold onGetBlocks
      simp only [hlook]
    · intro hashes hlook
      refine ⟨?_, ?_⟩
      · intro hnil
        unfold onGetBlocks
        simp only [hlook, hnil, List.map_nil, List.length_nil, gt_iff_lt, lt_self_iff_false,
          dite_false]
      · intro hne
        have hpos : (hashes.map (fun hash => (⟨.InvTypeBlock, hash⟩ : InvVect))).length > 0 := by
          rw [List.length_map]
          exact List.length_pos.2 hne
        have hlast : hashes.getLast? = some ((hashes.map
            (fun hash => (⟨.InvTypeBlock, hash⟩ : InvVect))).get
              ⟨(hashes.map (fun hash => (⟨.InvTypeBlock, hash⟩ : InvVect))).length - 1,
                by omega⟩).Hash := by
          rw [List.getLast?_eq_getElem?, List.getElem?_eq_getElem
            (by rw [List.length_map] at hpos; omega)]
          simp
        unfold onGetBlocks
        simp only [hlook]
        split
        · split
          · rename_i hfull
            rw [List.length_map] at hfull
            refine ⟨rfl, fun _ => ?_, fun hn => absurd hfull hn⟩
            rw [hlast]
          · rename_i hfull
            rw [List.length_map] at hfull
            exact ⟨rfl, fun hf => absurd hf hfull, fun _ => rfl⟩
        · rename_i hlen
          exact absurd hpos hlen
  · intro pre post h2 effects c block hres hpre hc hg
    obtain ⟨r, hr, hh, heff⟩ := hdata _ h2 effects hres
    rw [hc] at hr
    have hclear := getDataLoop_reaches_marker env h.filterLoaded pre post c block r hpre hg hr
    refine ⟨by rw [hh]; exact hclear, ?_⟩
    rcases getDataLoop_marker env h.filterLoaded _ (some c) r hr with
      ⟨-, i2⟩ | ⟨_, _, pre2, post2, -, -, -, -, j5, j6, j7⟩
    · rw [hclear] at i2
      cases i2
    · rw [hinv r effects heff, j5, sentInventories_append, j6]
      simp [sentInventories, j7]
  · intro iv rest hty hfl
    have hloop : getDataLoop env h.filterLoaded h.continueHash (iv :: rest) =
        some ⟨h.continueHash, [], true, []⟩ := by
      rw [getDataLoop]
      simp only [hty, hfl, Bool.false_eq_true, not_false_eq_true, if_true]
    unfold onGetData
    rw [hloop]
    rfl
  · intro getData h2 effects hnone hres
    rcases hmark getData h2 effects hres with ⟨i1, i2⟩ | ⟨c, _, _, _, hcontra, _⟩
    · exact ⟨i1, by rw [i2, hnone]⟩
    · rw [hnone] at hcontra
      cases hcontra
  · intro hidx getData
    obtain ⟨r, hr⟩ := getDataLoop_returns env h.filterLoaded getData h.continueHash hidx
    unfold onGetData
    rw [hr]
    exact ⟨_, rfl⟩

/-- Witness for C25: `GetBlockHashes` gives two hashes, a full reply, so the marker is set to
the hash of block 2; the peer then asks for block 2, the marker is cleared and the inventory of
the best block, block 3, is the only one sent. -/
theorem continueHash_used_once_witness :
    (onGetBlocks sampleChainEnv (sampleHandler 1 none) ⟨[], EmptyHash⟩).1 =
      { sampleHandler 1 none with continueHash := some (List.replicate 32 2) } ∧
    (sampleHandler 1 none).continueHash = none ∧
    sentInventories [HandlerEffect.SendBlock (sampleBlock 2),
      HandlerEffect.SendInventory [blockVect 3]] = [[blockVect 3]] :=
  ⟨(((continueHash_used_once sampleChainEnv (sampleHandler 1 none)).1 ⟨[], EmptyHash⟩).2
      [List.replicate 32 1, List.replicate 32 2] (by decide)).2 (by decide) |>.2.1 (by decide),
    (continueHash_used_once sampleChainEnv (sampleHandler 1 (some (List.replicate 32 2)))).2.2.1
      [] [] (sampleHandler 1 none)
      [.SendBlock (sampleBlock 2), .SendInventory [blockVect 3]]
      (List.replicate 32 2) (sampleBlock 2) (by decide) (by decide) rfl (by decide)⟩

/-- The closure of `handleGetNodeMsg` keeps a peer it has found unless a later peer has the
id as well: its result is set exactly when some visited peer has the id. -/
theorem foldl_find_id (id : Nat) (l : List Node) (start : Option Node) :
    (l.foldl (fun nd n => if n.id = id then some n else nd) start).isSome = true ↔
      start.isSome = true ∨ ∃ n ∈ l, n.id = id := by
  induction l generalizing start with
  | nil => simp
  | cons n rest ih =>
    rw [List.foldl_cons, ih]
    by_cases hn : n.id = id
    · simp [hn]
    · simp [hn]

/-- Whatever the enumeration order, `IsNeighborNode` holds exactly of the ids of the peers in
the three maps. -/
theorem IsNeighborNode_iff (env : NodeEnv) (hperm : ∀ m, (env.rangeOrder m).Perm m)
    (state : nodeState) (id : Nat) :
    IsNeighborNode env state id = true ↔ ∃ e ∈ state.entries, e.2.id = id := by
  unfold IsNeighborNode handleGetNodeMsg
  rw [foldl_find_id]
  simp only [Option.isSome_none, Bool.false_eq_true, false_or]
  constructor
  · rintro ⟨n, hn, hid⟩
    obtain ⟨e, he, rfl⟩ := (mem_forAllNodes env hperm state n).1 hn
    exact ⟨e, he, hid⟩
  · rintro ⟨e, he, hid⟩
    exact ⟨e.2, (mem_forAllNodes env hperm state e.2).2 ⟨e, he, rfl⟩, hid⟩

/-- After `DeleteRequestedBlock` the hash is not in the set, and the other hashes are in it as
before. -/
theorem mem_DeleteRequestedBlock (hash x : Uint256) (requested : List Uint256) :
    x ∈ DeleteRequestedBlock hash requested ↔ x ∈ requested ∧ x ≠ hash := by
  unfold DeleteRequestedBlock
  rw [List.mem_filter]
  simp

/-- C26: a block is received from a peer that is registered in one of the three maps, whatever
the order in which `range` enumerates them, and is not in the chain.  When `AddBlock` returns
no error and reports an orphan, `onBlock` sends exactly one `getblocks`, with the locator that
`LatestBlockLocator` returns and the orphan root of the block as stop hash; when `AddBlock`
returns no error and no orphan, or an error, it sends none.  In all these cases the hash of
the block is not in the set of requested blocks afterwards, and the other hashes are in it as
before. -/
theorem onBlock_orphan_getblocks (nodeEnv : NodeEnv)
    (hperm : ∀ m, (nodeEnv.rangeOrder m).Perm m) (state : nodeState) (env : ChainEnv)
    (syncNode : Option Node) (h : HandlerEIP001) (requested : List Uint256) (block : Block)
    (hreg : ∃ e ∈ state.entries, e.2.id = h.node.id)
    (hnew : env.BlockExists block.Hash = false) :
    (∀ inMainChain, env.AddBlock block = (inMainChain, true, none) →
      sentGetBlocks (onBlock nodeEnv state env syncNode h requested block).2 =
        [(env.LatestBlockLocator.1, env.GetOrphanRoot block.Hash)]) ∧
    (∀ inMainChain, env.AddBlock block = (inMainChain, false, none) →
      sentGetBlocks (onBlock nodeEnv state env syncNode h requested block).2 = []) ∧
    (∀ inMainChain isOrphan err, env.AddBlock block = (inMainChain, isOrphan, some err) →
      sentGetBlocks (onBlock nodeEnv state env syncNode h requested block).2 = [] ∧
      (onBlock nodeEnv state env syncNode h requested block).2 =
        [.StallTimerUpdate, .RemoveHeaderListElement block.Hash, .SendReject err block.Hash]) ∧
    block.Hash ∉ (onBlock nodeEnv state env syncNode h requested block).1 ∧
    (∀ x, x ≠ block.Hash →
      (x ∈ (onBlock nodeEnv state env syncNode h requested block).1 ↔ x ∈ requested)) := by
  have hn : IsNeighborNode nodeEnv state h.node.id = true :=
    (IsNeighborNode_iff nodeEnv hperm state h.node.id).2 hreg
  have herr : ∀ m o err, env.AddBlock block = (m, o, some err) →
      onBlock nodeEnv state env syncNode h requested block =
        (DeleteRequestedBlock block.Hash requested,
          [.StallTimerUpdate, .RemoveHeaderListElement block.Hash,
            .SendReject err block.Hash]) := by
    intro m o err hadd
    unfold onBlock
    simp only [hn, hnew, not_true_eq_false, Bool.false_eq_true, if_false, hadd]
  have hok : ∀ m o, env.AddBlock block = (m, o, none) →
      onBlock nodeEnv state env syncNode h requested block =
        (DeleteRequestedBlock block.Hash requested,
          [.StallTimerUpdate, .RemoveHeaderListElement block.Hash] ++
          (if o = true then
            [.PushGetBlocksMsg env.LatestBlockLocator.1 (env.GetOrphanRoot block.Hash)]
            else []) ++
          (if syncNode = none ∧ ¬ env.ExistedID block.Hash = true then [.Relay block]
            else [])) := by
    intro m o hadd
    unfold onBlock
    simp only [hn, hnew, not_true_eq_false, Bool.false_eq_true, if_false, hadd]
  have hfst : (onBlock nodeEnv state env syncNode h requested block).1 =
      DeleteRequestedBlock block.Hash requested := by
    rcases hadd : env.AddBlock block with ⟨m, o, _ | err⟩
    · rw [hok m o hadd]
    · rw [herr m o err hadd]
  refine ⟨?_, ?_, ?_, ?_, ?_⟩
  · intro m hadd
    rw [hok m true hadd]
    simp only [if_true, List.append_assoc, List.cons_append, List.nil_append]
    split <;> rfl
  · intro m hadd
    rw [hok m false hadd]
    simp only [Bool.false_eq_true, if_false, List.append_nil]
    split <;> rfl
  · intro m o err hadd
    rw [herr m o err hadd]
    exact ⟨rfl, rfl⟩
  · rw [hfst, mem_DeleteRequestedBlock]
    exact fun hc => hc.2 rfl
  · intro x hx
    rw [hfst, mem_DeleteRequestedBlock]
    exact ⟨fun hc => hc.1, fun hc => ⟨hc, hx⟩⟩

/-- Witness for C26: the peer of id 1 is registered, block 9 is not in the chain and is added
as an orphan; one `getblocks` is sent and the hash leaves the set of requested blocks. -/
theorem onBlock_orphan_getblocks_witness :
    (∃ e ∈ (runRegistry sampleNodeEnv emptyRegistry
      [.NewNode (some (samplePeer 1 true false 101))]).state.entries,
      e.2.id = (sampleHandler 1 none).node.id) ∧
    sampleChainEnv.BlockExists (sampleBlock 9).Hash = false ∧
    sentGetBlocks (onBlock sampleNodeEnv
      (runRegistry sampleNodeEnv emptyRegistry
        [.NewNode (some (samplePeer 1 true false 101))]).state
      sampleChainEnv none (sampleHandler 1 none) [List.replicate 32 9] (sampleBlock 9)).2 =
      [([List.replicate 32 3], List.replicate 32 9)] ∧
    (onBlock sampleNodeEnv
      (runRegistry sampleNodeEnv emptyRegistry
        [.NewNode (some (samplePeer 1 true false 101))]).state
      sampleChainEnv none (sampleHandler 1 none) [List.replicate 32 9] (sampleBlock 9)).1 = [] :=
  ⟨⟨(1, samplePeer 1 true false 101), by decide, rfl⟩, by decide,
    (onBlock_orphan_getblocks sampleNodeEnv (fun m => List.reverse_perm m)
      (runRegistry sampleNodeEnv emptyRegistry
        [.NewNode (some (samplePeer 1 true false 101))]).state
      sampleChainEnv none (sampleHandler 1 none) [List.replicate 32 9] (sampleBlock 9)
      ⟨(1, samplePeer 1 true false 101), by decide, rfl⟩ (by decide)).1 false rfl,
    by decide⟩

end Elastos
